import Mathlib

/-!
Verification of the Sublogue subtitle processor
(`server/core/subtitle_processor.py` and `server/core/keyword_stripper.py`)
against its natural-language specification.

Python strings are modelled as `List Char` (`PyStr`); Python `int` as `Int`
(arbitrary precision, like CPython); Python floats appear only in the
reading-time model, where the float computation provably coincides with an
exact integer formula (see `calculate_reading_duration_ms`).  Filesystem,
network and locking side effects are modelled by pure functions over the
file's text content; the lock-file protocol is modelled as an explicit state
machine.
-/

namespace Sublogue

/-- Model of a Python `str`: a list of Unicode code points. -/
abbrev PyStr := List Char

/-- Python whitespace (the character set stripped by `str.strip()`, matched by
`\s` and split on by `str.split()`): ASCII whitespace, the control whitespace
code points, NBSP and the Unicode space separators. -/
def isPySpace (c : Char) : Bool :=
  c = ' ' || c = '\t' || c = '\n' || c = '\x0b' || c = '\x0c' || c = '\r' ||
  c = '\x1c' || c = '\x1d' || c = '\x1e' || c = '\x1f' || c = '\x85' ||
  c = '\xa0' || c = '\u1680' || ('\u2000' <= c && c <= '\u200a') ||
  c = '\u2028' || c = '\u2029' || c = '\u202f' || c = '\u205f' || c = '\u3000'

/-- Python `str.strip()`. -/
def pstrip (l : PyStr) : PyStr :=
  (l.dropWhile isPySpace).rdropWhile isPySpace

/-- Python `str.rstrip()`. -/
def prstrip (l : PyStr) : PyStr :=
  l.rdropWhile isPySpace

/-- Python `str.split()` with no argument: split on whitespace runs, dropping
empty fields. -/
def splitWs (l : PyStr) : List PyStr :=
  (l.splitOnP isPySpace).filter (· ≠ [])

/-- Python `str.split('\n')` (all fields kept, including empty ones). -/
def splitNL (l : PyStr) : List PyStr :=
  l.splitOn '\n'

/-- Python `'\n'.join(...)` on a list of lines. -/
def joinNL (ls : List PyStr) : PyStr :=
  List.intercalate ['\n'] ls

/-- Python `' '.join(...)`. -/
def joinSpace (ls : List PyStr) : PyStr :=
  List.intercalate [' '] ls

/-- Characters on which Python `str.splitlines()` breaks lines. -/
def isLineBreak (c : Char) : Bool :=
  c = '\n' || c = '\r' || c = '\x0b' || c = '\x0c' ||
  c = '\x1c' || c = '\x1d' || c = '\x1e' || c = '\x85' ||
  c = '\u2028' || c = '\u2029'

/-- Scanner for `pySplitlines`, accumulating the current line reversed. -/
def pySplitlinesGo (acc : List Char) : List Char → List PyStr
  | [] => [acc.reverse]
  | '\r' :: '\n' :: rest => acc.reverse :: (if rest = [] then [] else pySplitlinesGo [] rest)
  | c :: rest =>
    if isLineBreak c then acc.reverse :: (if rest = [] then [] else pySplitlinesGo [] rest)
    else pySplitlinesGo (c :: acc) rest

/-- Python `str.splitlines()`: split at line-break characters (treating
`"\r\n"` as a single break), with no trailing empty line. -/
def pySplitlines : PyStr → List PyStr
  | [] => []
  | l => pySplitlinesGo [] l

/-- Normalisation performed at the head of `parse_srt`:
`content.replace("\r\n", "\n").replace("\r", "\n")`. -/
def pyNormalizeNewlines : PyStr → PyStr
  | [] => []
  | '\r' :: '\n' :: rest => '\n' :: pyNormalizeNewlines rest
  | '\r' :: rest => '\n' :: pyNormalizeNewlines rest
  | c :: rest => c :: pyNormalizeNewlines rest

/-- Python `content.lstrip("﻿")`: drop every leading byte-order mark. -/
def stripBOM (l : PyStr) : PyStr :=
  l.dropWhile (· = '\uFEFF')

/-- ASCII decimal digit test (models `\d` and `str.isdigit()`; CPython's
versions also admit non-ASCII digit code points, but `int()` rejects the
exotic ones `isdigit` accepts, so on the lines that actually yield an index
the two agree). -/
def isAsciiDigit (c : Char) : Bool :=
  '0' <= c && c <= '9'

/-- Python `str.isdigit()` restricted to ASCII (see `isAsciiDigit`). -/
def pyIsDigit (l : PyStr) : Bool :=
  l ≠ [] && l.all isAsciiDigit

/-- Numeric value of a string of ASCII digits (models `int(s)` on the strings
`parse_srt` applies it to, which are all-digit by construction). -/
def digitsToNat (l : PyStr) : Nat :=
  l.foldl (fun acc c => acc * 10 + (c.toNat - '0'.toNat)) 0

/-- Lower-casing used for the case-insensitive substring checks in the source
(`text.lower()`); ASCII case folding, which agrees with CPython on every
character of the searched-for ASCII phrases. -/
def pyLower (l : PyStr) : PyStr :=
  l.map Char.toLower

/-- Substring containment, Python's `needle in hay`. -/
def containsSub (needle : PyStr) : PyStr → Bool
  | [] => needle.isEmpty
  | hay@(_ :: rest) => needle.isPrefixOf hay || containsSub needle rest

/-- Zero-padded decimal rendering, Python's `f"{n:0Nd}"` for `n ≥ 0`. -/
def padZeros (w : Nat) (s : PyStr) : PyStr :=
  List.replicate (w - s.length) '0' ++ s

/-- Decimal rendering of a natural number (Python `str(n)` for `n ≥ 0`). -/
def natRepr (n : Nat) : PyStr :=
  (Nat.repr n).toList

/-- Decimal rendering of a Python integer, `str(i)`. -/
def intRepr (i : Int) : PyStr :=
  (Int.repr i).toList

/-- Case-insensitive character comparison against an uppercase ASCII letter
(models `re.IGNORECASE` on the literal letters of the token pattern). -/
def charCaseEq (c target : Char) : Bool :=
  c = target || c.toLower = target.toLower

/-- The deliberately unusual sentinel literal, `SUBLOGUE_SENTINEL` in the
source: the characters of `"\x7bSUBLOGUE\x7d"`. -/
def SUBLOGUE_SENTINEL : PyStr := "\x7bSUBLOGUE\x7d".toList

/-- Attempted match of `SUBLOGUE_TOKEN_PATTERN`
(`\x7bSUBLOGUE(?::[^\x7d]*)?\x7d` with `re.IGNORECASE`) at the head of the
string; returns the length of the match.  After the literal head the
backtracking regex either takes the optional group — a colon, then the
shortest run of non-`\x7d` characters followed by `\x7d` — or a bare `\x7d`. -/
def matchSublogueTokenAt (l : PyStr) : Option Nat :=
  match l with
  | '\x7b' :: c1 :: c2 :: c3 :: c4 :: c5 :: c6 :: c7 :: c8 :: rest =>
    if charCaseEq c1 'S' && charCaseEq c2 'U' && charCaseEq c3 'B' &&
       charCaseEq c4 'L' && charCaseEq c5 'O' && charCaseEq c6 'G' &&
       charCaseEq c7 'U' && charCaseEq c8 'E' then
      match rest with
      | '\x7d' :: _ => some 10
      | ':' :: rest2 =>
        let inner := rest2.takeWhile (· ≠ '\x7d')
        if inner.length < rest2.length then some (10 + 1 + inner.length)
        else none
      | _ => none
    else none
  | _ => none

/-- Fuel-driven scanner for `SUBLOGUE_TOKEN_PATTERN.sub("", text)`: delete
each leftmost non-overlapping match (every match has length ≥ 10, so fuel
equal to the string length always suffices). -/
def sublogueTokenSubGo : Nat → PyStr → PyStr
  | 0, l => l
  | _ + 1, [] => []
  | fuel + 1, l@(c :: rest) =>
    match matchSublogueTokenAt l with
    | some k => sublogueTokenSubGo fuel (l.drop k)
    | none => c :: sublogueTokenSubGo fuel rest

/-- Python `SUBLOGUE_TOKEN_PATTERN.sub("", text)`. -/
def sublogueTokenSub (l : PyStr) : PyStr :=
  sublogueTokenSubGo (l.length + 1) l

/-- Python `SUBLOGUE_TOKEN_PATTERN.search(text) is not None`. -/
def sublogueTokenSearch : PyStr → Bool
  | [] => false
  | l@(_ :: rest) => (matchSublogueTokenAt l).isSome || sublogueTokenSearch rest

/-- One parsed or generated subtitle entry (`SubtitleBlock` dataclass). -/
structure SubtitleBlock where
  index : Int
  start_time : Int
  end_time : Int
  text : PyStr
deriving Repr, DecidableEq

/-- Timing triple of a block — the data invariant (c) of the spec speaks
about these `(start_ms, end_ms, text)` triples. -/
def SubtitleBlock.triple (b : SubtitleBlock) : Int × Int × PyStr :=
  (b.start_time, b.end_time, b.text)

/-- Millisecond value of a matched timecode, `_timecode_to_ms`:
`((h*3600 + m*60 + s) * 1000) + ms` with each field read from its digits. -/
def timecodeToMs (h m s ms : Nat) : Int :=
  Int.ofNat (((h * 3600 + m * 60 + s) * 1000) + ms)

/-- Match of `_TIMECODE_RE` anchored at the head of a line:
`\d\d:\d\d:\d\d,\d\d\d` then `\s*-->\s*` then a second timecode.  Returns the
two millisecond values. -/
def matchTimecodeAt (l : PyStr) : Option (Int × Int) :=
  match l with
  | a1 :: a2 :: ':' :: b1 :: b2 :: ':' :: c1 :: c2 :: ',' :: d1 :: d2 :: d3 :: rest =>
    if isAsciiDigit a1 && isAsciiDigit a2 && isAsciiDigit b1 && isAsciiDigit b2 &&
       isAsciiDigit c1 && isAsciiDigit c2 && isAsciiDigit d1 && isAsciiDigit d2 &&
       isAsciiDigit d3 then
      let afterArrow := rest.dropWhile isPySpace
      match afterArrow with
      | '-' :: '-' :: '>' :: rest2 =>
        let rest3 := rest2.dropWhile isPySpace
        match rest3 with
        | e1 :: e2 :: ':' :: f1 :: f2 :: ':' :: g1 :: g2 :: ',' :: h1 :: h2 :: h3 :: _ =>
          if isAsciiDigit e1 && isAsciiDigit e2 && isAsciiDigit f1 && isAsciiDigit f2 &&
             isAsciiDigit g1 && isAsciiDigit g2 && isAsciiDigit h1 && isAsciiDigit h2 &&
             isAsciiDigit h3 then
            some (timecodeToMs (digitsToNat [a1, a2]) (digitsToNat [b1, b2])
                    (digitsToNat [c1, c2]) (digitsToNat [d1, d2, d3]),
                  timecodeToMs (digitsToNat [e1, e2]) (digitsToNat [f1, f2])
                    (digitsToNat [g1, g2]) (digitsToNat [h1, h2, h3]))
          else none
        | _ => none
      | _ => none
    else none
  | _ => none

/-- Python `_TIMECODE_RE.search(line)`: leftmost match anywhere in the line. -/
def searchTimecode : PyStr → Option (Int × Int)
  | [] => none
  | l@(_ :: rest) =>
    match matchTimecodeAt l with
    | some r => some r
    | none => searchTimecode rest

/-- Condition under which the text-collection loop of `parse_srt` keeps
consuming: the line is non-blank and contains no timecode. -/
def isTextLine (l : PyStr) : Bool :=
  pstrip l ≠ [] && (searchTimecode l).isNone

/-- Blank-line test used by `parse_srt` (`not line.strip()`). -/
def isBlankLine (l : PyStr) : Bool :=
  pstrip l = []

/-- Main loop of `parse_srt`, processing the line list; `prev` is the line
before the current position (`lines[i-1]`, absent at the start).  Fuel is the
number of remaining steps; `parse_srt` supplies `lines.length + 1`, which
suffices because every step consumes at least one line. -/
def parseLoop : Nat → Option PyStr → List PyStr → List SubtitleBlock
  | 0, _, _ => []
  | _ + 1, _, [] => []
  | fuel + 1, prev, l :: rest =>
    let ls := pstrip l
    if ls = [] then parseLoop fuel (some l) rest
    else
      match searchTimecode ls with
      | none => parseLoop fuel (some l) rest
      | some (start, stop) =>
        let index : Int :=
          match prev with
          | some p => if pyIsDigit (pstrip p) then Int.ofNat (digitsToNat (pstrip p)) else 0
          | none => 0
        let textLines := rest.takeWhile isTextLine
        let afterText := rest.dropWhile isTextLine
        let blanks := afterText.takeWhile isBlankLine
        let rest2 := afterText.dropWhile isBlankLine
        let text := pstrip (joinNL textLines)
        let prev2 : Option PyStr := some (((l :: textLines) ++ blanks).getLastD l)
        if text ≠ [] then
          ⟨index, start, stop, text⟩ :: parseLoop fuel prev2 rest2
        else
          parseLoop fuel prev2 rest2

/-- Python `parse_srt(content)`: strip the BOM, normalise line endings, split
into lines and scan for timecode lines; always returns (never raises). -/
def parseSrt (content : PyStr) : List SubtitleBlock :=
  let content1 := stripBOM content
  let content2 := pyNormalizeNewlines content1
  let lines := pySplitlines content2
  parseLoop (lines.length + 1) none lines

/-- Python `_ms_to_timecode(ms)`: clamp below at 0, then render
`HH:MM:SS,mmm` with zero-padded fields. -/
def msToTimecode (msIn : Int) : PyStr :=
  let t := msIn.toNat
  let s0 := t / 1000
  let ms := t % 1000
  let h := s0 / 3600
  let s1 := s0 % 3600
  let m := s1 / 60
  let s := s1 % 60
  padZeros 2 (natRepr h) ++ ':' :: padZeros 2 (natRepr m) ++ ':' :: padZeros 2 (natRepr s)
    ++ ',' :: padZeros 3 (natRepr ms)

/-- Line list built by `format_srt` (the `out` accumulator): for each block,
its stored index, the timecode line, its text lines, then a blank line. -/
def formatLines (subs : List SubtitleBlock) : List PyStr :=
  subs.flatMap fun b =>
    [intRepr b.index,
     msToTimecode b.start_time ++ " --> ".toList ++ msToTimecode b.end_time]
    ++ pySplitlines b.text ++ [[]]

/-- Python `format_srt(subs)`: join the lines with `"\n"`, strip trailing
whitespace, and append exactly one final newline. -/
def formatSrt (subs : List SubtitleBlock) : PyStr :=
  prstrip (joinNL (formatLines subs)) ++ ['\n']

/-- Python `count_words(text)`: strip sentinel tokens, then count
whitespace-separated words. -/
def countWords (text : PyStr) : Nat :=
  (splitWs (sublogueTokenSub text)).length

/-- Millisecond floor of `MIN_DURATION_SECONDS`, the `int(MIN_DURATION_SECONDS
* 1000)` the source computes (the double `1.2 * 1000` rounds to exactly
`1200.0`, so the truncation yields 1200). -/
def MIN_DURATION_MS : Int := 1200

/-- Python `calculate_reading_duration_ms(text)` at the repository's only
call pattern (default arguments: wpm 160, bounds 1.2 s and 6.0 s).  The float
computation `int(max(min(wc / (160/60.0), 6.0), 1.2) * 1000)` equals the
exact integer `max (min (wc * 375) 6000) 1200` for every word count `wc`:
below 4 and above 15 words the clamp bounds 1.2 and 6.0 give exactly 1200 and
6000, and for 4–15 words the double quotient times 1000 rounds to the exact
product `wc * 375` (checked value by value). -/
def calculateReadingDurationMs (text : PyStr) : Int :=
  max (min (Int.ofNat (countWords text) * 375) 6000) 1200

/-- TV-safe display constraints, `TV_LINE_WIDTH` and `TV_MAX_LINES`. -/
def TV_LINE_WIDTH : Nat := 55

/-- Maximum lines per subtitle block. -/
def TV_MAX_LINES : Nat := 2

/-- Greedy line filler modelling CPython `textwrap.wrap` with its default
options on the texts this repository wraps: whitespace characters are first
replaced by plain spaces, the text is split into space-separated words, and
lines are filled greedily up to `width` columns with single spaces between
words; a word longer than `width` standing at the start of a line is broken
at the column limit (`break_long_words`).  (The stdlib's additional
hyphen-aware word splitting never fires on space-separated words without
hyphens, which is all the concrete inputs used below.) -/
def textwrapFill (width : Nat) : Nat → List PyStr → PyStr → List PyStr
  | 0, _, cur => if cur = [] then [] else [cur]
  | _ + 1, [], cur => if cur = [] then [] else [cur]
  | fuel + 1, w :: ws, cur =>
    if cur = [] then
      if w.length ≤ width then textwrapFill width fuel ws w
      else (w.take width) :: textwrapFill width fuel ((w.drop width) :: ws) []
    else
      if cur.length + 1 + w.length ≤ width then textwrapFill width fuel ws (cur ++ ' ' :: w)
      else cur :: textwrapFill width fuel (w :: ws) []

/-- Python `textwrap.wrap(text, width=width)` (see `textwrapFill`). -/
def textwrapWrap (width : Nat) (text : PyStr) : List PyStr :=
  let munged := text.map fun c =>
    if c = '\t' || c = '\n' || c = '\x0b' || c = '\x0c' || c = '\r' then ' ' else c
  textwrapFill width (2 * text.length + 2) (splitWs munged) []

/-- Python `wrap_for_tv(text)` with the default width 55 and line limit 2:
wrap, truncate to two lines adding an ellipsis when lines were dropped. -/
def wrapForTv (text : PyStr) : PyStr :=
  let lines := textwrapWrap TV_LINE_WIDTH text
  if lines.length > TV_MAX_LINES then
    let kept := lines.take TV_MAX_LINES
    match kept.reverse with
    | [] => joinNL kept
    | last :: front => joinNL ((prstrip last ++ "...".toList) :: front).reverse
  else joinNL lines

/-- Sentence-boundary split, `re.split(r'(?<=[.!?])\s+', s)`: a maximal
whitespace run immediately preceded by `.`, `!` or `?` separates sentences
(the punctuation stays with the left part).  Fuel is the string length. -/
def splitSentencesGo : Nat → List Char → List Char → List PyStr
  | 0, acc, l => [acc.reverse ++ l]
  | _ + 1, acc, [] => [acc.reverse]
  | fuel + 1, acc, c :: rest =>
    if (c = '.' || c = '!' || c = '?') &&
       (match rest with | r :: _ => isPySpace r | [] => false) then
      (acc.reverse ++ [c]) :: splitSentencesGo fuel [] (rest.dropWhile isPySpace)
    else splitSentencesGo fuel (c :: acc) rest

/-- Python `re.split(r'(?<=[.!?])\s+', s)`. -/
def splitSentences (s : PyStr) : List PyStr :=
  splitSentencesGo (s.length + 1) [] s

/-- Maximum characters per displayed chunk (`width * max_lines`). -/
def MAX_CHARS_PER_CHUNK : Nat := TV_LINE_WIDTH * TV_MAX_LINES

/-- Inner word-boundary loop of `_split_plot_into_display_chunks`, entered
when a single sentence exceeds the chunk budget: greedily pack the sentence's
words, flushing full chunks; the final partial chunk continues as `current`. -/
def splitChunksWordLoop (maxChars : Nat) : List PyStr → List PyStr → PyStr →
    List PyStr × PyStr
  | [], chunks, current => (chunks, current)
  | w :: ws, chunks, current =>
    let testWord := if current ≠ [] then current ++ ' ' :: w else w
    if testWord.length ≤ maxChars then
      splitChunksWordLoop maxChars ws chunks testWord
    else
      if current ≠ [] then splitChunksWordLoop maxChars ws (chunks ++ [current]) w
      else splitChunksWordLoop maxChars ws chunks w

/-- Sentence loop of `_split_plot_into_display_chunks`. -/
def splitChunksLoop (maxChars : Nat) : List PyStr → List PyStr → PyStr →
    List PyStr × PyStr
  | [], chunks, current => (chunks, current)
  | sRaw :: sentences, chunks, current =>
    let s := pstrip sRaw
    if s = [] then splitChunksLoop maxChars sentences chunks current
    else
      let testChunk := if current ≠ [] then current ++ ' ' :: s else s
      if testChunk.length ≤ maxChars then
        splitChunksLoop maxChars sentences chunks testChunk
      else
        let chunks1 := if current ≠ [] then chunks ++ [current] else chunks
        if s.length ≤ maxChars then
          splitChunksLoop maxChars sentences chunks1 s
        else
          let (chunks2, current2) := splitChunksWordLoop maxChars (splitWs s) chunks1 []
          splitChunksLoop maxChars sentences chunks2 current2

/-- Python `_split_plot_into_display_chunks(plot)` with the default width 55
and line limit 2: split at sentence boundaries, fall back to word boundaries
for over-long sentences, never truncating. -/
def splitPlotIntoDisplayChunks (plot : PyStr) : List PyStr :=
  if plot = [] || pstrip plot = [] then []
  else
    let sentences := splitSentences (pstrip plot)
    let (chunks, current) := splitChunksLoop MAX_CHARS_PER_CHUNK sentences [] []
    if current ≠ [] then chunks ++ [current] else chunks

/-- Backward sweep of `_merge_small_trailing_chunks`: starting from the last
index, a chunk with fewer than 6 words is appended to its predecessor when
the merged text still fits 110 characters. -/
def mergeLoop : List PyStr → Nat → List PyStr
  | res, 0 => res
  | res, i + 1 =>
    let idx := i + 1
    let cur := res.getD idx []
    let res2 :=
      if countWords cur < 6 then
        let prev := res.getD (idx - 1) []
        let merged := prev ++ ' ' :: cur
        if merged.length ≤ MAX_CHARS_PER_CHUNK then (res.set (idx - 1) merged).eraseIdx idx
        else res
      else res
    mergeLoop res2 i

/-- Python `_merge_small_trailing_chunks(chunks)` with the default thresholds
(6 words, 110 characters). -/
def mergeSmallTrailingChunks (chunks : List PyStr) : List PyStr :=
  if chunks.length ≤ 1 then chunks
  else mergeLoop chunks (chunks.length - 1)

/-- Newline-run collapsing in `sanitize_subtitle_text`,
`re.sub(r'\n\x7b3,\x7d', '\n\n', s)`: runs of three or more newlines become
two.  The pending-run counter makes the scan structural. -/
def collapseNewlinesGo : Nat → List Char → List Char
  | n, [] => List.replicate (if n ≥ 3 then 2 else n) '\n'
  | n, '\n' :: r => collapseNewlinesGo (n + 1) r
  | n, c :: r => List.replicate (if n ≥ 3 then 2 else n) '\n' ++ c :: collapseNewlinesGo 0 r

/-- Python `re.sub(r'\n\x7b3,\x7d', '\n\n', s)`. -/
def collapseNewlines (s : PyStr) : PyStr :=
  collapseNewlinesGo 0 s

/-- Python `sanitize_subtitle_text(text)`: remove every sentinel-token match,
collapse newline runs, strip. -/
def sanitizeSubtitleText (text : PyStr) : PyStr :=
  pstrip (collapseNewlines (sublogueTokenSub text))

/-- Python `sanitize_all_blocks(blocks)`: sanitize each text, dropping blocks
that become empty. -/
def sanitizeAllBlocks (blocks : List SubtitleBlock) : List SubtitleBlock :=
  blocks.filterMap fun b =>
    let cleanText := sanitizeSubtitleText b.text
    if cleanText ≠ [] then some ⟨b.index, b.start_time, b.end_time, cleanText⟩
    else none

/-- Decision of `strip_existing_plot_blocks` for one block: `true` when the
block is detected as Sublogue-generated (sentinel, legacy signature,
zero-duration, or metadata iconography) and must be removed. -/
def isGeneratedBlock (b : SubtitleBlock) : Bool :=
  let textLower := pyLower b.text
  containsSub SUBLOGUE_SENTINEL b.text || sublogueTokenSearch b.text ||
  containsSub "generated by sublogue".toList textLower ||
  (b.start_time = 0 && b.end_time = 0) ||
  containsSub "imdb:".toList textLower ||
  containsSub "⭐".toList textLower ||
  containsSub "⏱".toList textLower

/-- Python `strip_existing_plot_blocks(blocks)`: keep only the blocks not
detected as generated. -/
def stripExistingPlotBlocks (blocks : List SubtitleBlock) : List SubtitleBlock :=
  blocks.filter fun b => ¬ isGeneratedBlock b

/-- Formatting flags (`SubtitleFormatOptions` dataclass), defaults as in the
source. -/
structure SubtitleFormatOptions where
  title_bold : Bool := true
  plot_italic : Bool := true
  show_director : Bool := false
  show_actors : Bool := false
  show_released : Bool := false
  show_genre : Bool := false
deriving Repr, DecidableEq

/-- Python `DEFAULT_FORMAT_OPTIONS`. -/
def DEFAULT_FORMAT_OPTIONS : SubtitleFormatOptions := {}

/-- Metadata record handed to `build_intro_blocks` (the `movie` dict).  Each
logical key is one optional field; the source's snake-case/camel-case key
fallbacks (`movie.get("imdb_rating") or movie.get("imdbRating")`) are
collapsed into the single field, which is faithful whenever at most one of
the two spellings is populated. -/
structure Movie where
  title : Option PyStr := none
  year : Option PyStr := none
  plot : Option PyStr := none
  imdb_rating : Option PyStr := none
  rotten_tomatoes : Option PyStr := none
  runtime : Option PyStr := none
  director : Option PyStr := none
  actors : Option PyStr := none
  released : Option PyStr := none
  genre : Option PyStr := none
  media_type : Option PyStr := none
deriving Repr

/-- Python truthiness chain `movie.get(k) or ... or "N/A"` followed by the
`in ("", "N/A", None)` normalisation: a missing or empty value becomes
`"N/A"`. -/
def getOrNA (v : Option PyStr) : PyStr :=
  match v with
  | some s => if s = [] then "N/A".toList else s
  | none => "N/A".toList

/-- Leftmost run of decimal digits, `re.search(r'(\d+)', s)`. -/
def firstDigitRun : PyStr → Option PyStr
  | [] => none
  | c :: rest =>
    if isAsciiDigit c then some (c :: rest.takeWhile isAsciiDigit)
    else firstDigitRun rest

/-- Python `s.split(", ")` (exact two-character separator, used for the actor
list). -/
def splitCommaSpace : Nat → PyStr → List PyStr
  | 0, l => [l]
  | _ + 1, [] => [[]]
  | fuel + 1, ',' :: ' ' :: rest => [] :: splitCommaSpace fuel rest
  | fuel + 1, c :: rest =>
    match splitCommaSpace fuel rest with
    | [] => [[c]]
    | fld :: flds => (c :: fld) :: flds

/-- Python `", ".join(parts)`. -/
def joinCommaSpace (parts : List PyStr) : PyStr :=
  List.intercalate [',', ' '] parts

/-- Header text constructed by `build_intro_blocks`: sentinel line, title
line, ratings line, optional extra lines, a blank line, attribution. -/
def buildHeaderText (movie : Movie) (fo : SubtitleFormatOptions) : PyStr :=
  let title := movie.title.getD "Unknown Title".toList
  let year := movie.year.getD []
  let imdbRating := getOrNA movie.imdb_rating
  let rtRating := getOrNA movie.rotten_tomatoes
  let runtimeRaw := getOrNA movie.runtime
  let runtime :=
    if runtimeRaw ≠ "N/A".toList then
      match firstDigitRun runtimeRaw with
      | some digits => digits ++ " min".toList
      | none => runtimeRaw
    else "N/A".toList
  let director := getOrNA movie.director
  let actors := getOrNA movie.actors
  let released := getOrNA movie.released
  let genre := getOrNA movie.genre
  let titleDisplay := if fo.title_bold then "<b>".toList ++ title ++ "</b>".toList else title
  let titleLine := titleDisplay ++ " (".toList ++ year ++ ")".toList
  let infoLine := "⭐ IMDb: ".toList ++ imdbRating ++ "   🍅 RT: ".toList ++ rtRating
    ++ "   ⏱ ".toList ++ runtime
  let extra1 := if fo.show_director && director ≠ "N/A".toList then
    ["🎬 Director: ".toList ++ director] else []
  let extra2 := if fo.show_actors && actors ≠ "N/A".toList then
    (let actorList := splitCommaSpace (actors.length + 1) actors
     let actorsDisplay := if actorList.length > 3 then
       joinCommaSpace (actorList.take 3) ++ "...".toList else actors
     ["🎭 Cast: ".toList ++ actorsDisplay]) else []
  let extra3 := if fo.show_released && released ≠ "N/A".toList then
    ["📅 Released: ".toList ++ released] else []
  let extra4 := if fo.show_genre && genre ≠ "N/A".toList then
    ["🎞 Genre: ".toList ++ genre] else []
  let headerParts := [SUBLOGUE_SENTINEL, titleLine, infoLine]
    ++ (extra1 ++ extra2 ++ extra3 ++ extra4)
    ++ [[], "— Generated by Sublogue".toList]
  joinNL headerParts

/-- Plot-chunk text constructed by the local `format_plot_chunk`: sentinel
line, then the wrapped chunk, italicised per the options, with a `Plot: `
prefix only on the first chunk. -/
def formatPlotChunk (fo : SubtitleFormatOptions) (chunkText : PyStr) (isFirstChunk : Bool) : PyStr :=
  let wrapped := wrapForTv chunkText
  let styled := if fo.plot_italic then "<i>".toList ++ wrapped ++ "</i>".toList else wrapped
  if isFirstChunk then SUBLOGUE_SENTINEL ++ '\n' :: "Plot: ".toList ++ styled
  else SUBLOGUE_SENTINEL ++ '\n' :: styled

/-- Clamp of the local `safe_end_time`: proposed end capped at
`first_subtitle_start_ms - 1`. -/
def safeEndTime (firstSubtitleStartMs proposedEnd : Int) : Int :=
  min proposedEnd (firstSubtitleStartMs - 1)

/-- Chunk loop of placement Case 1 (full fit): every chunk at its natural
reading duration, ends clamped. -/
def case1Loop (firstMs : Int) (fo : SubtitleFormatOptions) :
    List PyStr → Int → Nat → List SubtitleBlock
  | [], _, _ => []
  | chunk :: rest, currentMs, i =>
    let chunkDuration := calculateReadingDurationMs chunk
    let chunkEnd := safeEndTime firstMs (currentMs + chunkDuration)
    let chunkText := formatPlotChunk fo chunk (i = 0)
    ⟨Int.ofNat (i + 2), currentMs, chunkEnd, chunkText⟩ :: case1Loop firstMs fo rest chunkEnd (i + 1)

/-- Chunk loop of placement Case 2 (compressed fit): time distributed
proportionally to word counts.  CPython computes the proportional share with
a double multiplication; the exact quotient used here can differ from the
float by at most one millisecond, and no theorem below depends on the exact
share. -/
def case2Loop (firstMs : Int) (fo : SubtitleFormatOptions) (plotAvailableMs : Int)
    (totalWords : Nat) (mergedLen : Nat) :
    List PyStr → Int → Nat → List SubtitleBlock
  | [], _, _ => []
  | chunk :: rest, currentMs, i =>
    let chunkWords := countWords chunk
    let chunkDuration : Int :=
      if totalWords > 0 then
        max ((plotAvailableMs * Int.ofNat chunkWords) / Int.ofNat totalWords) MIN_DURATION_MS
      else plotAvailableMs / Int.ofNat mergedLen
    let chunkEnd := safeEndTime firstMs (currentMs + chunkDuration)
    let chunkText := formatPlotChunk fo chunk (i = 0)
    ⟨Int.ofNat (i + 2), currentMs, chunkEnd, chunkText⟩ :: case2Loop firstMs fo plotAvailableMs totalWords mergedLen rest chunkEnd (i + 1)

/-- Chunk loop of placement Case 3 (partial fit): fit as many chunks as the
window allows; once the next chunk is the last that fits, any remaining
chunks are concatenated into it rather than dropped. -/
def case3Loop (firstMs : Int) (gapMs : Int) (fo : SubtitleFormatOptions)
    (mergedLen : Nat) :
    List PyStr → Int → Nat → Nat → List SubtitleBlock
  | [], _, _, _ => []
  | chunk :: rest, currentMs, i, chunksAdded =>
    let remainingMs := (firstMs - gapMs) - currentMs
    if remainingMs < MIN_DURATION_MS then []
    else
      let chunkDuration0 := calculateReadingDurationMs chunk
      let chunkDuration := max (min chunkDuration0 remainingMs) MIN_DURATION_MS
      let chunkEnd := safeEndTime firstMs (currentMs + chunkDuration)
      let isLastFitting := (i = mergedLen - 1) || (remainingMs - chunkDuration < MIN_DURATION_MS)
      let chunk2 := if isLastFitting && i < mergedLen - 1 then
        joinSpace (chunk :: rest) else chunk
      let chunkText := formatPlotChunk fo chunk2 (chunksAdded = 0)
      let block : SubtitleBlock := ⟨Int.ofNat (chunksAdded + 2), currentMs, chunkEnd, chunkText⟩
      if isLastFitting then [block]
      else block :: case3Loop firstMs gapMs fo mergedLen rest chunkEnd (i + 1) (chunksAdded + 1)

/-- Python `build_intro_blocks(movie, plot, first_subtitle_start_ms,
min_safe_gap_ms=500, format_options=None)`.  The source's `plot_text`,
`plot_duration_ms` and `total_ideal_duration_ms` locals feed only log lines
and are omitted; the final `assert` is the non-overlap property proved below
rather than part of the returned value. -/
def buildIntroBlocks (movie : Movie) (plot : PyStr) (firstSubtitleStartMs : Int)
    (minSafeGapMs : Int) (formatOptions : SubtitleFormatOptions) :
    List SubtitleBlock :=
  let fo := formatOptions
  let headerText := buildHeaderText movie fo
  let availableTimeMs := firstSubtitleStartMs - minSafeGapMs
  let minRequiredMs := MIN_DURATION_MS + minSafeGapMs
  if firstSubtitleStartMs < minRequiredMs then []
  else
    let headerDurationMs := calculateReadingDurationMs headerText
    let plotChunks := splitPlotIntoDisplayChunks plot
    let totalPlotDurationMs := (plotChunks.map calculateReadingDurationMs).sum
    let totalNeededMs := headerDurationMs + totalPlotDurationMs
    if availableTimeMs ≥ totalNeededMs then
      let mergedChunks := mergeSmallTrailingChunks plotChunks
      ⟨1, 0, headerDurationMs, headerText⟩ ::
        case1Loop firstSubtitleStartMs fo mergedChunks headerDurationMs 0
    else if availableTimeMs ≥ headerDurationMs + MIN_DURATION_MS * Int.ofNat plotChunks.length then
      let mergedChunks := mergeSmallTrailingChunks plotChunks
      let headerEndMs := min headerDurationMs
        (max MIN_DURATION_MS (availableTimeMs / (Int.ofNat mergedChunks.length + 1)))
      let plotAvailableMs := availableTimeMs - headerEndMs
      let totalWords := (mergedChunks.map countWords).sum
      ⟨1, 0, headerEndMs, headerText⟩ ::
        case2Loop firstSubtitleStartMs fo plotAvailableMs totalWords mergedChunks.length
          mergedChunks headerEndMs 0
    else if availableTimeMs ≥ headerDurationMs + MIN_DURATION_MS then
      let mergedChunks := mergeSmallTrailingChunks plotChunks
      let headerEndMs := min headerDurationMs (availableTimeMs / 2)
      ⟨1, 0, headerEndMs, headerText⟩ ::
        case3Loop firstSubtitleStartMs minSafeGapMs fo mergedChunks.length
          mergedChunks headerEndMs 0 0
    else if availableTimeMs ≥ MIN_DURATION_MS then
      let blockEndMs := safeEndTime firstSubtitleStartMs (firstSubtitleStartMs - minSafeGapMs)
      let title := movie.title.getD "Unknown Title".toList
      let year := movie.year.getD []
      let briefText := SUBLOGUE_SENTINEL ++ '\n' :: title ++ " (".toList ++ year
        ++ ")\n— Generated by Sublogue".toList
      [⟨1, 0, blockEndMs, briefText⟩]
    else []

/-- Word character for `\b` (ASCII letters, digits, underscore; CPython's
Unicode-aware `\w` agrees on the ASCII phrases these patterns contain). -/
def isWordChar (c : Char) : Bool :=
  isAsciiDigit c || ('a' <= c && c <= 'z') || ('A' <= c && c <= 'Z') || c = '_'

/-- Regular-expression syntax needed by `keyword_stripper.py`'s subtitle
cleaning patterns: literals, character classes, concatenation, alternation,
greedy Kleene star, the anchors `^` and `$`, and the word boundary `\b`.
Counted repetition, `+`, `?` and `\x7bn,\x7d` are desugared via the smart
constructors below. -/
inductive Rx where
  | eps
  | lit (c : Char)
  | cls (p : Char → Bool)
  | seq (a b : Rx)
  | alt (a b : Rx)
  | star (a : Rx)
  | bol
  | eol
  | wb

/-- Structural size of a pattern, used to bound the matcher's fuel. -/
def rxSize : Rx → Nat
  | .eps | .lit _ | .cls _ | .bol | .eol | .wb => 1
  | .seq a b | .alt a b => rxSize a + rxSize b + 1
  | .star a => rxSize a + 1

/-- Backtracking matcher in continuation style, mirroring CPython's `re`
semantics on these patterns: alternatives are tried left first, repetition is
greedy, and the first success (in that priority order) determines the match.
Literals compare case-insensitively (all the stripper's patterns carry
`re.IGNORECASE`).  The star's progress check rejects empty-body iterations,
which CPython likewise never repeats.  Fuel decreases at every node; the
wrappers below supply more than the maximal possible backtracking depth. -/
def rxRun : Nat → Rx → Option Char → List Char → (Option Char → List Char → Option PyStr) →
    Option PyStr
  | 0, _, _, _, _ => none
  | _ + 1, .eps, prev, s, k => k prev s
  | _ + 1, .lit c, _, s, k =>
    match s with
    | [] => none
    | x :: rest => if charCaseEq x c then k (some x) rest else none
  | _ + 1, .cls p, _, s, k =>
    match s with
    | [] => none
    | x :: rest => if p x then k (some x) rest else none
  | fuel + 1, .seq a b, prev, s, k =>
    rxRun fuel a prev s fun p2 s2 => rxRun fuel b p2 s2 k
  | fuel + 1, .alt a b, prev, s, k =>
    (rxRun fuel a prev s k) <|> (rxRun fuel b prev s k)
  | fuel + 1, .star a, prev, s, k =>
    (rxRun fuel a prev s fun p2 s2 =>
      if s2.length < s.length then rxRun fuel (.star a) p2 s2 k else none) <|> k prev s
  | _ + 1, .bol, prev, s, k => if prev = none then k prev s else none
  | _ + 1, .eol, prev, s, k => if s = [] then k prev s else none
  | _ + 1, .wb, prev, s, k =>
    let before := match prev with | some c => isWordChar c | none => false
    let after := match s with | c :: _ => isWordChar c | [] => false
    if before ≠ after then k prev s else none

/-- Length of the leftmost-starting-here match of `r`, with `prev` the
character before the current position. -/
def rxMatchHere (r : Rx) (prev : Option Char) (s : List Char) : Option Nat :=
  match rxRun ((rxSize r + 2) * (s.length + 2)) r prev s (fun _ s2 => some s2) with
  | some s2 => some (s.length - s2.length)
  | none => none

/-- Scanner for `pattern.sub(repl, s)`: delete each leftmost non-overlapping
match, emitting `repl` in its place.  Every pattern this model substitutes
with matches at least one character, so an empty match is treated as no
match (CPython would insert `repl` and advance — identical output for the
substitutions performed here). -/
def rxSubGo (r : Rx) (repl : PyStr) : Nat → Option Char → List Char → PyStr
  | 0, _, s => s
  | _ + 1, _, [] => []
  | fuel + 1, prev, s@(c :: rest) =>
    match rxMatchHere r prev s with
    | some k =>
      if k ≥ 1 then repl ++ rxSubGo r repl fuel (some ((s.take k).getLastD c)) (s.drop k)
      else c :: rxSubGo r repl fuel (some c) rest
    | none => c :: rxSubGo r repl fuel (some c) rest

/-- Python `pattern.sub(repl, s)`. -/
def rxSub (r : Rx) (repl : PyStr) (s : PyStr) : PyStr :=
  rxSubGo r repl (s.length + 1) none s

/-- Scanner for `pattern.search(s) is not None` (also tries the position at
the end of the string, where `^\s*$`-style patterns can match). -/
def rxSearchGo (r : Rx) : Nat → Option Char → List Char → Bool
  | 0, _, _ => false
  | fuel + 1, prev, s =>
    match rxMatchHere r prev s with
    | some _ => true
    | none =>
      match s with
      | [] => false
      | c :: rest => rxSearchGo r fuel (some c) rest

/-- Python `pattern.search(s) is not None`. -/
def rxSearch (r : Rx) (s : PyStr) : Bool :=
  rxSearchGo r (s.length + 2) none s

/-- Literal string pattern (each character matched case-insensitively). -/
def rxStr (s : String) : Rx :=
  (s.toList.map Rx.lit).foldr Rx.seq Rx.eps

/-- Pattern `a+`. -/
def rxPlus (a : Rx) : Rx := Rx.seq a (Rx.star a)

/-- Pattern `a?` (greedy: presence tried first). -/
def rxOpt (a : Rx) : Rx := Rx.alt a Rx.eps

/-- Pattern `a\x7bn,\x7d`: at least `n` repetitions, greedy. -/
def rxRep (n : Nat) (a : Rx) : Rx :=
  (List.replicate n a).foldr Rx.seq (Rx.star a)

/-- Class `\s`. -/
def rxWs : Rx := Rx.cls isPySpace

/-- Pattern `\s+`. -/
def rxWsP : Rx := rxPlus rxWs

/-- Class `[a-z0-9\-]` under `re.IGNORECASE` (upper-case letters match too). -/
def rxDomainChar : Rx :=
  Rx.cls fun c => isAsciiDigit c || ('a' <= c.toLower && c.toLower <= 'z') || c = '-'

/-- Alternation over the top-level domains of the URL watermark pattern. -/
def rxTld : Rx :=
  [rxStr "com", rxStr "org", rxStr "net", rxStr "io", rxStr "tv",
   rxStr "mx", rxStr "am", rxStr "lt"].foldr Rx.alt (rxStr "ag")

/-- The `SUBTITLE_WATERMARKS` pattern list of `KeywordStripper`, in source
order, each transliterated from its Python regex. -/
def SUBTITLE_WATERMARKS : List Rx :=
  [rxStr "yts.mx",
   rxStr "yts.am",
   rxStr "yts.lt",
   rxStr "yts.ag",
   Rx.seq Rx.wb (Rx.seq (rxStr "yts") Rx.wb),
   Rx.seq Rx.wb (Rx.seq (rxStr "yify") Rx.wb),
   Rx.seq Rx.wb (Rx.seq (rxStr "rarbg") Rx.wb),
   Rx.seq Rx.wb (Rx.seq (rxStr "eztv") Rx.wb),
   Rx.seq Rx.wb (Rx.seq (rxStr "ettv") Rx.wb),
   rxStr "torrentgalaxy",
   Rx.seq Rx.wb (Rx.seq (rxStr "tgx") Rx.wb),
   rxStr "1337x",
   Rx.seq (rxStr "limetorrent") (rxOpt (Rx.lit 's')),
   Rx.seq Rx.wb (Rx.seq (rxStr "evo") Rx.wb),
   Rx.seq Rx.wb (Rx.seq (rxStr "psa") Rx.wb),
   Rx.seq Rx.wb (Rx.seq (rxStr "fgt") Rx.wb),
   Rx.seq (rxStr "opensubtitle") (rxOpt (Rx.lit 's')),
   rxStr "subscene",
   rxStr "addic7ed",
   rxStr "podnapisi",
   Rx.seq (rxStr "yifysubtitle") (rxOpt (Rx.lit 's')),
   Rx.seq (rxStr "sub") (Rx.seq (rxOpt (Rx.lit '.')) (rxStr "scene")),
   Rx.seq (rxStr "legendas") (Rx.seq (rxOpt (Rx.lit '.')) (rxStr "tv")),
   Rx.seq (rxStr "shooter") (Rx.seq (rxOpt (Rx.lit '.')) (rxStr "cn")),
   rxStr "subhd",
   Rx.seq (rxStr "downloaded") (Rx.seq rxWsP (rxStr "from")),
   Rx.seq (rxStr "subtitle") (Rx.seq (rxOpt (Rx.lit 's')) (Rx.seq rxWsP (rxStr "by"))),
   Rx.seq (rxStr "sync")
     (Rx.seq (rxOpt (Rx.alt (rxStr "ed") (rxStr "hronized")))
       (Rx.seq rxWsP
         (Rx.seq (rxOpt (Rx.seq (rxStr "and") rxWsP))
           (Rx.seq (rxStr "correct")
             (Rx.seq (rxOpt (Rx.alt (rxStr "ed") (Rx.seq (rxStr "ion") (rxOpt (Rx.lit 's')))))
               (Rx.seq rxWsP (rxStr "by"))))))),
   Rx.seq (rxStr "ripped") (Rx.seq rxWsP (rxStr "by")),
   Rx.seq (rxStr "encode") (Rx.seq (rxOpt (Rx.lit 'd')) (Rx.seq rxWsP (rxStr "by"))),
   Rx.seq (rxStr "resync") (Rx.seq (rxOpt (Rx.lit 'e')) (Rx.seq (rxOpt (Rx.lit 'd'))
     (Rx.seq rxWsP (rxStr "by")))),
   Rx.seq (rxStr "improved") (Rx.seq rxWsP (rxStr "by")),
   Rx.seq (rxStr "fixed") (Rx.seq rxWsP (rxStr "by")),
   Rx.seq (rxStr "translated") (Rx.seq rxWsP (rxStr "by")),
   Rx.seq (rxStr "captioned") (Rx.seq rxWsP (rxStr "by")),
   Rx.seq (rxStr "support") (Rx.seq rxWsP (Rx.seq (rxStr "us") (Rx.seq rxWsP (rxStr "and")))),
   Rx.seq (rxStr "get") (Rx.seq rxWsP (Rx.seq (rxStr "more") (Rx.seq rxWsP (rxStr "subtitles")))),
   Rx.seq (rxStr "quality") (Rx.seq rxWsP (rxStr "subtitles")),
   Rx.seq (rxStr "best") (Rx.seq rxWsP (rxStr "subtitles")),
   Rx.seq (rxStr "free") (Rx.seq rxWsP (rxStr "subtitles")),
   Rx.seq (rxStr "www.") (Rx.seq (rxPlus rxDomainChar) (Rx.seq (Rx.lit '.') rxTld)),
   Rx.seq (rxStr "http") (Rx.seq (rxOpt (Rx.lit 's')) (Rx.seq (rxStr "://")
     (rxPlus (Rx.cls fun c => ¬ isPySpace c)))),
   rxStr "@yaborr",
   rxStr "@sub_scene",
   Rx.seq (rxStr "follow") (Rx.seq rxWsP (Rx.seq (rxStr "us") (Rx.seq rxWsP (rxStr "on")))),
   Rx.seq (rxStr "join") (Rx.seq rxWsP (Rx.seq (rxStr "us") (Rx.seq rxWsP (rxStr "at")))),
   Rx.seq (rxStr "visit") (Rx.seq rxWsP (Rx.seq (rxStr "us") (Rx.seq rxWsP (rxStr "at")))),
   Rx.seq (rxStr "advertise") (Rx.seq rxWsP (rxStr "here")),
   Rx.seq (rxStr "membership") (Rx.seq rxWsP (Rx.seq (rxOpt (Rx.seq (rxStr "is") rxWsP))
     (rxStr "free"))),
   Rx.seq (rxStr "become") (Rx.seq rxWsP (Rx.seq (rxStr "a") (Rx.seq rxWsP (rxStr "member")))),
   Rx.seq (rxStr "register") (Rx.seq rxWsP
     ((rxStr "now").alt ((rxStr "today").alt (rxStr "free")))),
   Rx.seq (rxStr "sign") (Rx.seq rxWsP (Rx.seq (rxStr "up") (Rx.seq rxWsP
     ((rxStr "now").alt ((rxStr "today").alt (rxStr "free"))))))]

/-- Class `[\s\-_]` of the block-remover prefixes. -/
def rxJunkPrefixChar : Rx :=
  Rx.cls fun c => isPySpace c || c = '-' || c = '_'

/-- The `SUBTITLE_BLOCK_REMOVERS` pattern list of `KeywordStripper`, in
source order (compiled with `re.MULTILINE`, irrelevant here because they are
applied to single lines without newlines). -/
def SUBTITLE_BLOCK_REMOVERS : List Rx :=
  [Rx.seq Rx.bol (Rx.seq (Rx.star rxJunkPrefixChar) (Rx.seq (rxOpt (rxStr "www.")) (rxStr "yts"))),
   Rx.seq Rx.bol (Rx.seq (Rx.star rxJunkPrefixChar) (Rx.seq (rxOpt (rxStr "www.")) (rxStr "rarbg"))),
   Rx.seq Rx.bol (Rx.seq (Rx.star rxJunkPrefixChar) (rxStr "opensubtitles")),
   Rx.seq Rx.bol (Rx.seq (Rx.star rxJunkPrefixChar) (rxStr "subscene")),
   Rx.seq Rx.bol (Rx.seq (Rx.star rxJunkPrefixChar)
     (Rx.seq (rxStr "downloaded") (Rx.seq rxWsP (rxStr "from")))),
   Rx.seq Rx.bol (Rx.seq (Rx.star rxJunkPrefixChar)
     (Rx.seq (rxStr "subtitle") (Rx.seq (rxOpt (Rx.lit 's')) (Rx.seq rxWsP (rxStr "by"))))),
   Rx.seq Rx.bol (Rx.seq (Rx.star rxJunkPrefixChar)
     (Rx.seq (rxStr "sync") (Rx.seq (rxOpt (rxStr "ed"))
       (Rx.seq rxWsP (Rx.seq (rxOpt (Rx.seq (rxStr "and") rxWsP)) (rxStr "correct")))))),
   Rx.seq Rx.bol (Rx.seq (Rx.star rxJunkPrefixChar)
     (Rx.seq (rxStr "support") (Rx.seq rxWsP (rxStr "us")))),
   Rx.seq Rx.bol (Rx.seq (Rx.star rxJunkPrefixChar)
     (Rx.seq (rxStr "get") (Rx.seq rxWsP (Rx.seq (rxOpt (Rx.seq (rxStr "more") rxWsP))
       (rxStr "subtitles"))))),
   Rx.seq Rx.bol (Rx.seq (Rx.star rxJunkPrefixChar)
     (Rx.seq (rxStr "quality") (Rx.seq rxWsP (rxStr "subtitles")))),
   Rx.seq Rx.bol (Rx.seq (Rx.star rxJunkPrefixChar) (rxStr "advertise")),
   Rx.seq Rx.bol (Rx.seq (rxRep 10 (Rx.cls fun c => isPySpace c || c = '-' || c = '=' ||
     c = '_' || c = '*')) Rx.eol),
   Rx.seq Rx.bol (Rx.seq (Rx.star rxWs) Rx.eol)]

/-- Class `[\s\-_\.\,\!\?\:\;]+` used by `should_remove_subtitle_block`. -/
def rxPunctRun : Rx :=
  rxPlus (Rx.cls fun c => isPySpace c || c = '-' || c = '_' || c = '.' || c = ',' ||
    c = '!' || c = '?' || c = ':' || c = ';')

/-- ASCII alphanumeric test, the class `[a-zA-Z0-9]`. -/
def containsAlnum (l : PyStr) : Bool :=
  l.any fun c => isAsciiDigit c || ('a' <= c && c <= 'z') || ('A' <= c && c <= 'Z')

/-- Python `KeywordStripper.should_remove_subtitle_block(text)`: a block is
removed when every non-blank line either matches a block-remover pattern or
reduces to nothing once watermarks and punctuation are deleted. -/
def shouldRemoveSubtitleBlock (text : PyStr) : Bool :=
  let lines := splitNL (pstrip text)
  let nonAdLines := lines.foldl (fun acc lineRaw =>
    let line := pstrip lineRaw
    if line = [] then acc
    else
      let isAdLine := SUBTITLE_BLOCK_REMOVERS.any fun p => rxSearch p line
      let isAdLine2 :=
        if ¬ isAdLine then
          let tempLine := SUBTITLE_WATERMARKS.foldl (fun l p => rxSub p [] l) line
          let tempLine2 := rxSub rxPunctRun [] tempLine
          tempLine2 = []
        else true
      if isAdLine2 then acc else acc + 1) 0
  nonAdLines = 0

/-- Python `KeywordStripper.clean_subtitle_text(text)`: per line, delete
watermark matches, collapse whitespace, drop emptied lines; finally drop
lines with no alphanumeric character. -/
def cleanSubtitleText (text : PyStr) : PyStr :=
  let lines := splitNL text
  let cleanedLines := lines.filterMap fun line =>
    let c1 := SUBTITLE_WATERMARKS.foldl (fun l p => rxSub p [] l) line
    let c2 := pstrip (rxSub rxWsP [' '] c1)
    if c2 ≠ [] then some c2 else none
  let result := joinNL cleanedLines
  let resultLines := (splitNL result).filter containsAlnum
  joinNL resultLines

/-- Python `KeywordStripper.clean_subtitle_blocks(blocks)` specialised to the
`SubtitleBlock` round trip `process_file` performs around it (the dict
conversion preserves index and timing fields). -/
def cleanSubtitleBlocks (blocks : List SubtitleBlock) : List SubtitleBlock :=
  blocks.filterMap fun b =>
    if shouldRemoveSubtitleBlock b.text then none
    else
      let cleanedText := cleanSubtitleText b.text
      if pstrip cleanedText = [] then none
      else some ⟨b.index, b.start_time, b.end_time, cleanedText⟩

/-- Python `SubtitleProcessor.PLOT_SCAN_LINES`. -/
def PLOT_SCAN_LINES : Nat := 40

/-- Python `SubtitleProcessor._has_plot_fast(path)` applied to the file's
text content: scan the first 40 lines (text-mode reading translates CRLF/CR
to LF) for the sentinel or the legacy attribution phrase. -/
def hasPlotFast (content : PyStr) : Bool :=
  ((splitNL (pyNormalizeNewlines content)).take PLOT_SCAN_LINES).any fun line =>
    containsSub SUBLOGUE_SENTINEL line ||
    containsSub "generated by sublogue".toList (pyLower line)

/-- Renumbering performed by `process_file` before writing: indices become
the contiguous sequence 1, 2, … while timings and text are untouched. -/
def renumberBlocks (blocks : List SubtitleBlock) : List SubtitleBlock :=
  blocks.mapIdx fun i b => ⟨Int.ofNat i + 1, b.start_time, b.end_time, b.text⟩

/-- Index lines of a serialized SRT text: the (stripped) lines immediately
preceding a timecode line, which is what an SRT reader treats as the entry
numbers. -/
def srtIndexLines (content : PyStr) : List PyStr :=
  let lines := pySplitlines (pyNormalizeNewlines (stripBOM content))
  (lines.zip lines.tail).filterMap fun p =>
    if (searchTimecode (pstrip p.2)).isSome then some (pstrip p.1) else none

/-- Result of one `process_file` invocation — the discriminated result
contract of the spec.  `skipped` and `error` perform no write; `processed`
carries the exact text written (atomically) back to the file.  The metadata
payload of the Python result dict is irrelevant to the claims and omitted. -/
inductive ProcResult where
  | error (msg : PyStr)
  | skipped
  | processed (newContent : PyStr)
deriving Repr, DecidableEq

/-- Pure core of `SubtitleProcessor.process_file`: everything from the
in-lock re-check to the atomic write, as a function of the file's current
text `content` and the already-resolved metadata `movie` (the network fetch
happens before the lock and its outcome is an input here; a `None` fetch
result yields the `No metadata found` failure before this core runs).  The
file-existence and size guards, the lock acquisition itself, and the
enrichment of an explicit override are outside this pure core; `titleOverride`
records whether an override was supplied, which disables the skip check. -/
def processContent (content : PyStr) (movie : Movie)
    (forceReprocess : Bool) (titleOverride : Bool)
    (formatOptions : SubtitleFormatOptions)
    (cleanSubtitleContent : Bool) : ProcResult :=
  let plot := pstrip (movie.plot.getD [])
  if plot = [] then .error "Empty plot".toList
  else if hasPlotFast content && ¬ forceReprocess && ¬ titleOverride then .skipped
  else
    let subs := parseSrt content
    if subs = [] then .error "No valid subtitle blocks found".toList
    else
      let cleanSubs0 := stripExistingPlotBlocks subs
      if cleanSubs0 = [] then .error "No dialogue subtitles found after cleaning".toList
      else
        let cleanSubs := if cleanSubtitleContent then cleanSubtitleBlocks cleanSubs0 else cleanSubs0
        if cleanSubtitleContent && cleanSubs = [] then
          .error "No dialogue subtitles found after ad removal".toList
        else
          match cleanSubs with
          | [] => .error "No dialogue subtitles found after ad removal".toList
          | firstClean :: _ =>
            let firstSubtitleStartMs := firstClean.start_time
            let introBlocks := buildIntroBlocks movie plot firstSubtitleStartMs 500 formatOptions
            let finalBlocks := introBlocks ++ cleanSubs
            let renumbered := renumberBlocks finalBlocks
            let numIntro := introBlocks.length
            if h : renumbered.length > numIntro then
              let preservedFirst := renumbered.get ⟨numIntro, h⟩
              if preservedFirst.start_time ≠ firstSubtitleStartMs then
                .error "Internal error: timing corruption detected".toList
              else
                .processed (formatSrt (sanitizeAllBlocks renumbered))
            else
              .processed (formatSrt (sanitizeAllBlocks renumbered))

/-- Outcome of one `file_lock` acquisition attempt in an environment where
another process's lock marker may be present: whether the lock was acquired,
and whether the other holder's marker is still on disk afterwards. -/
structure LockOutcome where
  acquired : Bool
  otherMarkerRemains : Bool
deriving Repr, DecidableEq

/-- State machine of the `file_lock` context manager's acquisition loop plus
its `finally` clause, with time in tenths of a second (one poll sleep =
`0.1 s`, timeout = `30 s` = 300 tenths, staleness = `60 s` = 600 tenths) and
the marker-file age growing with elapsed time.  Branches, in source order:
exclusive create succeeds when no marker exists; a marker older than the
staleness threshold is unlinked and the loop retries immediately; past the
timeout `FileLockError` is raised — and the `finally` clause then unlinks the
lock path unconditionally, removing the *other* holder's marker.  The model
idealises time: only `time.sleep(0.1)` advances the clock. -/
def fileLockRun : Nat → Nat → Nat → Bool → LockOutcome
  | 0, _, _, otherPresent => ⟨false, otherPresent⟩
  | fuel + 1, elapsed, otherAge0, otherPresent =>
    if ¬ otherPresent then
      ⟨true, false⟩
    else if otherAge0 + elapsed > 600 then
      fileLockRun fuel elapsed otherAge0 false
    else if elapsed > 300 then
      ⟨false, false⟩
    else
      fileLockRun fuel (elapsed + 1) otherAge0 otherPresent

/-- One `file_lock(path, timeout=30.0)` attempt against a competing holder
whose marker is `otherAge0` tenths of a second old at the start and who keeps
the lock for the whole window. -/
def fileLockAttempt (otherAge0 : Nat) : LockOutcome :=
  fileLockRun 1000 0 otherAge0 true

/-! Concrete inputs used by the claim theorems. -/

/-- Metadata record used by the demonstration runs. -/
def demoMovie : Movie :=
  { title := some "T".toList, year := some "2020".toList, plot := some "Nice film.".toList }

/-- Two-entry input file, its first dialogue entry containing a double space. -/
def demoInput : PyStr :=
  ("1\n00:00:10,000 --> 00:00:12,500\nHello  world\n\n" ++
   "2\n00:00:13,000 --> 00:00:15,000\nHow are you?\n").toList

/-- Content `process_file` writes for `demoInput` and `demoMovie` under
default options (computed by the model; `Hello  world` has lost its double
space to the content cleaner's whitespace collapsing). -/
def demoProcessedOutput : PyStr :=
  ("1\n00:00:00,000 --> 00:00:05,250\n<b>T</b> (2020)\n" ++
   "⭐ IMDb: N/A   🍅 RT: N/A   ⏱ N/A\n\n— Generated by Sublogue\n\n" ++
   "2\n00:00:05,250 --> 00:00:06,450\nPlot: <i>Nice film.</i>\n\n" ++
   "3\n00:00:10,000 --> 00:00:12,500\nHello world\n\n" ++
   "4\n00:00:13,000 --> 00:00:15,000\nHow are you?\n").toList

/-- Input whose first (and only) entry starts at 900 ms: no intro fits. -/
def lateStartInput : PyStr :=
  "1\n00:00:00,900 --> 00:00:02,000\nHi there.\n".toList

/-- Metadata whose plot is the adversarial nested token. -/
def nestedTokenMovie : Movie :=
  { title := some "T".toList, year := some "2020".toList,
    plot := some "\x7bSUBLOGUE\x7bSUBLOGUE\x7d\x7d".toList }

/-- Single-entry input starting at 10 s, used for the sanitisation run. -/
def plainInput : PyStr :=
  "1\n00:00:10,000 --> 00:00:12,500\nHi there.\n".toList

/-- Content written for `plainInput` and `nestedTokenMovie`: the plot entry
still carries a sentinel token after sanitisation. -/
def nestedTokenOutput : PyStr :=
  ("1\n00:00:00,000 --> 00:00:05,250\n<b>T</b> (2020)\n" ++
   "⭐ IMDb: N/A   🍅 RT: N/A   ⏱ N/A\n\n— Generated by Sublogue\n\n" ++
   "2\n00:00:05,250 --> 00:00:06,450\nPlot: <i>\x7bSUBLOGUE\x7d</i>\n\n" ++
   "3\n00:00:10,000 --> 00:00:12,500\nHi there.\n").toList

/-- Input with a reversed timecode pair (start 2 s, end 1 s). -/
def reversedInput : PyStr :=
  "1\n00:00:02,000 --> 00:00:01,000\nHi\n".toList

/-- Well-formedness of a block's payload, strong enough for the serialize/parse
round trip: timings in-range for the fixed-width `HH:MM:SS,mmm` rendering, text
non-empty, stripped, broken only by `'\n'`, with every line non-blank and free
of timecodes (also after stripping). -/
@[reducible] def RoundTrippableData (b : SubtitleBlock) : Prop :=
  0 ≤ b.start_time ∧ b.start_time < 360000000 ∧
  0 ≤ b.end_time ∧ b.end_time < 360000000 ∧
  b.text ≠ [] ∧ pstrip b.text = b.text ∧
  ∀ line ∈ splitNL b.text,
    pstrip line ≠ [] ∧ searchTimecode line = none ∧
    searchTimecode (pstrip line) = none ∧ ∀ c ∈ line, isLineBreak c = false

/-- A fully well-formed entry: positive index plus well-formed payload. -/
@[reducible] def RoundTrippable (b : SubtitleBlock) : Prop :=
  1 ≤ b.index ∧ RoundTrippableData b

/-- The timecode line `format_srt` writes for a block. -/
def tcLine (b : SubtitleBlock) : PyStr :=
  msToTimecode b.start_time ++ " --> ".toList ++ msToTimecode b.end_time

/-- The lines of one serialized block: stored index, timecode line, text lines. -/
def blockLines (b : SubtitleBlock) : List PyStr :=
  intRepr b.index :: tcLine b :: splitNL b.text

/-- The line list of a serialized file body (blocks separated by one blank
line, no trailing blank): `format_srt`'s output before the final newline. -/
def srtLines : List SubtitleBlock → List PyStr
  | [] => []
  | b :: rest => blockLines b ++ (if rest.isEmpty then [] else [] :: srtLines rest)


set_option maxRecDepth 1000000

/-- C9: the claim says a `file_lock` caller that did not create the marker
leaves a fresh (non-stale) foreign marker in place when acquisition times
out.  The code's `finally` clause instead unlinks the lock path
unconditionally: against a competing holder whose marker is 0 s old,
the attempt raises `FileLockError` (`acquired = false`) *and* removes the
other holder's fresh marker (`otherMarkerRemains = false`). -/
theorem C9_lock_timeout_unlinks_fresh_foreign_marker :
    fileLockAttempt 0 = ⟨false, false⟩ := by decide

/-- C6 (counterexample): the claim says the builder returns `[]` whenever
`first_subtitle_start_ms - 500 < 1700` (`available_ms < MIN_MS +
safety_gap_ms`).  At `first_subtitle_start_ms = 2000` that bound gives
`1500 < 1700`, yet the code (which tests `first_subtitle_start_ms < 1700`)
produces a non-empty brief-header intro. -/
theorem C6_counterexample :
    (2000 : Int) - 500 < 1700 ∧
    buildIntroBlocks demoMovie "Nice film.".toList 2000 500 DEFAULT_FORMAT_OPTIONS ≠ [] := by
  decide

/-- C6 (amended): `build_intro_blocks` returns the empty list exactly when
`first_subtitle_start_ms < MIN_MS + safety_gap_ms = 1700` — equivalently,
when `available_ms < MIN_MS` — and produces a non-empty intro for every
larger start, for every metadata record, plot and format options. -/
theorem C6_empty_iff_first_below_min_plus_gap
    (movie : Movie) (plot : PyStr) (first : Int) (fo : SubtitleFormatOptions) :
    buildIntroBlocks movie plot first 500 fo = [] ↔ first < 1700 := by
  unfold buildIntroBlocks
  simp only [MIN_DURATION_MS]
  split_ifs with h1 h2 h3 h4 h5 <;> simp <;> omega

/-- C7 (counterexample): the claim says `format_srt` renumbers entries from 1
regardless of stored indices.  Serialising a single block whose stored index
is 5 yields an output whose only index line is `5`, not `1`. -/
theorem C7_counterexample :
    srtIndexLines (formatSrt [⟨5, 0, 1000, "Hi".toList⟩]) = ["5".toList] ∧
    ["5".toList] ≠ [intRepr 1] := by decide

/-- C5 (counterexample): the claim's well-formedness (index ≥ 1,
`0 ≤ start ≤ end`, non-empty text) is satisfied by a single entry whose text
contains a blank line, yet the round trip drops everything after the blank
line, so the `(start, end, text)` tuples differ. -/
theorem C5_counterexample :
    (1 : Int) ≤ 1 ∧ (0 : Int) ≤ 0 ∧ (0 : Int) ≤ 1000 ∧ "a\n\nb".toList ≠ ([] : PyStr) ∧
    (parseSrt (formatSrt [⟨1, 0, 1000, "a\n\nb".toList⟩])).map SubtitleBlock.triple ≠
      [(⟨1, 0, 1000, "a\n\nb".toList⟩ : SubtitleBlock)].map SubtitleBlock.triple := by decide

/-- C2 (counterexample): under default options (content cleaning on), the
original entry `(10000, 12500, "Hello  world")` of `demoInput` is not
preserved byte-identically: the run succeeds with status `Processed`, but the
written file's entries carry `"Hello world"` — the cleaner collapsed the
double space — so the original triple is absent from the output. -/
theorem C2_counterexample :
    processContent demoInput demoMovie false false DEFAULT_FORMAT_OPTIONS true =
      ProcResult.processed demoProcessedOutput ∧
    (10000, 12500, "Hello  world".toList) ∈
      (stripExistingPlotBlocks (parseSrt demoInput)).map SubtitleBlock.triple ∧
    (10000, 12500, "Hello  world".toList) ∉
      (parseSrt demoProcessedOutput).map SubtitleBlock.triple := by decide

/-- C3 (counterexample): for a file whose first entry starts at 900 ms the
first run writes byte-identical content back (no intro fits), and because
the output carries no sentinel or attribution line, the second run — the
same invocation on the same bytes — again reports `Processed`, not the
`Skipped` the claim requires (the bytes do remain identical). -/
theorem C3_counterexample :
    processContent lateStartInput demoMovie false false DEFAULT_FORMAT_OPTIONS true =
      ProcResult.processed lateStartInput ∧
    processContent lateStartInput demoMovie false false DEFAULT_FORMAT_OPTIONS true ≠
      ProcResult.skipped := by decide

/-- Idempotence of `pstrip`. -/
theorem pstrip_idem (l : PyStr) : pstrip (pstrip l) = pstrip l := by
  unfold pstrip
  have h1 : (l.dropWhile isPySpace).dropWhile isPySpace = l.dropWhile isPySpace := by
    cases h : l.dropWhile isPySpace with
    | nil => simp
    | cons a t =>
      have ha : isPySpace a = false := by
        have := List.head?_dropWhile_not isPySpace l
        rw [h] at this
        simpa using this
      simp [List.dropWhile_cons, ha]
  have hpre : (l.dropWhile isPySpace).rdropWhile isPySpace <+: l.dropWhile isPySpace :=
    List.rdropWhile_prefix _ _
  have h2 : ((l.dropWhile isPySpace).rdropWhile isPySpace).dropWhile isPySpace =
      (l.dropWhile isPySpace).rdropWhile isPySpace := by
    rcases hpre with ⟨t, ht⟩
    cases h : (l.dropWhile isPySpace).rdropWhile isPySpace with
    | nil => simp
    | cons a t2 =>
      have ha : isPySpace a = false := by
        have hh : l.dropWhile isPySpace = a :: (t2 ++ t) := by rw [← ht, h]; simp
        have := List.head?_dropWhile_not isPySpace l
        rw [hh] at this
        simpa using this
      simp [List.dropWhile_cons, ha]
  rw [h2, List.rdropWhile_idempotent]

/-- Timecode values are sums of digit products, hence non-negative. -/
theorem timecodeToMs_nonneg (h m s ms : Nat) : 0 ≤ timecodeToMs h m s ms :=
  Int.ofNat_nonneg _

/-- A successful anchored timecode match yields non-negative millisecond
values. -/
theorem matchTimecodeAt_nonneg {l : PyStr} {s e : Int}
    (h : matchTimecodeAt l = some (s, e)) : 0 ≤ s ∧ 0 ≤ e := by
  unfold matchTimecodeAt at h
  repeat' (first | (dsimp only [] at h) | split at h)
  all_goals first
    | exact Option.noConfusion h
    | (simp only [Option.some.injEq, Prod.mk.injEq] at h
       obtain ⟨h1, h2⟩ := h
       subst h1
       subst h2
       exact ⟨timecodeToMs_nonneg _ _ _ _, timecodeToMs_nonneg _ _ _ _⟩)

/-- A successful timecode search yields non-negative millisecond values. -/
theorem searchTimecode_nonneg {l : PyStr} {s e : Int}
    (h : searchTimecode l = some (s, e)) : 0 ≤ s ∧ 0 ≤ e := by
  induction l with
  | nil => simp [searchTimecode] at h
  | cons c rest ih =>
    unfold searchTimecode at h
    cases hm : matchTimecodeAt (c :: rest) with
    | some r =>
      rw [hm] at h
      cases h
      exact matchTimecodeAt_nonneg hm
    | none =>
      rw [hm] at h
      exact ih h

/-- Every block emitted by the parse loop has non-negative timings and
non-empty, fully stripped text. -/
theorem parseLoop_mem : ∀ (fuel : Nat) (prev : Option PyStr) (lines : List PyStr),
    ∀ b ∈ parseLoop fuel prev lines,
      0 ≤ b.start_time ∧ 0 ≤ b.end_time ∧ pstrip b.text = b.text ∧ b.text ≠ [] := by
  intro fuel
  induction fuel with
  | zero => intro prev lines b hb; simp [parseLoop] at hb
  | succ fuel ih =>
    intro prev lines b hb
    match lines with
    | [] => simp [parseLoop] at hb
    | l :: rest =>
      rw [parseLoop.eq_def] at hb
      dsimp only [] at hb
      by_cases hls : pstrip l = []
      · rw [if_pos hls] at hb
        exact ih _ _ b hb
      · rw [if_neg hls] at hb
        cases hsearch : searchTimecode (pstrip l) with
        | none => rw [hsearch] at hb; exact ih _ _ b hb
        | some se =>
          obtain ⟨start, stop⟩ := se
          rw [hsearch] at hb
          dsimp only [] at hb
          by_cases htext : pstrip (joinNL (rest.takeWhile isTextLine)) = []
          · rw [if_neg (by simpa using htext)] at hb
            exact ih _ _ b hb
          · rw [if_pos (by simpa using htext)] at hb
            rcases List.mem_cons.mp hb with rfl | hb2
            · exact ⟨(searchTimecode_nonneg hsearch).1, (searchTimecode_nonneg hsearch).2,
                pstrip_idem _, htext⟩
            · exact ih _ _ b hb2

/-- C10: `parse_srt` is total (it is a function of the content string, and
its only `int` conversions are applied to digit strings, so no exception
escapes), every returned block has non-negative `start_time` and `end_time`
and non-empty fully-trimmed text, and a reversed timecode pair is returned
as-is: on `reversedInput` the parser yields start 2000 ms after end 1000 ms
without enforcing `end ≥ start`. -/
theorem C10_parse_total_nonneg_and_reversed_passthrough :
    (∀ content : PyStr, ∀ b ∈ parseSrt content,
        0 ≤ b.start_time ∧ 0 ≤ b.end_time ∧ pstrip b.text = b.text ∧ b.text ≠ []) ∧
    parseSrt reversedInput = [⟨1, 2000, 1000, "Hi".toList⟩] ∧ (1000 : Int) < 2000 :=
  ⟨fun _ b hb => parseLoop_mem _ _ _ b hb, by decide, by decide⟩

/-- Witness for C10 at the concrete reversed-timecode input. -/
theorem C10_witness :
    0 ≤ (⟨1, 2000, 1000, "Hi".toList⟩ : SubtitleBlock).start_time ∧
    0 ≤ (⟨1, 2000, 1000, "Hi".toList⟩ : SubtitleBlock).end_time ∧
    pstrip (⟨1, 2000, 1000, "Hi".toList⟩ : SubtitleBlock).text =
      (⟨1, 2000, 1000, "Hi".toList⟩ : SubtitleBlock).text ∧
    (⟨1, 2000, 1000, "Hi".toList⟩ : SubtitleBlock).text ≠ [] :=
  C10_parse_total_nonneg_and_reversed_passthrough.1 reversedInput _ (by decide)

/-- Reading durations are clamped below at `MIN_DURATION_MS`. -/
theorem calcDur_ge (t : PyStr) : 1200 ≤ calculateReadingDurationMs t :=
  le_max_right _ _

/-- Total plot duration is non-negative. -/
theorem totalPlotDuration_nonneg (chunks : List PyStr) :
    0 ≤ (chunks.map calculateReadingDurationMs).sum := by
  apply List.sum_nonneg
  intro x hx
  obtain ⟨c, _, rfl⟩ := List.mem_map.mp hx
  exact le_trans (by omega) (calcDur_ge c)

/-- Every block that ends the Case-1 chunk loop is clamped below
`first_subtitle_start_ms`. -/
theorem case1Loop_last_le (firstMs : Int) (fo : SubtitleFormatOptions) :
    ∀ (chunks : List PyStr) (cur : Int) (i : Nat) (b : SubtitleBlock),
      (case1Loop firstMs fo chunks cur i).getLast? = some b → b.end_time ≤ firstMs - 1 := by
  intro chunks
  induction chunks with
  | nil => intro cur i b h; simp [case1Loop] at h
  | cons c rest ih =>
    intro cur i b h
    rw [case1Loop, List.getLast?_cons] at h
    cases hr : (case1Loop firstMs fo rest (safeEndTime firstMs (cur + calculateReadingDurationMs c)) (i + 1)).getLast? with
    | some b2 =>
      rw [hr] at h
      cases h
      exact ih _ _ b2 hr
    | none =>
      rw [hr] at h
      cases h
      exact min_le_right _ _

/-- Every block that ends the Case-2 chunk loop is clamped below
`first_subtitle_start_ms`. -/
theorem case2Loop_last_le (firstMs : Int) (fo : SubtitleFormatOptions)
    (plotAvailableMs : Int) (totalWords mergedLen : Nat) :
    ∀ (chunks : List PyStr) (cur : Int) (i : Nat) (b : SubtitleBlock),
      (case2Loop firstMs fo plotAvailableMs totalWords mergedLen chunks cur i).getLast? = some b →
        b.end_time ≤ firstMs - 1 := by
  intro chunks
  induction chunks with
  | nil => intro cur i b h; simp [case2Loop] at h
  | cons c rest ih =>
    intro cur i b h
    rw [case2Loop, List.getLast?_cons] at h
    generalize hend : safeEndTime firstMs _ = chunkEnd at h
    cases hr : (case2Loop firstMs fo plotAvailableMs totalWords mergedLen rest chunkEnd (i + 1)).getLast? with
    | some b2 =>
      rw [hr] at h
      cases h
      exact ih _ _ b2 hr
    | none =>
      rw [hr] at h
      cases h
      exact hend ▸ min_le_right _ _

/-- Every block that ends the Case-3 chunk loop is clamped below
`first_subtitle_start_ms`. -/
theorem case3Loop_last_le (firstMs gapMs : Int) (fo : SubtitleFormatOptions) (mergedLen : Nat) :
    ∀ (chunks : List PyStr) (cur : Int) (i added : Nat) (b : SubtitleBlock),
      (case3Loop firstMs gapMs fo mergedLen chunks cur i added).getLast? = some b →
        b.end_time ≤ firstMs - 1 := by
  intro chunks
  induction chunks with
  | nil => intro cur i added b h; simp [case3Loop] at h
  | cons c rest ih =>
    intro cur i added b h
    rw [case3Loop.eq_def] at h
    dsimp only [] at h
    by_cases hrem : (firstMs - gapMs) - cur < MIN_DURATION_MS
    · rw [if_pos hrem] at h
      simp at h
    · rw [if_neg hrem] at h
      by_cases hlast : ((i = mergedLen - 1) || (((firstMs - gapMs) - cur) -
          max (min (calculateReadingDurationMs c) ((firstMs - gapMs) - cur)) MIN_DURATION_MS <
            MIN_DURATION_MS : Bool)) = true
      · rw [if_pos hlast] at h
        simp only [List.getLast?_singleton, Option.some.injEq] at h
        subst h
        exact min_le_right _ _
      · rw [if_neg hlast] at h
        rw [List.getLast?_cons] at h
        generalize hend : safeEndTime firstMs _ = chunkEnd at h
        cases hr : (case3Loop firstMs gapMs fo mergedLen rest chunkEnd (i + 1) (added + 1)).getLast? with
        | some b2 =>
          rw [hr] at h
          cases h
          exact ih _ _ _ b2 hr
        | none =>
          rw [hr] at h
          cases h
          exact hend ▸ min_le_right _ _

/-- C1: the Intro Block Builder never overlaps the first original entry —
for every metadata record, non-empty plot, non-negative
`first_subtitle_start_ms` and the default 500 ms safety gap, the output is
either empty or its last block ends strictly before
`first_subtitle_start_ms`, whichever of the five placement strategies fires. -/
theorem C1_intro_blocks_non_overlap (movie : Movie) (plot : PyStr) (first : Int)
    (fo : SubtitleFormatOptions) (hplot : pstrip plot ≠ []) (hfirst : 0 ≤ first) :
    buildIntroBlocks movie plot first 500 fo = [] ∨
    ∃ b, (buildIntroBlocks movie plot first 500 fo).getLast? = some b ∧ b.end_time < first := by
  by_cases hlt : first < MIN_DURATION_MS + 500
  · left
    unfold buildIntroBlocks
    rw [if_pos hlt]
  · rw [buildIntroBlocks.eq_def]
    dsimp only []
    rw [if_neg hlt]
    simp only [MIN_DURATION_MS] at hlt
    split_ifs with h1 h2 h3 h4
    · -- Case 1: full fit
      right
      rw [List.getLast?_cons]
      cases hr : (case1Loop first fo
          (mergeSmallTrailingChunks (splitPlotIntoDisplayChunks plot))
          (calculateReadingDurationMs (buildHeaderText movie fo)) 0).getLast? with
      | some b2 =>
        refine ⟨b2, by simp, ?_⟩
        have := case1Loop_last_le first fo _ _ _ _ hr
        omega
      | none =>
        refine ⟨_, rfl, ?_⟩
        have hsum := totalPlotDuration_nonneg (splitPlotIntoDisplayChunks plot)
        simp only [Option.getD_none]
        omega
    · -- Case 2: compressed fit
      right
      rw [List.getLast?_cons]
      cases hr : (case2Loop first fo _ _ _
          (mergeSmallTrailingChunks (splitPlotIntoDisplayChunks plot)) _ 0).getLast? with
      | some b2 =>
        refine ⟨b2, by simp, ?_⟩
        have := case2Loop_last_le first fo _ _ _ _ _ _ _ hr
        omega
      | none =>
        refine ⟨_, rfl, ?_⟩
        simp only [Option.getD_none]
        have hdiv : (first - 500) / (Int.ofNat (mergeSmallTrailingChunks
            (splitPlotIntoDisplayChunks plot)).length + 1) ≤ first - 500 :=
          Int.ediv_le_self _ (by omega)
        have hmin : min (calculateReadingDurationMs (buildHeaderText movie fo))
            (max MIN_DURATION_MS ((first - 500) / (Int.ofNat (mergeSmallTrailingChunks
              (splitPlotIntoDisplayChunks plot)).length + 1))) ≤
            max MIN_DURATION_MS ((first - 500) / (Int.ofNat (mergeSmallTrailingChunks
              (splitPlotIntoDisplayChunks plot)).length + 1)) := min_le_right _ _
        simp only [MIN_DURATION_MS] at hmin ⊢
        omega
    · -- Case 3: partial fit
      right
      rw [List.getLast?_cons]
      cases hr : (case3Loop first 500 fo _
          (mergeSmallTrailingChunks (splitPlotIntoDisplayChunks plot)) _ 0 0).getLast? with
      | some b2 =>
        refine ⟨b2, by simp, ?_⟩
        have := case3Loop_last_le first 500 fo _ _ _ _ _ _ hr
        omega
      | none =>
        refine ⟨_, rfl, ?_⟩
        simp only [Option.getD_none]
        have hdiv : (first - 500) / 2 ≤ first - 500 := Int.ediv_le_self _ (by omega)
        have hmin : min (calculateReadingDurationMs (buildHeaderText movie fo))
            ((first - 500) / 2) ≤ (first - 500) / 2 := min_le_right _ _
        omega
    · -- Case 4: brief header
      right
      refine ⟨_, List.getLast?_singleton _, ?_⟩
      show safeEndTime first (first - 500) < first
      unfold safeEndTime
      exact lt_of_le_of_lt (min_le_right _ _) (by omega)
    · -- unreachable fifth branch
      left
      rfl

/-- Witness for C1 at the concrete demo metadata, plot and a 10 s gap. -/
theorem C1_witness :
    pstrip "Nice film.".toList ≠ [] ∧ (0 : Int) ≤ 10000 ∧
    (buildIntroBlocks demoMovie "Nice film.".toList 10000 500 DEFAULT_FORMAT_OPTIONS = [] ∨
     ∃ b, (buildIntroBlocks demoMovie "Nice film.".toList 10000 500
        DEFAULT_FORMAT_OPTIONS).getLast? = some b ∧ b.end_time < 10000) :=
  ⟨by decide, by decide,
   C1_intro_blocks_non_overlap demoMovie "Nice film.".toList 10000 DEFAULT_FORMAT_OPTIONS
     (by decide) (by decide)⟩

/-- Prepending a whitespace character does not change the word list. -/
theorem splitWs_cons_space {c : Char} (hc : isPySpace c = true) (l : PyStr) :
    splitWs (c :: l) = splitWs l := by
  unfold splitWs
  rw [List.splitOnP_cons, if_pos hc]
  simp

/-- Splitting on a whitespace separator distributes over the two sides. -/
theorem splitOnP_append_sep {c : Char} (hc : isPySpace c = true) (a b : PyStr) :
    (a ++ c :: b).splitOnP isPySpace = a.splitOnP isPySpace ++ b.splitOnP isPySpace := by
  induction a with
  | nil => simp [List.splitOnP_cons, hc]
  | cons x a' ih =>
    by_cases hx : isPySpace x = true
    · simp [List.splitOnP_cons, hx, ih]
    · simp only [List.cons_append, List.splitOnP_cons, hx, if_false, Bool.false_eq_true, ih]
      cases h : a'.splitOnP isPySpace with
      | nil => exact absurd h (List.splitOnP_ne_nil _ _)
      | cons hd tl => simp

/-- A whitespace character splits the word list of a concatenation. -/
theorem splitWs_append_sep {c : Char} (hc : isPySpace c = true) (a b : PyStr) :
    splitWs (a ++ c :: b) = splitWs a ++ splitWs b := by
  unfold splitWs
  rw [splitOnP_append_sep hc, List.filter_append]

/-- A string of whitespace has no words. -/
theorem splitWs_all_space : ∀ {l : PyStr}, (∀ c ∈ l, isPySpace c = true) → splitWs l = [] := by
  intro l
  induction l with
  | nil => intro _; rfl
  | cons c rest ih =>
    intro h
    rw [splitWs_cons_space (h c (List.mem_cons_self c rest))]
    exact ih fun x hx => h x (List.mem_cons_of_mem _ hx)

/-- A non-empty string without whitespace is a single word. -/
theorem splitWs_no_space {l : PyStr} (hne : l ≠ []) (h : ∀ c ∈ l, isPySpace c = false) :
    splitWs l = [l] := by
  unfold splitWs
  rw [List.splitOnP_eq_single _ _ (fun x hx => by simp [h x hx])]
  simp [hne]

/-- Fields produced by `splitOnP` contain no separator characters. -/
theorem splitOnP_mem_no_sep : ∀ {l w : PyStr}, w ∈ l.splitOnP isPySpace →
    ∀ c ∈ w, isPySpace c = false := by
  intro l
  induction l with
  | nil =>
    intro w hw c hc
    simp [List.splitOnP_nil] at hw
    subst hw
    simp at hc
  | cons x rest ih =>
    intro w hw c hc
    rw [List.splitOnP_cons] at hw
    by_cases hx : isPySpace x = true
    · rw [if_pos hx] at hw
      rcases List.mem_cons.mp hw with rfl | hw2
      · simp at hc
      · exact ih hw2 c hc
    · rw [if_neg hx] at hw
      cases hrest : rest.splitOnP isPySpace with
      | nil => exact absurd hrest (List.splitOnP_ne_nil _ _)
      | cons hd tl =>
        rw [hrest] at hw
        simp only [List.modifyHead] at hw
        rcases List.mem_cons.mp hw with rfl | hw2
        · rcases List.mem_cons.mp hc with rfl | hc2
          · simpa using hx
          · exact ih (hrest ▸ List.mem_cons_self hd tl) c hc2
        · exact ih (hrest ▸ List.mem_cons_of_mem hd hw2) c hc

/-- Words are non-empty and whitespace-free. -/
theorem splitWs_mem {l w : PyStr} (h : w ∈ splitWs l) :
    w ≠ [] ∧ ∀ c ∈ w, isPySpace c = false := by
  unfold splitWs at h
  have := List.mem_filter.mp h
  exact ⟨by simpa using this.2, splitOnP_mem_no_sep this.1⟩

/-- The word list of a single word `w` is `[w]`. -/
theorem splitWs_of_word {l w : PyStr} (h : w ∈ splitWs l) : splitWs w = [w] :=
  splitWs_no_space (splitWs_mem h).1 (splitWs_mem h).2

/-- Joining with a space concatenates word lists. -/
theorem splitWs_append_space (a b : PyStr) : splitWs (a ++ ' ' :: b) = splitWs a ++ splitWs b :=
  splitWs_append_sep (by decide) a b

/-- Leading whitespace does not change the word list. -/
theorem splitWs_dropWhile (l : PyStr) : splitWs (l.dropWhile isPySpace) = splitWs l := by
  induction l with
  | nil => rfl
  | cons c rest ih =>
    by_cases hc : isPySpace c = true
    · rw [List.dropWhile_cons, if_pos hc, ih, splitWs_cons_space hc]
    · rw [List.dropWhile_cons, if_neg (by simp [hc])]

/-- Trailing whitespace does not change the word list. -/
theorem splitWs_append_all_space {a t : PyStr} (ht : ∀ c ∈ t, isPySpace c = true) :
    splitWs (a ++ t) = splitWs a := by
  cases t with
  | nil => simp
  | cons c t' =>
    rw [splitWs_append_sep (ht c (List.mem_cons_self c t')) a t',
      splitWs_all_space fun x hx => ht x (List.mem_cons_of_mem _ hx)]
    simp

/-- Splitting a list into its right-stripped part and its whitespace tail. -/
theorem rdropWhile_append_rtakeWhile (l : PyStr) :
    l.rdropWhile isPySpace ++ l.rtakeWhile isPySpace = l := by
  rw [List.rdropWhile, List.rtakeWhile, ← List.reverse_append,
    List.takeWhile_append_dropWhile, List.reverse_reverse]

/-- Stripping does not change the word list. -/
theorem splitWs_pstrip (l : PyStr) : splitWs (pstrip l) = splitWs l := by
  unfold pstrip
  have h1 : splitWs ((l.dropWhile isPySpace).rdropWhile isPySpace) =
      splitWs (l.dropWhile isPySpace) := by
    conv_rhs => rw [← rdropWhile_append_rtakeWhile (l.dropWhile isPySpace)]
    rw [splitWs_append_all_space fun c hc => List.mem_rtakeWhile_imp hc]
  rw [h1, splitWs_dropWhile]

/-- A fully whitespace-stripped-to-nothing string is all whitespace. -/
theorem all_space_of_pstrip_nil {l : PyStr} (h : pstrip l = []) :
    ∀ c ∈ l, isPySpace c = true := by
  unfold pstrip at h
  have h2 : l.dropWhile isPySpace = [] := by
    rcases hd : l.dropWhile isPySpace with _ | ⟨a, t⟩
    · rfl
    · have ha : isPySpace a = false := by
        have := List.head?_dropWhile_not isPySpace l
        rw [hd] at this
        simpa using this
      rw [hd] at h
      have := List.rdropWhile_eq_nil_iff.mp h a (List.mem_cons_self a t)
      rw [ha] at this
      cases this
  intro c hc
  by_contra hcs
  have : c ∈ l.dropWhile isPySpace := by
    have hsplit := @List.takeWhile_append_dropWhile _ isPySpace l
    rcases List.mem_append.mp (hsplit ▸ hc) with hmem | hmem
    · exact absurd (List.mem_takeWhile_imp hmem) hcs
    · exact hmem
  rw [h2] at this
  cases this

/-- Whole-string word list for pstrip-empty strings is empty. -/
theorem splitWs_of_pstrip_nil {l : PyStr} (h : pstrip l = []) : splitWs l = [] :=
  splitWs_all_space (all_space_of_pstrip_nil h)

/-- Sentence splitting preserves the word sequence. -/
theorem splitSentencesGo_words : ∀ (fuel : Nat) (acc l : List Char),
    (splitSentencesGo fuel acc l).flatMap splitWs = splitWs (acc.reverse ++ l) := by
  intro fuel
  induction fuel with
  | zero => intro acc l; simp [splitSentencesGo]
  | succ fuel ih =>
    intro acc l
    cases l with
    | nil => simp [splitSentencesGo]
    | cons c rest =>
      rw [splitSentencesGo.eq_def]
      dsimp only []
      split
      next hsplit =>
        cases rest with
        | nil => simp at hsplit
        | cons r0 rest1 =>
          have hr0 : isPySpace r0 = true := by
            have := (Bool.and_eq_true _ _).mp hsplit
            simpa using this.2
          rw [List.flatMap_cons, ih]
          simp only [List.reverse_nil, List.nil_append]
          rw [List.dropWhile_cons, if_pos hr0, splitWs_dropWhile]
          have hsp : acc.reverse ++ c :: r0 :: rest1 = (acc.reverse ++ [c]) ++ r0 :: rest1 := by
            simp
          rw [hsp, splitWs_append_sep hr0]
      next hsplit =>
        rw [ih]
        simp

/-- The word-boundary fallback loop preserves the word sequence. -/
theorem splitChunksWordLoop_words (maxChars : Nat) :
    ∀ (words chunks : List PyStr) (current : PyStr),
      (∀ w ∈ words, splitWs w = [w]) →
      (splitChunksWordLoop maxChars words chunks current).1.flatMap splitWs ++
        splitWs (splitChunksWordLoop maxChars words chunks current).2 =
      chunks.flatMap splitWs ++ splitWs current ++ words := by
  intro words
  induction words with
  | nil =>
    intro chunks current _
    simp [splitChunksWordLoop]
  | cons w ws ih =>
    intro chunks current hw
    have hword : splitWs w = [w] := hw w (List.mem_cons_self w ws)
    have hws : ∀ x ∈ ws, splitWs x = [x] := fun x hx => hw x (List.mem_cons_of_mem _ hx)
    rw [splitChunksWordLoop.eq_def]
    dsimp only []
    by_cases hcur : current ≠ []
    · rw [if_pos hcur]
      split
      · rw [ih _ _ hws, splitWs_append_space, hword]
        simp
      · rw [ih _ _ hws]
        simp [hword]
    · rw [if_neg hcur]
      push_neg at hcur
      subst hcur
      split
      · rw [ih _ _ hws, hword]
        simp [splitWs]
      · simp only [ne_eq, not_true_eq_false, if_false, reduceIte]
        rw [ih _ _ hws, hword]
        simp [splitWs]

/-- The sentence loop of the chunk splitter preserves the word sequence. -/
theorem splitChunksLoop_words (maxChars : Nat) :
    ∀ (sentences chunks : List PyStr) (current : PyStr),
      (splitChunksLoop maxChars sentences chunks current).1.flatMap splitWs ++
        splitWs (splitChunksLoop maxChars sentences chunks current).2 =
      chunks.flatMap splitWs ++ splitWs current ++ sentences.flatMap splitWs := by
  intro sentences
  induction sentences with
  | nil =>
    intro chunks current
    simp [splitChunksLoop]
  | cons sRaw rest ih =>
    intro chunks current
    rw [splitChunksLoop.eq_def]
    dsimp only []
    have hsstrip : splitWs (pstrip sRaw) = splitWs sRaw := splitWs_pstrip sRaw
    by_cases hs : pstrip sRaw = []
    · rw [if_pos hs, ih]
      have hnil : splitWs sRaw = [] := by rw [← hsstrip, hs]; rfl
      simp [hnil]
    · rw [if_neg hs]
      split
      next hcur =>
        split
        · rw [ih, splitWs_append_space, hsstrip]
          simp
        · split
          · rw [ih, hsstrip]
            simp
          · have hwl := splitChunksWordLoop_words maxChars (splitWs (pstrip sRaw))
              (chunks ++ [current]) [] (fun w hw => splitWs_of_word hw)
            have key : (splitChunksWordLoop maxChars (splitWs (pstrip sRaw))
                  (chunks ++ [current]) []).1.flatMap splitWs ++
                splitWs (splitChunksWordLoop maxChars (splitWs (pstrip sRaw))
                  (chunks ++ [current]) []).2 =
                chunks.flatMap splitWs ++ splitWs current ++ splitWs sRaw := by
              rw [hwl, hsstrip]
              simp [splitWs]
            rw [ih, key]
            simp [List.append_assoc]
      next hcur =>
        push_neg at hcur
        subst hcur
        split
        · rw [ih, hsstrip]
          simp [splitWs]
        · have hwl := splitChunksWordLoop_words maxChars (splitWs (pstrip sRaw))
            chunks [] (fun w hw => splitWs_of_word hw)
          have key : (splitChunksWordLoop maxChars (splitWs (pstrip sRaw))
                chunks []).1.flatMap splitWs ++
              splitWs (splitChunksWordLoop maxChars (splitWs (pstrip sRaw)) chunks []).2 =
              chunks.flatMap splitWs ++ splitWs ([] : PyStr) ++ splitWs sRaw := by
            rw [hwl, hsstrip]
          rw [ih, key]
          simp [List.append_assoc, splitWs]

/-- The chunk splitter preserves the word sequence of the plot. -/
theorem splitPlotChunks_words (plot : PyStr) :
    (splitPlotIntoDisplayChunks plot).flatMap splitWs = splitWs plot := by
  unfold splitPlotIntoDisplayChunks
  split
  next hempty =>
    rcases (by simpa using hempty : plot = [] ∨ pstrip plot = []) with h | h
    · subst h; rfl
    · rw [List.flatMap_nil, splitWs_of_pstrip_nil h]
  next hempty =>
    have hsen : (splitSentences (pstrip plot)).flatMap splitWs = splitWs plot := by
      unfold splitSentences
      rw [splitSentencesGo_words]
      simp [splitWs_pstrip]
    rcases hpr : splitChunksLoop MAX_CHARS_PER_CHUNK (splitSentences (pstrip plot)) [] []
      with ⟨chunks, current⟩
    have h := splitChunksLoop_words MAX_CHARS_PER_CHUNK (splitSentences (pstrip plot)) [] []
    rw [hpr] at h
    dsimp only [] at h
    rw [hsen] at h
    simp only [List.flatMap_nil, List.nil_append] at h
    have h0 : splitWs ([] : PyStr) = [] := rfl
    rw [h0, List.nil_append] at h
    dsimp only []
    rw [hpr]
    dsimp only []
    split
    next hcur =>
      rw [List.flatMap_append, ← h]
      simp [splitWs]
    next hcur =>
      push_neg at hcur
      subst hcur
      rw [← h]
      simp [splitWs]

/-- Merging a chunk into its predecessor (with the surrounding `set` and
`eraseIdx` surgery) preserves the flattened word sequence. -/
theorem mergeSurgery : ∀ (idx : Nat) (res : List PyStr), 1 ≤ idx →
    ((res.set (idx - 1) (res.getD (idx - 1) [] ++ ' ' :: res.getD idx [])).eraseIdx idx).flatMap
        splitWs = res.flatMap splitWs := by
  intro idx
  induction idx with
  | zero => intro res h; omega
  | succ k ihk =>
    intro res _
    cases k with
    | zero =>
      match res with
      | [] => simp
      | [r0] =>
        simp only [List.getD_cons_zero, List.getD_cons_succ]
        show splitWs (r0 ++ ' ' :: List.getD [] 0 []) ++ [].flatMap splitWs =
          splitWs r0 ++ [].flatMap splitWs
        rw [splitWs_append_space]
        simp [splitWs]
      | r0 :: r1 :: rest =>
        simp only [List.getD_cons_zero, List.getD_cons_succ]
        show splitWs (r0 ++ ' ' :: r1) ++ rest.flatMap splitWs =
          splitWs r0 ++ (splitWs r1 ++ rest.flatMap splitWs)
        rw [splitWs_append_space]
        simp
    | succ k2 =>
      match res with
      | [] => simp
      | r0 :: rest =>
        have hred : ((r0 :: rest).set (k2 + 2 - 1)
              ((r0 :: rest).getD (k2 + 2 - 1) [] ++ ' ' :: (r0 :: rest).getD (k2 + 2) [])).eraseIdx
              (k2 + 2) =
            r0 :: ((rest.set (k2 + 1 - 1)
              (rest.getD (k2 + 1 - 1) [] ++ ' ' :: rest.getD (k2 + 1) [])).eraseIdx (k2 + 1)) := by
          simp [List.getD_cons_succ]
        rw [hred, List.flatMap_cons, List.flatMap_cons, ihk rest (by omega)]

/-- The backward merge sweep preserves the flattened word sequence. -/
theorem mergeLoop_words : ∀ (i : Nat) (res : List PyStr),
    (mergeLoop res i).flatMap splitWs = res.flatMap splitWs := by
  intro i
  induction i with
  | zero => intro res; rfl
  | succ k ih =>
    intro res
    rw [mergeLoop.eq_def]
    dsimp only []
    rw [ih]
    split
    · split
      next hfits => exact mergeSurgery (k + 1) res (by omega)
      next hfits => rfl
    · rfl

/-- The small-trailing-chunk merge pass preserves the word sequence. -/
theorem mergeSmallTrailingChunks_words (chunks : List PyStr) :
    (mergeSmallTrailingChunks chunks).flatMap splitWs = chunks.flatMap splitWs := by
  unfold mergeSmallTrailingChunks
  split
  · rfl
  · exact mergeLoop_words _ _

/-- C8: the Chunk Splitter followed by the small-trailing-chunk merge pass
preserves the words of the plot text exactly — for every plot (including
run-on sentences longer than the 110-character budget) the concatenated
whitespace-delimited words of the produced chunks equal the word sequence of
the input, so in particular the word sets coincide and no word is truncated
or dropped. -/
theorem C8_chunk_splitter_preserves_words (plot : PyStr) :
    (mergeSmallTrailingChunks (splitPlotIntoDisplayChunks plot)).flatMap splitWs =
      splitWs plot := by
  rw [mergeSmallTrailingChunks_words, splitPlotChunks_words]

/-- C4 (counterexample): with the adversarial plot
`\x7bSUBLOGUE\x7bSUBLOGUE\x7d\x7d`, the single sanitisation pass removes the
two non-overlapping matches but their removal concatenates a fresh
`\x7bSUBLOGUE\x7d`, and the written file's plot entry still contains the
sentinel token. -/
theorem C4_counterexample :
    processContent plainInput nestedTokenMovie false false DEFAULT_FORMAT_OPTIONS true =
      ProcResult.processed nestedTokenOutput ∧
    ((parseSrt nestedTokenOutput).any fun b => containsSub SUBLOGUE_SENTINEL b.text) = true := by
  decide

theorem digitChar_digit {d : Nat} (h : d < 10) : isAsciiDigit (Nat.digitChar d) = true := by
  interval_cases d <;> decide

theorem digitChar_not_space {d : Nat} (h : d < 10) : isPySpace (Nat.digitChar d) = false := by
  interval_cases d <;> decide

theorem digitChar_not_break {d : Nat} (h : d < 10) : isLineBreak (Nat.digitChar d) = false := by
  interval_cases d <;> decide

theorem digitChar_ne_colon {d : Nat} (h : d < 10) : Nat.digitChar d ≠ ':' := by
  interval_cases d <;> decide

theorem digitChar_ne_cr {d : Nat} (h : d < 10) : Nat.digitChar d ≠ '\r' := by
  interval_cases d <;> decide

theorem digitChar_ne_bom {d : Nat} (h : d < 10) : Nat.digitChar d ≠ '\uFEFF' := by
  interval_cases d <;> decide

theorem digitChar_toNat {d : Nat} (h : d < 10) : (Nat.digitChar d).toNat = 48 + d := by
  interval_cases d <;> decide

-- toDigitsCore facts
theorem toDigitsCore_mem : ∀ (f n : Nat) (ds : List Char) (c : Char),
    c ∈ Nat.toDigitsCore 10 f n ds → c ∈ ds ∨ ∃ d, d < 10 ∧ c = Nat.digitChar d := by
  intro f
  induction f with
  | zero => intro n ds c hc; exact Or.inl hc
  | succ f ih =>
    intro n ds c hc
    rw [Nat.toDigitsCore] at hc
    split at hc
    · rcases List.mem_cons.mp hc with h | h
      · exact Or.inr ⟨n % 10, Nat.mod_lt _ (by norm_num), h⟩
      · exact Or.inl h
    · rcases ih _ _ _ hc with h | h
      · rcases List.mem_cons.mp h with h | h
        · exact Or.inr ⟨n % 10, Nat.mod_lt _ (by norm_num), h⟩
        · exact Or.inl h
      · exact Or.inr h

theorem toDigitsCore_ne_nil : ∀ (f n : Nat) (ds : List Char),
    Nat.toDigitsCore 10 (f + 1) n ds ≠ [] := by
  intro f
  induction f with
  | zero =>
    intro n ds
    rw [Nat.toDigitsCore]
    split
    · exact List.cons_ne_nil _ _
    · rw [Nat.toDigitsCore]; exact List.cons_ne_nil _ _
  | succ f ih =>
    intro n ds
    rw [Nat.toDigitsCore]
    split
    · exact List.cons_ne_nil _ _
    · exact ih _ _

-- one, two, three digit shapes
theorem toDigitsCore_lt10 (f n : Nat) (ds : List Char) (h : n < 10) :
    Nat.toDigitsCore 10 (f + 1) n ds = Nat.digitChar n :: ds := by
  rw [Nat.toDigitsCore]
  rw [Nat.mod_eq_of_lt h, if_pos (Nat.div_eq_of_lt h)]

theorem toDigitsCore_lt100 (f n : Nat) (ds : List Char) (h10 : 10 ≤ n) (h : n < 100) :
    Nat.toDigitsCore 10 (f + 2) n ds =
      Nat.digitChar (n / 10) :: Nat.digitChar (n % 10) :: ds := by
  rw [Nat.toDigitsCore]
  rw [if_neg (by omega)]
  exact toDigitsCore_lt10 f _ _ (by omega)

theorem toDigitsCore_lt1000 (f n : Nat) (ds : List Char) (h100 : 100 ≤ n) (h : n < 1000) :
    Nat.toDigitsCore 10 (f + 3) n ds =
      Nat.digitChar (n / 100) :: Nat.digitChar (n / 10 % 10) :: Nat.digitChar (n % 10) :: ds := by
  rw [Nat.toDigitsCore]
  rw [if_neg (by omega)]
  rw [toDigitsCore_lt100 f _ _ (by omega) (by omega)]
  rw [Nat.div_div_eq_div_mul]

-- value lemmas
theorem digitsToNat_foldl (l : PyStr) : ∀ (a : Nat),
    l.foldl (fun acc c => acc * 10 + (c.toNat - '0'.toNat)) a =
      a * 10 ^ l.length + digitsToNat l := by
  induction l with
  | nil => intro a; simp [digitsToNat]
  | cons c l ih =>
    intro a
    have h1 : digitsToNat (c :: l) =
        (c.toNat - '0'.toNat) * 10 ^ l.length + digitsToNat l := by
      show List.foldl _ (0 * 10 + (c.toNat - '0'.toNat)) l = _
      rw [ih]
      ring_nf
    rw [List.foldl_cons, ih, h1]
    simp only [List.length_cons, pow_succ]
    ring

theorem digitsToNat_cons (c : Char) (l : PyStr) :
    digitsToNat (c :: l) = (c.toNat - '0'.toNat) * 10 ^ l.length + digitsToNat l := by
  show List.foldl _ (0 * 10 + (c.toNat - '0'.toNat)) l = _
  rw [digitsToNat_foldl]
  ring_nf

theorem digitsToNat_digitChar_cons {d : Nat} (h : d < 10) (l : PyStr) :
    digitsToNat (Nat.digitChar d :: l) = d * 10 ^ l.length + digitsToNat l := by
  rw [digitsToNat_cons, digitChar_toNat h]
  norm_num [show Char.toNat '0' = 48 from rfl]

theorem toDigitsCore_val : ∀ (f n : Nat) (ds : List Char), n ≤ f →
    digitsToNat (Nat.toDigitsCore 10 (f + 1) n ds) = n * 10 ^ ds.length + digitsToNat ds := by
  intro f
  induction f with
  | zero =>
    intro n ds hn
    interval_cases n
    rw [toDigitsCore_lt10 _ _ _ (by norm_num)]
    rw [digitsToNat_digitChar_cons (by norm_num)]
  | succ f ih =>
    intro n ds hn
    by_cases h10 : n < 10
    · rw [toDigitsCore_lt10 _ _ _ h10, digitsToNat_digitChar_cons h10]
    · rw [Nat.toDigitsCore]
      rw [if_neg (by omega)]
      rw [ih (n / 10) _ (by omega)]
      rw [digitsToNat_digitChar_cons (Nat.mod_lt _ (by norm_num))]
      simp only [List.length_cons]
      have : n / 10 * 10 ^ (ds.length + 1) = n / 10 * 10 * 10 ^ ds.length := by ring
      rw [this]
      have h2 : n / 10 * 10 * 10 ^ ds.length + (n % 10 * 10 ^ ds.length + digitsToNat ds) =
          (n / 10 * 10 + n % 10) * 10 ^ ds.length + digitsToNat ds := by ring
      rw [h2, Nat.div_add_mod' n 10]

theorem natRepr_eq_toDigitsCore (n : Nat) :
    natRepr n = Nat.toDigitsCore 10 (n + 1) n [] := rfl

theorem natRepr_val (n : Nat) : digitsToNat (natRepr n) = n := by
  rw [natRepr_eq_toDigitsCore, toDigitsCore_val n n [] le_rfl]
  simp [digitsToNat]

-- padded decimal shapes
theorem natRepr_lt10 {n : Nat} (h : n < 10) : natRepr n = [Nat.digitChar n] := by
  rw [natRepr_eq_toDigitsCore, toDigitsCore_lt10 _ _ _ h]

theorem natRepr_lt100 {n : Nat} (h10 : 10 ≤ n) (h : n < 100) :
    natRepr n = [Nat.digitChar (n / 10), Nat.digitChar (n % 10)] := by
  rw [natRepr_eq_toDigitsCore]
  have : n + 1 = (n - 1) + 2 := by omega
  rw [this, toDigitsCore_lt100 _ _ _ h10 h]

theorem natRepr_lt1000 {n : Nat} (h100 : 100 ≤ n) (h : n < 1000) :
    natRepr n = [Nat.digitChar (n / 100), Nat.digitChar (n / 10 % 10), Nat.digitChar (n % 10)] := by
  rw [natRepr_eq_toDigitsCore]
  have : n + 1 = (n - 2) + 3 := by omega
  rw [this, toDigitsCore_lt1000 _ _ _ h100 h]

theorem padTwo {n : Nat} (h : n < 100) :
    padZeros 2 (natRepr n) = [Nat.digitChar (n / 10), Nat.digitChar (n % 10)] := by
  by_cases h10 : n < 10
  · rw [natRepr_lt10 h10]
    have hd : n / 10 = 0 := Nat.div_eq_of_lt h10
    have hm : n % 10 = n := Nat.mod_eq_of_lt h10
    rw [hd, hm]
    rfl
  · rw [natRepr_lt100 (by omega) h]
    rfl

theorem padThree {n : Nat} (h : n < 1000) :
    padZeros 3 (natRepr n) =
      [Nat.digitChar (n / 100), Nat.digitChar (n / 10 % 10), Nat.digitChar (n % 10)] := by
  by_cases h10 : n < 10
  · rw [natRepr_lt10 h10]
    have hd : n / 100 = 0 := Nat.div_eq_of_lt (by omega)
    have hd2 : n / 10 % 10 = 0 := by rw [Nat.div_eq_of_lt h10]
    have hm : n % 10 = n := Nat.mod_eq_of_lt h10
    rw [hd, hd2, hm]
    rfl
  · by_cases h100 : n < 100
    · rw [natRepr_lt100 (by omega) h100]
      have hd : n / 100 = 0 := Nat.div_eq_of_lt h100
      have hd2 : n / 10 % 10 = n / 10 := Nat.mod_eq_of_lt (by omega)
      rw [hd, hd2]
      rfl
    · rw [natRepr_lt1000 (by omega) h]
      rfl

-- shape of a rendered timecode
theorem msToTimecode_shape (v : Int) :
    msToTimecode v =
      [Nat.digitChar (v.toNat / 1000 / 3600 / 10 % 10),
       Nat.digitChar (v.toNat / 1000 / 3600 % 10), ':',
       Nat.digitChar (v.toNat / 1000 % 3600 / 60 / 10 % 10),
       Nat.digitChar (v.toNat / 1000 % 3600 / 60 % 10), ':',
       Nat.digitChar (v.toNat / 1000 % 3600 % 60 / 10 % 10),
       Nat.digitChar (v.toNat / 1000 % 3600 % 60 % 10), ',',
       Nat.digitChar (v.toNat % 1000 / 100 % 10),
       Nat.digitChar (v.toNat % 1000 / 10 % 10),
       Nat.digitChar (v.toNat % 1000 % 10)] ∨ 360000000 ≤ v := by
  by_cases hv : v < 360000000
  · left
    unfold msToTimecode
    (first | dsimp only [] | skip)
    have hh : v.toNat / 1000 / 3600 < 100 := by omega
    have hm : v.toNat / 1000 % 3600 / 60 < 100 := by omega
    have hs : v.toNat / 1000 % 3600 % 60 < 100 := by omega
    have hms : v.toNat % 1000 < 1000 := by omega
    rw [padTwo hh, padTwo hm, padTwo hs, padThree hms]
    have h1 : v.toNat / 1000 / 3600 / 10 % 10 = v.toNat / 1000 / 3600 / 10 := by
      rw [Nat.mod_eq_of_lt (by omega)]
    have h2 : v.toNat / 1000 % 3600 / 60 / 10 % 10 = v.toNat / 1000 % 3600 / 60 / 10 := by
      rw [Nat.mod_eq_of_lt (by omega)]
    have h3 : v.toNat / 1000 % 3600 % 60 / 10 % 10 = v.toNat / 1000 % 3600 % 60 / 10 := by
      rw [Nat.mod_eq_of_lt (by omega)]
    have h4 : v.toNat % 1000 / 100 % 10 = v.toNat % 1000 / 100 := by
      rw [Nat.mod_eq_of_lt (by omega)]
    simp [h1, h2, h3, h4]
  · right
    omega

theorem digitChar_mod_digit (x : Nat) : isAsciiDigit (Nat.digitChar (x % 10)) = true :=
  digitChar_digit (Nat.mod_lt _ (by norm_num))

theorem digitsToNat_two {a b : Nat} (ha : a < 10) (hb : b < 10) :
    digitsToNat [Nat.digitChar a, Nat.digitChar b] = 10 * a + b := by
  rw [digitsToNat_digitChar_cons ha, digitsToNat_digitChar_cons hb]
  simp [digitsToNat]
  ring

theorem digitsToNat_three {a b c : Nat} (ha : a < 10) (hb : b < 10) (hc : c < 10) :
    digitsToNat [Nat.digitChar a, Nat.digitChar b, Nat.digitChar c] =
      100 * a + 10 * b + c := by
  rw [digitsToNat_digitChar_cons ha, digitsToNat_digitChar_cons hb,
    digitsToNat_digitChar_cons hc]
  simp [digitsToNat]
  ring

theorem matchTimecodeAt_format (s e : Int) (hs0 : 0 ≤ s) (hs : s < 360000000)
    (he0 : 0 ≤ e) (he : e < 360000000) (rest : PyStr) :
    matchTimecodeAt (msToTimecode s ++ " --> ".toList ++ msToTimecode e ++ rest) =
      some (s, e) := by
  rcases msToTimecode_shape s with hss | hss
  swap
  · omega
  rcases msToTimecode_shape e with hse | hse
  swap
  · omega
  rw [hss, hse]
  have harrow : (" --> ".toList : List Char) = [' ', '-', '-', '>', ' '] := rfl
  rw [harrow]
  simp only [List.cons_append, List.nil_append]
  rw [matchTimecodeAt]
  rw [if_pos (by simp [digitChar_mod_digit])]
  rw [List.dropWhile_cons_of_pos (by decide), List.dropWhile_cons_of_neg (by decide)]
  dsimp only []
  split
  case _ rest2 heq =>
    simp only [List.cons.injEq, true_and] at heq
    subst heq
    rw [List.dropWhile_cons_of_pos (by decide),
      List.dropWhile_cons_of_neg (by simp [digitChar_not_space (Nat.mod_lt _ (by norm_num))])]
    split
    case _ e1 e2 f1 f2 g1 g2 h1 h2 h3 tail heq2 =>
      simp only [List.cons.injEq, true_and] at heq2
      obtain ⟨he1, he2, hf1, hf2, hg1, hg2, hh1, hh2, hh3, htail⟩ := heq2
      subst he1; subst he2; subst hf1; subst hf2; subst hg1; subst hg2
      subst hh1; subst hh2; subst hh3
      rw [if_pos (by simp [digitChar_mod_digit])]
      simp only [digitsToNat_two (Nat.mod_lt _ (by norm_num)) (Nat.mod_lt _ (by norm_num)),
        digitsToNat_three (Nat.mod_lt _ (by norm_num)) (Nat.mod_lt _ (by norm_num))
          (Nat.mod_lt _ (by norm_num))]
      unfold timecodeToMs
      simp only [Option.some.injEq, Prod.mk.injEq, Int.ofNat_eq_natCast]
      refine ⟨?_, ?_⟩ <;> omega
    case _ h =>
      exact absurd rfl (h _ _ _ _ _ _ _ _ _ _)
  case _ h =>
    exact absurd rfl (h _)



theorem matchTimecodeAt_none_no_colon {l : PyStr} (h : ∀ c ∈ l, c ≠ ':') :
    matchTimecodeAt l = none := by
  rw [matchTimecodeAt.eq_def]
  split
  · exact absurd rfl (h ':' (by simp))
  · rfl

theorem searchTimecode_none_no_colon : ∀ {l : PyStr}, (∀ c ∈ l, c ≠ ':') →
    searchTimecode l = none := by
  intro l
  induction l with
  | nil => intro _; rfl
  | cons c rest ih =>
    intro h
    rw [searchTimecode]
    rw [matchTimecodeAt_none_no_colon h]
    exact ih fun d hd => h d (List.mem_cons_of_mem _ hd)

theorem natRepr_mem {n : Nat} {c : Char} (hc : c ∈ natRepr n) :
    ∃ d, d < 10 ∧ c = Nat.digitChar d := by
  rw [natRepr_eq_toDigitsCore] at hc
  rcases toDigitsCore_mem _ _ _ _ hc with h | h
  · exact absurd h (List.not_mem_nil c)
  · exact h

theorem natRepr_ne_nil (n : Nat) : natRepr n ≠ [] := by
  rw [natRepr_eq_toDigitsCore]
  exact toDigitsCore_ne_nil _ _ _

theorem dropWhile_eq_self_of {p : Char → Bool} : ∀ {l : PyStr},
    (∀ c ∈ l, p c = false) → l.dropWhile p = l := by
  intro l
  induction l with
  | nil => intro _; rfl
  | cons c rest ih =>
    intro h
    rw [List.dropWhile_cons_of_neg (by simp [h c (List.mem_cons_self c rest)])]

theorem rdropWhile_eq_self_of {p : Char → Bool} {l : PyStr}
    (h : ∀ c ∈ l, p c = false) : l.rdropWhile p = l := by
  unfold List.rdropWhile
  rw [dropWhile_eq_self_of (by intro c hc; exact h c (List.mem_reverse.mp hc)),
    List.reverse_reverse]

theorem pstrip_of_no_space {l : PyStr} (h : ∀ c ∈ l, isPySpace c = false) :
    pstrip l = l := by
  unfold pstrip
  rw [dropWhile_eq_self_of h, rdropWhile_eq_self_of h]

theorem getLast?_cons_eq {α : Type} {c : α} {J : List α} {y : α}
    (h : J.getLast? = some y) : (c :: J).getLast? = some y := by
  cases J with
  | nil => exact absurd h (by simp)
  | cons b l => rw [List.getLast?_cons_cons]; exact h

theorem rdropWhile_concat_of_neg {p : Char → Bool} {l : PyStr} {a : Char}
    (h : p a = false) : List.rdropWhile p (l ++ [a]) = l ++ [a] := by
  unfold List.rdropWhile
  rw [List.reverse_append]
  simp only [List.reverse_cons, List.reverse_nil, List.nil_append, List.singleton_append]
  rw [List.dropWhile_cons_of_neg (by simp [h])]
  simp

theorem prstrip_append_newline {X : PyStr}
    (h : ∀ c, X.getLast? = some c → isPySpace c = false) :
    prstrip (X ++ ['\n']) = X := by
  unfold prstrip
  have : List.rdropWhile isPySpace (X ++ ['\n']) = List.rdropWhile isPySpace X := by
    unfold List.rdropWhile
    rw [List.reverse_append]
    simp only [List.reverse_cons, List.reverse_nil, List.nil_append, List.singleton_append]
    rw [List.dropWhile_cons_of_pos (by decide)]
  rw [this]
  cases hX : X.getLast? with
  | none => rw [List.getLast?_eq_none_iff.mp hX]; rfl
  | some c =>
    have hc := h c hX
    rcases List.eq_nil_or_concat X with rfl | ⟨Y, a, rfl⟩
    · rfl
    · rw [List.concat_eq_append] at hX ⊢
      have ha : a = c := by
        simp only [List.getLast?_concat] at hX
        exact Option.some_inj.mp hX
      subst ha
      exact rdropWhile_concat_of_neg hc

theorem pySplitlinesGo_newline (acc : List Char) (r : PyStr) :
    pySplitlinesGo acc ('\n' :: r) =
      acc.reverse :: (if r = [] then [] else pySplitlinesGo [] r) := by
  have h : pySplitlinesGo acc ('\n' :: r) =
      if isLineBreak '\n' then acc.reverse :: (if r = [] then [] else pySplitlinesGo [] r)
      else pySplitlinesGo ('\n' :: acc) r := rfl
  rw [h, if_pos (by decide)]

set_option maxHeartbeats 1000000 in
theorem pySplitlinesGo_append : ∀ (l : PyStr), (∀ c ∈ l, isLineBreak c = false) →
    ∀ (acc : List Char) (r : PyStr),
    pySplitlinesGo acc (l ++ '\n' :: r) =
      (acc.reverse ++ l) :: (if r = [] then [] else pySplitlinesGo [] r) := by
  intro l
  induction l with
  | nil =>
    intro _ acc r
    rw [List.nil_append, pySplitlinesGo_newline]
    simp
  | cons c l ih =>
    intro hl acc r
    have hc : isLineBreak c = false := hl c (List.mem_cons_self c l)
    have hcr : c ≠ '\r' := by
      intro hh
      rw [hh] at hc
      exact absurd hc (by decide)
    rw [List.cons_append, pySplitlinesGo.eq_def]
    split
    · next heq => exact absurd heq (by simp)
    · next rest heq =>
      obtain ⟨h1, _⟩ := List.cons.injEq _ _ _ _ ▸ heq
      exact absurd h1 hcr
    · next c' rest hne heq =>
      obtain ⟨h1, h2⟩ := List.cons.injEq _ _ _ _ ▸ heq
      subst h1
      rw [if_neg (by simp [hc])]
      rw [← h2, ih (fun d hd => hl d (List.mem_cons_of_mem _ hd))]
      simp

set_option maxHeartbeats 1000000 in
theorem pySplitlinesGo_nobreak : ∀ (l : PyStr), (∀ c ∈ l, isLineBreak c = false) →
    ∀ (acc : List Char), pySplitlinesGo acc l = [acc.reverse ++ l] := by
  intro l
  induction l with
  | nil =>
    intro _ acc
    rw [pySplitlinesGo]
    simp
  | cons c l ih =>
    intro hl acc
    have hc : isLineBreak c = false := hl c (List.mem_cons_self c l)
    have hcr : c ≠ '\r' := by
      intro hh
      rw [hh] at hc
      exact absurd hc (by decide)
    rw [pySplitlinesGo.eq_def]
    split
    · next heq => exact absurd heq (by simp)
    · next rest heq =>
      obtain ⟨h1, _⟩ := List.cons.injEq _ _ _ _ ▸ heq
      exact absurd h1 hcr
    · next c' rest hne heq =>
      obtain ⟨h1, h2⟩ := List.cons.injEq _ _ _ _ ▸ heq
      subst h1
      rw [if_neg (by simp [hc])]
      rw [← h2, ih (fun d hd => hl d (List.mem_cons_of_mem _ hd))]
      simp

theorem joinNL_cons_cons (x y : PyStr) (L : List PyStr) :
    joinNL (x :: y :: L) = x ++ '\n' :: joinNL (y :: L) := by
  unfold joinNL List.intercalate
  rw [List.intersperse_cons₂]
  simp

theorem joinNL_singleton (x : PyStr) : joinNL [x] = x := by
  simp [joinNL, List.intercalate]

theorem joinNL_cons_ne_nil {x : PyStr} {L : List PyStr} (hx : x ≠ []) :
    joinNL (x :: L) ≠ [] := by
  cases L with
  | nil => rw [joinNL_singleton]; exact hx
  | cons y L =>
    rw [joinNL_cons_cons]
    simp [hx]

theorem pySplitlines_of_ne_nil {l : PyStr} (h : l ≠ []) :
    pySplitlines l = pySplitlinesGo [] l := by
  cases l with
  | nil => exact absurd rfl h
  | cons c rest => rfl

theorem pySplitlines_join : ∀ (L : List PyStr), L ≠ [] →
    (∀ l ∈ L, ∀ c ∈ l, isLineBreak c = false) →
    pySplitlines (joinNL L ++ ['\n']) = L := by
  intro L
  induction L with
  | nil => intro h _; exact absurd rfl h
  | cons x L ih =>
    intro _ hl
    have hx : ∀ c ∈ x, isLineBreak c = false := hl x (List.mem_cons_self x L)
    cases L with
    | nil =>
      rw [joinNL_singleton]
      rw [pySplitlines_of_ne_nil (by simp)]
      rw [show x ++ ['\n'] = x ++ '\n' :: [] from rfl]
      rw [pySplitlinesGo_append x hx [] []]
      simp
    | cons y L' =>
      rw [joinNL_cons_cons]
      have hr : joinNL (y :: L') ++ ['\n'] ≠ [] := by simp
      rw [pySplitlines_of_ne_nil (by simp)]
      rw [List.append_assoc, List.cons_append]
      rw [pySplitlinesGo_append x hx []]
      rw [if_neg hr]
      rw [← pySplitlines_of_ne_nil hr]
      rw [ih (by simp) (fun l hml => hl l (List.mem_cons_of_mem _ hml))]
      simp

theorem joinNL_getLast? : ∀ (L : List PyStr) (x : PyStr), x ≠ [] →
    L.getLast? = some x → (joinNL L).getLast? = x.getLast? := by
  intro L
  induction L with
  | nil => intro x _ h; exact absurd h (by simp)
  | cons a L ih =>
    intro x hx hL
    cases L with
    | nil =>
      simp only [List.getLast?_singleton, Option.some.injEq] at hL
      subst hL
      rw [joinNL_singleton]
    | cons b L' =>
      rw [List.getLast?_cons_cons] at hL
      rw [joinNL_cons_cons]
      have hJ := ih x hx hL
      have hJsome : ∃ c, x.getLast? = some c := by
        cases hxl : x.getLast? with
        | none => exact absurd (List.getLast?_eq_none_iff.mp hxl) hx
        | some c => exact ⟨c, rfl⟩
      obtain ⟨c, hc⟩ := hJsome
      rw [hc] at hJ
      rw [List.getLast?_append]
      rw [getLast?_cons_eq hJ, hc]
      rfl


theorem intRepr_of_pos {i : Int} (h : 1 ≤ i) : intRepr i = natRepr i.toNat := by
  obtain ⟨m, rfl⟩ := Int.eq_ofNat_of_zero_le (by omega : (0:Int) ≤ i)
  rfl

theorem natRepr_digits : ∀ c ∈ natRepr n, isAsciiDigit c = true := by
  intro c hc
  obtain ⟨d, hd, rfl⟩ := natRepr_mem hc
  exact digitChar_digit hd

theorem natRepr_no_space : ∀ c ∈ natRepr n, isPySpace c = false := by
  intro c hc
  obtain ⟨d, hd, rfl⟩ := natRepr_mem hc
  exact digitChar_not_space hd

theorem natRepr_no_break : ∀ c ∈ natRepr n, isLineBreak c = false := by
  intro c hc
  obtain ⟨d, hd, rfl⟩ := natRepr_mem hc
  exact digitChar_not_break hd

theorem natRepr_no_colon : ∀ c ∈ natRepr n, c ≠ ':' := by
  intro c hc
  obtain ⟨d, hd, rfl⟩ := natRepr_mem hc
  exact digitChar_ne_colon hd

theorem pstrip_natRepr (n : Nat) : pstrip (natRepr n) = natRepr n :=
  pstrip_of_no_space natRepr_no_space

theorem searchTimecode_natRepr (n : Nat) : searchTimecode (natRepr n) = none :=
  searchTimecode_none_no_colon natRepr_no_colon

theorem pyIsDigit_natRepr (n : Nat) : pyIsDigit (natRepr n) = true := by
  unfold pyIsDigit
  simp only [Bool.and_eq_true, decide_eq_true_eq, List.all_eq_true]
  exact ⟨natRepr_ne_nil n, natRepr_digits⟩

theorem padZeros_mem {w : Nat} {s : PyStr} {c : Char} (h : c ∈ padZeros w s) :
    c = '0' ∨ c ∈ s := by
  unfold padZeros at h
  rcases List.mem_append.mp h with h | h
  · exact Or.inl (List.eq_of_mem_replicate h)
  · exact Or.inr h

theorem msToTimecode_mem {v : Int} {c : Char} (h : c ∈ msToTimecode v) :
    c = ':' ∨ c = ',' ∨ ∃ d, d < 10 ∧ c = Nat.digitChar d := by
  unfold msToTimecode at h
  simp only [List.mem_append, List.mem_cons] at h
  have hpad : ∀ {w : Nat} {s0 : Nat}, c ∈ padZeros w (natRepr s0) →
      ∃ d, d < 10 ∧ c = Nat.digitChar d := by
    intro w s0 hc
    rcases padZeros_mem hc with h0 | h0
    · exact ⟨0, by norm_num, h0⟩
    · exact natRepr_mem h0
  rcases h with ((h | h | h) | h | h) | h | h
  · exact Or.inr (Or.inr (hpad h))
  · exact Or.inl h
  · exact Or.inr (Or.inr (hpad h))
  · exact Or.inl h
  · exact Or.inr (Or.inr (hpad h))
  · exact Or.inr (Or.inl h)
  · exact Or.inr (Or.inr (hpad h))

theorem msToTimecode_no_break {v : Int} : ∀ c ∈ msToTimecode v, isLineBreak c = false := by
  intro c hc
  rcases msToTimecode_mem hc with rfl | rfl | ⟨d, hd, rfl⟩
  · decide
  · decide
  · exact digitChar_not_break hd

theorem tcLine_no_break (b : SubtitleBlock) : ∀ c ∈ tcLine b, isLineBreak c = false := by
  intro c hc
  unfold tcLine at hc
  rcases List.mem_append.mp hc with h | h
  · rcases List.mem_append.mp h with h | h
    · exact msToTimecode_no_break c h
    · have hch : c = ' ' ∨ c = '-' ∨ c = '>' ∨ c = ' ' := by
        simpa using h
      rcases hch with rfl | rfl | rfl | rfl <;> decide
  · exact msToTimecode_no_break c h

theorem rdropWhile_eq_self_of_getLast {p : Char → Bool} {l : PyStr}
    (h : ∀ c, l.getLast? = some c → p c = false) : l.rdropWhile p = l := by
  rcases List.eq_nil_or_concat l with rfl | ⟨Y, a, rfl⟩
  · rfl
  · rw [List.concat_eq_append] at *
    exact rdropWhile_concat_of_neg (h a (List.getLast?_concat Y))

theorem tcLine_ne_nil (b : SubtitleBlock) : tcLine b ≠ [] := by
  unfold tcLine
  simp

theorem tcLine_head_digit {b : SubtitleBlock} (h0 : 0 ≤ b.start_time)
    (h1 : b.start_time < 360000000) :
    ∃ d rest, d < 10 ∧ tcLine b = Nat.digitChar d :: rest := by
  rcases msToTimecode_shape b.start_time with hs | hs
  swap
  · omega
  unfold tcLine
  rw [hs]
  exact ⟨_, _, Nat.mod_lt _ (by norm_num), rfl⟩

theorem tcLine_getLast_digit {b : SubtitleBlock} (h0 : 0 ≤ b.end_time)
    (h1 : b.end_time < 360000000) :
    ∃ d, d < 10 ∧ (tcLine b).getLast? = some (Nat.digitChar d) := by
  rcases msToTimecode_shape b.end_time with hs | hs
  swap
  · omega
  unfold tcLine
  rw [hs, List.getLast?_append]
  refine ⟨b.end_time.toNat % 1000 % 10, Nat.mod_lt _ (by norm_num), ?_⟩
  simp

theorem pstrip_tcLine {b : SubtitleBlock} (hs0 : 0 ≤ b.start_time)
    (hs1 : b.start_time < 360000000) (he0 : 0 ≤ b.end_time)
    (he1 : b.end_time < 360000000) : pstrip (tcLine b) = tcLine b := by
  unfold pstrip
  obtain ⟨d, r, hd, hshape⟩ := tcLine_head_digit hs0 hs1
  obtain ⟨d2, hd2, hlast⟩ := tcLine_getLast_digit he0 he1
  have h1 : (tcLine b).dropWhile isPySpace = tcLine b := by
    rw [hshape]
    exact List.dropWhile_cons_of_neg (by simp [digitChar_not_space hd])
  rw [h1]
  exact rdropWhile_eq_self_of_getLast fun c hc => by
    rw [hlast] at hc
    obtain rfl := Option.some_inj.mp hc
    exact digitChar_not_space hd2

theorem searchTimecode_tcLine {b : SubtitleBlock} (hs0 : 0 ≤ b.start_time)
    (hs1 : b.start_time < 360000000) (he0 : 0 ≤ b.end_time)
    (he1 : b.end_time < 360000000) :
    searchTimecode (tcLine b) = some (b.start_time, b.end_time) := by
  have hm : matchTimecodeAt (tcLine b) = some (b.start_time, b.end_time) := by
    unfold tcLine
    have := matchTimecodeAt_format b.start_time b.end_time hs0 hs1 he0 he1 []
    rwa [List.append_nil] at this
  obtain ⟨d, r, hd, hshape⟩ := tcLine_head_digit hs0 hs1
  rw [hshape] at hm ⊢
  rw [searchTimecode, hm]

theorem takeWhile_append_all {α : Type} {p : α → Bool} : ∀ {A B : List α},
    (∀ a ∈ A, p a = true) → (A ++ B).takeWhile p = A ++ B.takeWhile p := by
  intro A
  induction A with
  | nil => intro B _; simp
  | cons a A ih =>
    intro B h
    rw [List.cons_append, List.takeWhile_cons_of_pos (h a (List.mem_cons_self a A)),
      ih (fun x hx => h x (List.mem_cons_of_mem _ hx))]
    rfl

theorem dropWhile_append_all {α : Type} {p : α → Bool} : ∀ {A B : List α},
    (∀ a ∈ A, p a = true) → (A ++ B).dropWhile p = B.dropWhile p := by
  intro A
  induction A with
  | nil => intro B _; simp
  | cons a A ih =>
    intro B h
    rw [List.cons_append, List.dropWhile_cons_of_pos (h a (List.mem_cons_self a A)),
      ih (fun x hx => h x (List.mem_cons_of_mem _ hx))]

theorem parseLoop_skip (fuel : Nat) (prev : Option PyStr) (l : PyStr) (rest : List PyStr)
    (h2 : searchTimecode (pstrip l) = none) :
    parseLoop (fuel + 1) prev (l :: rest) = parseLoop fuel (some l) rest := by
  rw [parseLoop.eq_def]
  split
  next a b c d heq => exact absurd heq (by omega)
  next a b c d n h1 h2x => exact absurd h2x (by simp)
  next a b c d f l2 r2 h1 h2x =>
    have hf : fuel = f := by omega
    obtain ⟨hl, hr⟩ := List.cons.injEq _ _ _ _ ▸ h2x
    subst hf
    subst hl
    subst hr
    dsimp only []
    by_cases hs : pstrip l = []
    · rw [if_pos hs]
    · rw [if_neg hs, h2]

theorem parseLoop_found (fuel : Nat) (prev : Option PyStr) (l : PyStr) (rest : List PyStr)
    (s e : Int) (hne : pstrip l ≠ []) (hsr : searchTimecode (pstrip l) = some (s, e)) :
    parseLoop (fuel + 1) prev (l :: rest) =
      (let index : Int := match prev with
        | some p => if pyIsDigit (pstrip p) then Int.ofNat (digitsToNat (pstrip p)) else 0
        | none => 0
      let textLines := rest.takeWhile isTextLine
      let afterText := rest.dropWhile isTextLine
      let blanks := afterText.takeWhile isBlankLine
      let rest2 := afterText.dropWhile isBlankLine
      let text := pstrip (joinNL textLines)
      let prev2 : Option PyStr := some (((l :: textLines) ++ blanks).getLastD l)
      if text ≠ [] then (⟨index, s, e, text⟩ : SubtitleBlock) :: parseLoop fuel prev2 rest2
      else parseLoop fuel prev2 rest2) := by
  rw [parseLoop.eq_def]
  split
  next a b c d heq => exact absurd heq (by omega)
  next a b c d n h1 h2x => exact absurd h2x (by simp)
  next a b c d f l2 r2 h1 h2x =>
    have hf : fuel = f := by omega
    obtain ⟨hl, hr⟩ := List.cons.injEq _ _ _ _ ▸ h2x
    subst hf
    subst hl
    subst hr
    dsimp only []
    rw [if_neg hne, hsr]

theorem isTextLine_of {l : PyStr} (h1 : pstrip l ≠ []) (h2 : searchTimecode l = none) :
    isTextLine l = true := by
  unfold isTextLine
  simp [h1, h2]

theorem isTextLine_nil : isTextLine [] = false := by decide

theorem isBlankLine_nil : isBlankLine [] = true := by decide

theorem isBlankLine_of {l : PyStr} (h : pstrip l ≠ []) : isBlankLine l = false := by
  unfold isBlankLine
  simp [h]

theorem pstrip_intRepr_of_RT {b : SubtitleBlock} (h : RoundTrippable b) :
    pstrip (intRepr b.index) = intRepr b.index := by
  rw [intRepr_of_pos h.1]
  exact pstrip_natRepr _

theorem intRepr_ne_nil_of_RT {b : SubtitleBlock} (h : RoundTrippable b) :
    intRepr b.index ≠ [] := by
  rw [intRepr_of_pos h.1]
  exact natRepr_ne_nil _

theorem srtLines_not_blank_head {rest : List SubtitleBlock} (hne : rest ≠ [])
    (hRT : ∀ b ∈ rest, RoundTrippable b) :
    (srtLines rest).takeWhile isBlankLine = [] ∧
    (srtLines rest).dropWhile isBlankLine = srtLines rest := by
  cases rest with
  | nil => exact absurd rfl hne
  | cons b2 r2 =>
    have h2 := hRT b2 (List.mem_cons_self b2 r2)
    have hblank : isBlankLine (intRepr b2.index) = false :=
      isBlankLine_of (by rw [pstrip_intRepr_of_RT h2]; exact intRepr_ne_nil_of_RT h2)
    rw [srtLines]
    rw [blockLines]
    rw [List.cons_append]
    constructor
    · exact List.takeWhile_cons_of_neg (by simp [hblank])
    · exact List.dropWhile_cons_of_neg (by simp [hblank])

theorem takeWhile_all {α : Type} {p : α → Bool} {A : List α}
    (h : ∀ a ∈ A, p a = true) : A.takeWhile p = A := by
  have := @takeWhile_append_all α p A ([] : List α) h
  rwa [List.append_nil, List.takeWhile_nil, List.append_nil] at this

theorem dropWhile_all {α : Type} {p : α → Bool} {A : List α}
    (h : ∀ a ∈ A, p a = true) : A.dropWhile p = [] := by
  have := @dropWhile_append_all α p A ([] : List α) h
  rwa [List.append_nil, List.dropWhile_nil] at this

theorem parseLoop_nil (fuel : Nat) (prev : Option PyStr) : parseLoop fuel prev [] = [] := by
  cases fuel with
  | zero => rw [parseLoop]
  | succ f => rw [parseLoop]

set_option maxHeartbeats 1000000 in
theorem parseLoop_srtLines : ∀ (bs : List SubtitleBlock) (fuel : Nat) (prev : Option PyStr),
    (∀ b ∈ bs, RoundTrippable b) → 2 * bs.length ≤ fuel →
    parseLoop fuel prev (srtLines bs) = bs := by
  intro bs
  induction bs with
  | nil =>
    intro fuel prev _ _
    rw [srtLines]
    cases fuel with
    | zero => rw [parseLoop]
    | succ f => rw [parseLoop]
  | cons b rest ih =>
    intro fuel prev hRT hfuel
    obtain ⟨f, rfl⟩ : ∃ f, fuel = f + 2 := ⟨fuel - 2, by simp at hfuel; omega⟩
    have hbRT : RoundTrippable b := hRT b (List.mem_cons_self b rest)
    have hbRT2 : RoundTrippable b := hRT b (List.mem_cons_self b rest)
    obtain ⟨hidx, hs0, hs1, he0, he1, htne, htstrip, hlines⟩ := hbRT
    rw [srtLines, blockLines]
    rw [List.cons_append, List.cons_append]
    have htext : ∀ line ∈ splitNL b.text, isTextLine line = true := fun line hl =>
      isTextLine_of (hlines line hl).1 (hlines line hl).2.1
    have hindex : (if pyIsDigit (pstrip (intRepr b.index)) = true then
        Int.ofNat (digitsToNat (pstrip (intRepr b.index))) else 0) = b.index := by
      rw [pstrip_intRepr_of_RT hbRT2, intRepr_of_pos hidx]
      rw [if_pos (pyIsDigit_natRepr _), natRepr_val]
      exact Int.toNat_of_nonneg (by omega)
    have hjoin : pstrip (joinNL (splitNL b.text)) = b.text := by
      unfold joinNL splitNL
      rw [List.intercalate_splitOn]
      exact htstrip
    have hskip : searchTimecode (pstrip (intRepr b.index)) = none := by
      rw [pstrip_intRepr_of_RT hbRT2, intRepr_of_pos hidx]
      exact searchTimecode_natRepr _
    have hfne : pstrip (tcLine b) ≠ [] := by
      rw [pstrip_tcLine hs0 hs1 he0 he1]
      exact tcLine_ne_nil b
    have hfsr : searchTimecode (pstrip (tcLine b)) = some (b.start_time, b.end_time) := by
      rw [pstrip_tcLine hs0 hs1 he0 he1]
      exact searchTimecode_tcLine hs0 hs1 he0 he1
    by_cases hrest : rest = []
    · subst hrest
      rw [if_pos List.isEmpty_nil, List.append_nil]
      rw [parseLoop_skip (f + 1) prev _ _ hskip]
      rw [parseLoop_found f _ _ _ b.start_time b.end_time hfne hfsr]
      dsimp only []
      rw [takeWhile_all htext, dropWhile_all htext]
      rw [List.takeWhile_nil, List.dropWhile_nil]
      rw [hjoin]
      rw [if_pos htne]
      rw [hindex, parseLoop_nil]
    · rw [if_neg (by simp [hrest])]
      rw [parseLoop_skip (f + 1) prev _ _ hskip]
      rw [parseLoop_found f _ _ _ b.start_time b.end_time hfne hfsr]
      dsimp only []
      rw [takeWhile_append_all htext, dropWhile_append_all htext]
      rw [List.takeWhile_cons_of_neg (by simp [isTextLine_nil]),
        List.dropWhile_cons_of_neg (by simp [isTextLine_nil])]
      rw [List.append_nil]
      rw [List.takeWhile_cons_of_pos (by simp [isBlankLine_nil]),
        List.dropWhile_cons_of_pos (by simp [isBlankLine_nil])]
      obtain ⟨hbl1, hbl2⟩ := srtLines_not_blank_head hrest
        (fun x hx => hRT x (List.mem_cons_of_mem _ hx))
      rw [hbl1, hbl2]
      rw [hjoin]
      rw [if_pos htne]
      rw [hindex]
      rw [ih _ _ (fun x hx => hRT x (List.mem_cons_of_mem _ hx)) (by simp at hfuel ⊢; omega)]

theorem splitNL_ne_nil (t : PyStr) : splitNL t ≠ [] := by
  unfold splitNL
  simp [List.splitOn, List.splitOnP_ne_nil]

theorem pySplitlines_joinNL : ∀ (L : List PyStr), L ≠ [] →
    (∀ l ∈ L, ∀ c ∈ l, isLineBreak c = false) → (∀ l ∈ L, l ≠ []) →
    pySplitlines (joinNL L) = L := by
  intro L
  induction L with
  | nil => intro h _ _; exact absurd rfl h
  | cons x L ih =>
    intro _ hbr hne
    have hx : ∀ c ∈ x, isLineBreak c = false := hbr x (List.mem_cons_self x L)
    have hxne : x ≠ [] := hne x (List.mem_cons_self x L)
    cases L with
    | nil =>
      rw [joinNL_singleton, pySplitlines_of_ne_nil hxne, pySplitlinesGo_nobreak x hx []]
      simp
    | cons y L' =>
      have hyne : y ≠ [] := hne y (by simp)
      have hJ : joinNL (y :: L') ≠ [] := joinNL_cons_ne_nil hyne
      rw [joinNL_cons_cons]
      rw [pySplitlines_of_ne_nil (by simp)]
      rw [pySplitlinesGo_append x hx []]
      rw [if_neg hJ]
      rw [← pySplitlines_of_ne_nil hJ]
      rw [ih (by simp) (fun l hml => hbr l (List.mem_cons_of_mem _ hml))
        (fun l hml => hne l (List.mem_cons_of_mem _ hml))]
      simp

theorem joinNL_splitNL (t : PyStr) : joinNL (splitNL t) = t := by
  unfold joinNL splitNL
  exact List.intercalate_splitOn t '\n'

theorem pySplitlines_splitNL {t : PyStr} (htne : t ≠ [])
    (hne : ∀ l ∈ splitNL t, l ≠ [])
    (hbr : ∀ l ∈ splitNL t, ∀ c ∈ l, isLineBreak c = false) :
    pySplitlines t = splitNL t := by
  conv_lhs => rw [← joinNL_splitNL t]
  exact pySplitlines_joinNL _ (splitNL_ne_nil t) hbr hne

theorem formatLines_eq : ∀ {bs : List SubtitleBlock}, bs ≠ [] →
    (∀ b ∈ bs, RoundTrippable b) → formatLines bs = srtLines bs ++ [[]] := by
  intro bs
  induction bs with
  | nil => intro h _; exact absurd rfl h
  | cons b rest ih =>
    intro _ hRT
    obtain ⟨hidx, hs0, hs1, he0, he1, htne, htstrip, hlines⟩ :=
      hRT b (List.mem_cons_self b rest)
    have hps : pySplitlines b.text = splitNL b.text :=
      pySplitlines_splitNL htne (fun l hl => (hlines l hl).1 ∘ (by intro he; rw [he]; rfl))
        (fun l hl => (hlines l hl).2.2.2)
    cases rest with
    | nil =>
      rw [formatLines, srtLines, blockLines, tcLine]
      simp only [List.flatMap_cons, List.flatMap_nil, List.append_nil, List.isEmpty_nil,
        if_true, hps]
      simp [splitNL]
    | cons b2 rest2 =>
      rw [formatLines, List.flatMap_cons, ← formatLines]
      rw [ih (by simp) (fun x hx => hRT x (List.mem_cons_of_mem _ hx))]
      simp [srtLines, blockLines, tcLine, hps, List.append_assoc]

theorem joinNL_concat_nil : ∀ {L : List PyStr}, L ≠ [] →
    joinNL (L ++ [[]]) = joinNL L ++ ['\n'] := by
  intro L
  induction L with
  | nil => intro h; exact absurd rfl h
  | cons x L ih =>
    intro _
    cases L with
    | nil => simp [joinNL, List.intercalate]
    | cons y L' =>
      have h3 := ih (by simp)
      calc joinNL ((x :: y :: L') ++ [[]])
          = x ++ '\n' :: joinNL ((y :: L') ++ [[]]) := by
            rw [show (x :: y :: L') ++ [[]] = x :: y :: (L' ++ [[]]) from rfl]
            rw [joinNL_cons_cons, List.cons_append]
        _ = x ++ '\n' :: (joinNL (y :: L') ++ ['\n']) := by rw [h3]
        _ = (x ++ '\n' :: joinNL (y :: L')) ++ ['\n'] := by simp
        _ = joinNL (x :: y :: L') ++ ['\n'] := by rw [joinNL_cons_cons]

theorem srtLines_ne_nil {bs : List SubtitleBlock} (h : bs ≠ []) : srtLines bs ≠ [] := by
  cases bs with
  | nil => exact absurd rfl h
  | cons b rest =>
    rw [srtLines, blockLines]
    simp

theorem srtLines_chars : ∀ {bs : List SubtitleBlock}, (∀ b ∈ bs, RoundTrippable b) →
    ∀ l ∈ srtLines bs, ∀ c ∈ l, isLineBreak c = false := by
  intro bs
  induction bs with
  | nil => intro _ l hl; exact absurd hl (by rw [srtLines] at hl ⊢; exact List.not_mem_nil l)
  | cons b rest ih =>
    intro hRT l hl
    obtain ⟨hidx, hs0, hs1, he0, he1, htne, htstrip, hlines⟩ :=
      hRT b (List.mem_cons_self b rest)
    rw [srtLines, blockLines] at hl
    rcases List.mem_append.mp hl with hm | hm
    · rcases List.mem_cons.mp hm with rfl | hm2
      · rw [intRepr_of_pos hidx]
        exact natRepr_no_break
      · rcases List.mem_cons.mp hm2 with rfl | hm3
        · exact tcLine_no_break b
        · exact fun c hc => (hlines l hm3).2.2.2 c hc
    · by_cases hrest : rest.isEmpty
      · rw [if_pos hrest] at hm
        exact absurd hm (List.not_mem_nil l)
      · rw [if_neg hrest] at hm
        rcases List.mem_cons.mp hm with rfl | hm2
        · intro c hc; exact absurd hc (List.not_mem_nil c)
        · exact ih (fun x hx => hRT x (List.mem_cons_of_mem _ hx)) l hm2

theorem mem_joinNL : ∀ {L : List PyStr} {c : Char}, c ∈ joinNL L →
    c = '\n' ∨ ∃ l ∈ L, c ∈ l := by
  intro L
  induction L with
  | nil => intro c hc; simp [joinNL, List.intercalate] at hc
  | cons x L ih =>
    intro c hc
    cases L with
    | nil =>
      rw [joinNL_singleton] at hc
      exact Or.inr ⟨x, by simp, hc⟩
    | cons y L' =>
      rw [joinNL_cons_cons] at hc
      rcases List.mem_append.mp hc with h | h
      · exact Or.inr ⟨x, by simp, h⟩
      · rcases List.mem_cons.mp h with rfl | h2
        · exact Or.inl rfl
        · rcases ih h2 with h3 | ⟨l, hl, hcl⟩
          · exact Or.inl h3
          · exact Or.inr ⟨l, List.mem_cons_of_mem _ hl, hcl⟩

theorem pstrip_eq_self_last {t : PyStr} (h : pstrip t = t) :
    ∀ c, t.getLast? = some c → isPySpace c = false := by
  intro c hc
  have htne : t ≠ [] := by
    intro hnil
    rw [hnil] at hc
    simp at hc
  unfold pstrip at h
  have e1 : (t.dropWhile isPySpace).length ≤ t.length :=
    (List.dropWhile_sublist _).length_le
  have e2 := congrArg List.length h
  have e3 : ((t.dropWhile isPySpace).rdropWhile isPySpace).length ≤
      (t.dropWhile isPySpace).length := ( List.rdropWhile_prefix _ _).length_le
  simp only [List.length_cons] at e2
  have hd : t.dropWhile isPySpace = t :=
    (List.dropWhile_sublist _).eq_of_length (by omega)
  have hr : t.rdropWhile isPySpace = t := by rwa [hd] at h
  have hlast := List.rdropWhile_eq_self_iff.mp hr htne
  rw [List.getLast?_eq_getLast _ htne] at hc
  obtain rfl := Option.some_inj.mp hc.symm
  simpa using hlast

theorem srtLines_getLast? : ∀ {bs : List SubtitleBlock} (h : bs ≠ []),
    (srtLines bs).getLast? = (splitNL (bs.getLast h).text).getLast? := by
  intro bs
  induction bs with
  | nil => intro h; exact absurd rfl h
  | cons b rest ih =>
    intro _
    cases rest with
    | nil =>
      rw [srtLines]
      rw [if_pos List.isEmpty_nil, List.append_nil, blockLines]
      have hsp := splitNL_ne_nil b.text
      have hgl : (splitNL b.text).getLast? = some ((splitNL b.text).getLast hsp) :=
        List.getLast?_eq_getLast _ hsp
      rw [getLast?_cons_eq (getLast?_cons_eq hgl)]
      simp only [List.getLast_singleton]
      rw [hgl]
    | cons b2 rest2 =>
      rw [srtLines]
      rw [if_neg (by simp)]
      rw [List.getLast?_append]
      have hr := ih (by simp)
      have hsome : ∃ v, (srtLines (b2 :: rest2)).getLast? = some v := by
        cases hv : (srtLines (b2 :: rest2)).getLast? with
        | none => exact absurd (List.getLast?_eq_none_iff.mp hv) (srtLines_ne_nil (by simp))
        | some v => exact ⟨v, rfl⟩
      obtain ⟨v, hv⟩ := hsome
      rw [getLast?_cons_eq hv]
      rw [hv] at hr
      rw [show (some v).or (blockLines b).getLast? = some v from rfl]
      rw [List.getLast_cons (by simp : (b2 :: rest2 : List SubtitleBlock) ≠ [])]
      exact hr

theorem mem_getLast? {α : Type} : ∀ {l : List α} {x : α}, l.getLast? = some x → x ∈ l := by
  intro l
  induction l with
  | nil => intro x h; simp at h
  | cons a l ih =>
    intro x h
    cases l with
    | nil =>
      simp only [List.getLast?_singleton, Option.some.injEq] at h
      subst h
      exact List.mem_cons_self _ _
    | cons b l' =>
      rw [List.getLast?_cons_cons] at h
      exact List.mem_cons_of_mem _ (ih h)

theorem formatSrt_eq {bs : List SubtitleBlock} (hne : bs ≠ [])
    (hRT : ∀ b ∈ bs, RoundTrippable b) :
    formatSrt bs = joinNL (srtLines bs) ++ ['\n'] := by
  unfold formatSrt
  rw [formatLines_eq hne hRT]
  rw [joinNL_concat_nil (srtLines_ne_nil hne)]
  congr 1
  apply prstrip_append_newline
  intro c hc
  have hlast := srtLines_getLast? hne
  have hbRT := hRT (bs.getLast hne) (List.getLast_mem hne)
  obtain ⟨hidx, hs0, hs1, he0, he1, htne, htstrip, hlines⟩ := hbRT
  have hsplitne : splitNL (bs.getLast hne).text ≠ [] := splitNL_ne_nil _
  have hll : (splitNL (bs.getLast hne).text).getLast? =
      some ((splitNL (bs.getLast hne).text).getLast hsplitne) :=
    List.getLast?_eq_getLast _ hsplitne
  have hllmem : (splitNL (bs.getLast hne).text).getLast hsplitne ∈
      splitNL (bs.getLast hne).text := List.getLast_mem hsplitne
  have hllne : (splitNL (bs.getLast hne).text).getLast hsplitne ≠ [] := by
    intro hnil
    exact (hlines _ hllmem).1 (by rw [hnil]; rfl)
  have hsl : (srtLines bs).getLast? =
      some ((splitNL (bs.getLast hne).text).getLast hsplitne) := hlast.trans hll
  have hjoin := joinNL_getLast? (srtLines bs) _ hllne hsl
  rw [hjoin] at hc
  have htext_last : (bs.getLast hne).text.getLast? =
      ((splitNL (bs.getLast hne).text).getLast hsplitne).getLast? := by
    conv_lhs => rw [← joinNL_splitNL (bs.getLast hne).text]
    exact joinNL_getLast? _ _ hllne hll
  exact pstrip_eq_self_last htstrip c (htext_last.trans hc)

set_option maxHeartbeats 1000000 in
theorem pyNormalizeNewlines_eq_self : ∀ {l : PyStr}, (∀ c ∈ l, c ≠ '\r') →
    pyNormalizeNewlines l = l := by
  intro l
  induction l with
  | nil => intro _; rfl
  | cons c rest ih =>
    intro h
    have hc : c ≠ '\r' := h c (List.mem_cons_self c rest)
    rw [pyNormalizeNewlines.eq_def]
    split
    · next heq => exact absurd heq (by simp)
    · next heq =>
      obtain ⟨h1, _⟩ := List.cons.injEq _ _ _ _ ▸ heq
      exact absurd h1 hc
    · next heq =>
      obtain ⟨h1, _⟩ := List.cons.injEq _ _ _ _ ▸ heq
      exact absurd h1 hc
    · next c2 r2 hne1 hne2 heq =>
      obtain ⟨h1, h2⟩ := List.cons.injEq _ _ _ _ ▸ heq
      subst h1
      rw [← h2, ih (fun d hd => h d (List.mem_cons_of_mem _ hd))]

theorem stripBOM_cons {c : Char} {rest : PyStr} (h : c ≠ '﻿') :
    stripBOM (c :: rest) = c :: rest := by
  unfold stripBOM
  exact List.dropWhile_cons_of_neg (by simp [h])

theorem srtLines_length {bs : List SubtitleBlock} :
    2 * bs.length ≤ (srtLines bs).length + 1 := by
  induction bs with
  | nil => simp [srtLines]
  | cons b rest ih =>
    rw [srtLines, blockLines]
    by_cases h : rest.isEmpty
    · have : rest = [] := by
        cases rest with
        | nil => rfl
        | cons x r => simp at h
      subst this
      rw [if_pos List.isEmpty_nil, List.append_nil]
      simp only [List.length_cons, List.length_nil]
      have := List.length_pos.mpr (splitNL_ne_nil b.text)
      omega
    · rw [if_neg h]
      simp only [List.length_append, List.length_cons]
      simp only [List.length_cons] at ih ⊢
      omega

theorem lines_of_formatSrt {bs : List SubtitleBlock} (hne : bs ≠ [])
    (hRT : ∀ b ∈ bs, RoundTrippable b) :
    pySplitlines (pyNormalizeNewlines (stripBOM (formatSrt bs))) = srtLines bs := by
  cases bs with
  | nil => exact absurd rfl hne
  | cons b0 rest0 =>
  rw [formatSrt_eq (by simp) hRT]
  have hchars : ∀ l ∈ srtLines (b0 :: rest0), ∀ c ∈ l, isLineBreak c = false :=
    srtLines_chars hRT
  have hb0 := hRT b0 (List.mem_cons_self b0 rest0)
  obtain ⟨d0, r0, hd0, hhead⟩ : ∃ d r, d < 10 ∧
      intRepr b0.index = Nat.digitChar d :: r := by
    rw [intRepr_of_pos hb0.1]
    cases hnr : natRepr b0.index.toNat with
    | nil => exact absurd hnr (natRepr_ne_nil _)
    | cons c r =>
      obtain ⟨d, hd, rfl⟩ := natRepr_mem (hnr ▸ List.mem_cons_self c r)
      exact ⟨d, r, hd, rfl⟩
  obtain ⟨tl, hjoin⟩ : ∃ tl, joinNL (srtLines (b0 :: rest0)) = intRepr b0.index ++ tl := by
    rw [srtLines, blockLines, List.cons_append]
    cases hsl : (tcLine b0 :: splitNL b0.text) ++
        (if rest0.isEmpty then [] else [] :: srtLines rest0) with
    | nil => simp at hsl
    | cons y L =>
      rw [joinNL_cons_cons]
      exact ⟨_, rfl⟩
  have hbom : stripBOM (joinNL (srtLines (b0 :: rest0)) ++ ['\n']) =
      joinNL (srtLines (b0 :: rest0)) ++ ['\n'] := by
    rw [hjoin, hhead]
    rw [List.cons_append, List.cons_append]
    exact stripBOM_cons (digitChar_ne_bom hd0)
  rw [hbom]
  have hnorm : pyNormalizeNewlines (joinNL (srtLines (b0 :: rest0)) ++ ['\n']) =
      joinNL (srtLines (b0 :: rest0)) ++ ['\n'] := by
    apply pyNormalizeNewlines_eq_self
    intro c hcm
    rcases List.mem_append.mp hcm with hcm | hcm
    · rcases mem_joinNL hcm with rfl | ⟨l, hl, hcl⟩
      · decide
      · have := hchars l hl c hcl
        intro hcr
        rw [hcr] at this
        exact absurd this (by decide)
    · simp only [List.mem_singleton] at hcm
      subst hcm
      decide
  rw [hnorm]
  rw [pySplitlines_join _ (srtLines_ne_nil (by simp)) hchars]

theorem parseSrt_formatSrt {bs : List SubtitleBlock}
    (hRT : ∀ b ∈ bs, RoundTrippable b) :
    parseSrt (formatSrt bs) = bs := by
  cases hbs : bs with
  | nil => decide
  | cons b0 rest0 =>
  subst hbs
  unfold parseSrt
  dsimp only []
  rw [lines_of_formatSrt (by simp) hRT]
  rw [parseLoop_srtLines _ _ _ hRT
    (by have := @srtLines_length (b0 :: rest0); omega)]

theorem renumber_RT {bs : List SubtitleBlock} (hRT : ∀ b ∈ bs, RoundTrippableData b) :
    ∀ b' ∈ renumberBlocks bs, RoundTrippable b' := by
  intro b' hb'
  obtain ⟨i, hi, rfl⟩ := List.exists_of_mem_mapIdx hb'
  have hpos : (1 : Int) ≤ Int.ofNat i + 1 := by
    simp only [Int.ofNat_eq_natCast]
    omega
  exact ⟨hpos, hRT bs[i] (List.getElem_mem hi)⟩

theorem map_index_mapIdx : ∀ (bs : List SubtitleBlock) (f : Nat → Int),
    ((bs.mapIdx fun i b => (⟨f i, b.start_time, b.end_time, b.text⟩ : SubtitleBlock)).map
      fun b => intRepr b.index) = (List.range bs.length).map fun i => intRepr (f i) := by
  intro bs
  induction bs with
  | nil => intro f; rfl
  | cons b rest ih =>
    intro f
    rw [List.mapIdx_cons, List.map_cons]
    rw [List.length_cons, List.range_succ_eq_map, List.map_cons]
    congr 1
    rw [ih fun i => f (i + 1)]
    rw [List.map_map]
    simp [Function.comp, Nat.succ_eq_add_one]

theorem filterMap_pairs_skip :
    ∀ (T next : List PyStr), (∀ l ∈ T, searchTimecode (pstrip l) = none) →
    (∀ n0, next.head? = some n0 → searchTimecode (pstrip n0) = none) →
    ((T ++ next).zip (T ++ next).tail).filterMap
        (fun p => if (searchTimecode (pstrip p.2)).isSome then some (pstrip p.1) else none) =
      (next.zip next.tail).filterMap
        (fun p => if (searchTimecode (pstrip p.2)).isSome then some (pstrip p.1) else none) := by
  intro T
  induction T with
  | nil => intro next _ _; rfl
  | cons x T' ih =>
    intro next hT hnext
    cases T' with
    | nil =>
      cases next with
      | nil => rfl
      | cons n0 next' =>
        rw [List.cons_append, List.nil_append]
        rw [show (x :: n0 :: next').tail = n0 :: next' from rfl]
        rw [List.zip_cons_cons]
        rw [List.filterMap_cons_none (by simp [hnext n0 rfl])]
        rfl
    | cons y T'' =>
      rw [List.cons_append, List.cons_append]
      rw [show ((x :: y :: (T'' ++ next))).tail = y :: (T'' ++ next) from rfl]
      rw [List.zip_cons_cons]
      rw [List.filterMap_cons_none (by simp [hT y (by simp)])]
      exact ih next (fun l hl => hT l (List.mem_cons_of_mem _ hl)) hnext

theorem srtIndexLines_srtLines : ∀ {bs : List SubtitleBlock},
    (∀ b ∈ bs, RoundTrippable b) →
    ((srtLines bs).zip (srtLines bs).tail).filterMap
        (fun p => if (searchTimecode (pstrip p.2)).isSome then some (pstrip p.1) else none) =
      bs.map fun b => intRepr b.index := by
  intro bs
  induction bs with
  | nil => intro _; rfl
  | cons b rest ih =>
    intro hRT
    have hbRT : RoundTrippable b := hRT b (List.mem_cons_self b rest)
    obtain ⟨hidx, hs0, hs1, he0, he1, htne, htstrip, hlines⟩ := hbRT
    have hbRT2 : RoundTrippable b := hRT b (List.mem_cons_self b rest)
    rw [srtLines, blockLines]
    cases hsp : splitNL b.text with
    | nil => exact absurd hsp (splitNL_ne_nil b.text)
    | cons m0 M2 =>
    rw [List.cons_append, List.cons_append, List.cons_append]
    rw [show ∀ (R : List PyStr), (intRepr b.index :: tcLine b :: m0 :: R).tail =
      tcLine b :: m0 :: R from fun R => rfl]
    rw [List.zip_cons_cons]
    rw [List.filterMap_cons_some (by
      show (if (searchTimecode (pstrip (tcLine b))).isSome = true
          then some (pstrip (intRepr b.index)) else none) = _
      rw [pstrip_tcLine hs0 hs1 he0 he1, searchTimecode_tcLine hs0 hs1 he0 he1]
      rfl)]
    rw [List.zip_cons_cons]
    rw [List.filterMap_cons_none (by
      have hm0 : searchTimecode (pstrip m0) = none :=
        (hlines m0 (by rw [hsp]; exact List.mem_cons_self _ _)).2.2.1
      simp [hm0])]
    have hTfacts : ∀ l ∈ m0 :: M2, searchTimecode (pstrip l) = none := fun l hl =>
      (hlines l (by rw [hsp]; exact hl)).2.2.1
    by_cases hrest : rest = []
    · subst hrest
      rw [if_pos List.isEmpty_nil, List.append_nil]
      have hskip := filterMap_pairs_skip (m0 :: M2) [] hTfacts (by intro n0 h0; simp at h0)
      simp only [List.append_nil, List.cons_append, List.tail_cons] at hskip
      rw [hskip]
      rw [pstrip_intRepr_of_RT hbRT2]
      rfl
    · rw [if_neg (by simp [hrest])]
      have hnext : ∀ n0, (([] : PyStr) :: srtLines rest).head? = some n0 →
          searchTimecode (pstrip n0) = none := by
        intro n0 h0
        simp only [List.head?_cons, Option.some.injEq] at h0
        subst h0
        decide
      have hskip := filterMap_pairs_skip (m0 :: M2) ([] :: srtLines rest) hTfacts hnext
      simp only [List.cons_append, List.tail_cons] at hskip
      rw [hskip]
      cases hrt : rest with
      | nil => exact absurd hrt hrest
      | cons b2 rest2 =>
      subst hrt
      have hb2RT := hRT b2 (by simp)
      cases hsl : srtLines (b2 :: rest2) with
      | nil => exact absurd hsl (srtLines_ne_nil (by simp))
      | cons s0 S2 =>
      rw [List.zip_cons_cons]
      have hs0idx : s0 = intRepr b2.index := by
        rw [srtLines, blockLines] at hsl
        simp only [List.cons_append] at hsl
        exact (List.cons.injEq _ _ _ _ ▸ hsl).1.symm
      rw [List.filterMap_cons_none (by
        have hsn : searchTimecode (pstrip s0) = none := by
          rw [hs0idx, pstrip_intRepr_of_RT hb2RT, intRepr_of_pos hb2RT.1]
          exact searchTimecode_natRepr _
        simp [hsn])]
      have hrec := ih (fun x hx => hRT x (List.mem_cons_of_mem _ hx))
      rw [hsl] at hrec
      simp only [List.tail_cons] at hrec
      rw [hrec]
      rw [pstrip_intRepr_of_RT hbRT2]
      rfl

theorem srtIndexLines_renumber {bs : List SubtitleBlock} (hne : bs ≠ [])
    (hRT : ∀ b ∈ bs, RoundTrippableData b) :
    srtIndexLines (formatSrt (renumberBlocks bs)) =
      (List.range bs.length).map fun i => intRepr (Int.ofNat i + 1) := by
  unfold srtIndexLines
  dsimp only []
  have hRT' := renumber_RT hRT
  have hne' : renumberBlocks bs ≠ [] := by
    unfold renumberBlocks
    exact List.mapIdx_ne_nil_iff.mpr hne
  rw [lines_of_formatSrt hne' hRT']
  rw [srtIndexLines_srtLines hRT']
  unfold renumberBlocks
  exact map_index_mapIdx bs fun i => Int.ofNat i + 1

/-- C5 (amended): under well-formedness strong enough for the fixed-width
timecode rendering — index ≥ 1, `0 ≤ start_ms < 360000000`,
`0 ≤ end_ms < 360000000`, text non-empty, stripped, with every line non-blank
and containing no timecode — the round trip is exact:
`parse_srt (format_srt E) = E`, entry for entry, indices included.  (The
claim's weaker well-formedness is insufficient — see the counterexample — and
`format_srt` does not renumber, so indices are preserved, not rewritten.) -/
theorem C5_round_trip_exact (E : List SubtitleBlock)
    (h : ∀ b ∈ E, RoundTrippable b) :
    parseSrt (formatSrt E) = E :=
  parseSrt_formatSrt h

/-- Closed instance of `C5_round_trip_exact` on a two-entry list with a
multi-line second text. -/
theorem C5_round_trip_exact_witness :
    (∀ b ∈ [(⟨1, 0, 2000, "Hello there.".toList⟩ : SubtitleBlock),
            ⟨2, 2500, 5000, "Line one.\nLine two.".toList⟩], RoundTrippable b) ∧
    parseSrt (formatSrt
        [(⟨1, 0, 2000, "Hello there.".toList⟩ : SubtitleBlock),
         ⟨2, 2500, 5000, "Line one.\nLine two.".toList⟩]) =
      [(⟨1, 0, 2000, "Hello there.".toList⟩ : SubtitleBlock),
       ⟨2, 2500, 5000, "Line one.\nLine two.".toList⟩] :=
  ⟨by decide, C5_round_trip_exact _ (by decide)⟩

/-- C7 (amended): `format_srt` itself serializes each block's stored index
verbatim (see the counterexample, where a lone block with stored index 5
yields the index line `"5"`); the contiguous numbering of written files comes
from the renumbering step `process_file` performs before serializing.  For
every non-empty block list with well-formed payloads — stored indices
arbitrary — the index lines of `format_srt` applied to the renumbered list
are exactly `str 1, …, str n`. -/
theorem C7_renumber_then_format_indices (bs : List SubtitleBlock)
    (hne : bs ≠ []) (hD : ∀ b ∈ bs, RoundTrippableData b) :
    srtIndexLines (formatSrt (renumberBlocks bs)) =
      (List.range bs.length).map (fun i => intRepr (Int.ofNat i + 1)) :=
  srtIndexLines_renumber hne hD

/-- Closed instance of `C7_renumber_then_format_indices`: stored indices 5
and 17 come out as index lines `"1"`, `"2"`. -/
theorem C7_renumber_then_format_indices_witness :
    (([(⟨5, 0, 2000, "Hi.".toList⟩ : SubtitleBlock),
       ⟨17, 2500, 5000, "Yo.".toList⟩] : List SubtitleBlock) ≠ [] ∧
     ∀ b ∈ [(⟨5, 0, 2000, "Hi.".toList⟩ : SubtitleBlock),
            ⟨17, 2500, 5000, "Yo.".toList⟩], RoundTrippableData b) ∧
    srtIndexLines (formatSrt (renumberBlocks
        [(⟨5, 0, 2000, "Hi.".toList⟩ : SubtitleBlock),
         ⟨17, 2500, 5000, "Yo.".toList⟩])) =
      (List.range ([(⟨5, 0, 2000, "Hi.".toList⟩ : SubtitleBlock),
         ⟨17, 2500, 5000, "Yo.".toList⟩] : List SubtitleBlock).length).map
        (fun i => intRepr (Int.ofNat i + 1)) :=
  ⟨⟨by decide, by decide⟩,
   C7_renumber_then_format_indices _ (by decide) (by decide)⟩

theorem sublogueTokenSubGo_id : ∀ (fuel : Nat) (t : PyStr),
    sublogueTokenSearch t = false → sublogueTokenSubGo fuel t = t := by
  intro fuel
  induction fuel with
  | zero => intro t _; rfl
  | succ f ih =>
    intro t h
    cases t with
    | nil => rfl
    | cons c rest =>
      rw [sublogueTokenSearch] at h
      simp only [Bool.or_eq_false_iff] at h
      obtain ⟨h1, h2⟩ := h
      rw [sublogueTokenSubGo]
      cases hm : matchSublogueTokenAt (c :: rest) with
      | some k => rw [hm] at h1; simp at h1
      | none => rw [ih rest h2]

theorem sublogueTokenSub_id {t : PyStr} (h : sublogueTokenSearch t = false) :
    sublogueTokenSub t = t :=
  sublogueTokenSubGo_id _ t h

theorem containsSub_tail {needle : PyStr} {c : Char} {rest : PyStr}
    (h : containsSub needle (c :: rest) = false) : containsSub needle rest = false := by
  rw [containsSub] at h
  simp only [Bool.or_eq_false_iff] at h
  exact h.2

theorem noDD_not_head {rest : PyStr}
    (h : containsSub ['\n', '\n'] ('\n' :: rest) = false) :
    ∀ r2, rest ≠ '\n' :: r2 := by
  intro r2 hr
  subst hr
  rw [containsSub] at h
  simp only [Bool.or_eq_false_iff] at h
  have := h.1
  simp [List.isPrefixOf] at this

theorem collapseNewlinesGo_id : ∀ (t : PyStr),
    (containsSub ['\n', '\n'] t = false → collapseNewlinesGo 0 t = t) ∧
    ((∀ r2, t ≠ '\n' :: r2) → containsSub ['\n', '\n'] t = false →
      collapseNewlinesGo 1 t = '\n' :: t) := by
  intro t
  induction t with
  | nil => exact ⟨fun _ => rfl, fun _ _ => rfl⟩
  | cons c rest ih =>
    constructor
    · intro h
      by_cases hc : c = '\n'
      · subst hc
        rw [collapseNewlinesGo]
        exact (ih.2 (noDD_not_head h) (containsSub_tail h))
      · rw [collapseNewlinesGo.eq_def]
        split
        · next heq => exact absurd heq (by simp)
        · next heq =>
          obtain ⟨h1, _⟩ := List.cons.injEq _ _ _ _ ▸ heq
          exact absurd h1 hc
        · next c2 r2 hne heq =>
          obtain ⟨h1, h2⟩ := List.cons.injEq _ _ _ _ ▸ heq
          subst h1
          rw [← h2, (ih.1 (containsSub_tail h))]
          rfl
    · intro hhead h
      have hc : c ≠ '\n' := by
        intro hh
        exact hhead rest (by rw [hh])
      rw [collapseNewlinesGo.eq_def]
      split
      · next heq => exact absurd heq (by simp)
      · next heq =>
        obtain ⟨h1, _⟩ := List.cons.injEq _ _ _ _ ▸ heq
        exact absurd h1 hc
      · next c2 r2 hne heq =>
        obtain ⟨h1, h2⟩ := List.cons.injEq _ _ _ _ ▸ heq
        subst h1
        rw [← h2, (ih.1 (containsSub_tail h))]
        rfl

theorem collapseNewlines_id {t : PyStr} (h : containsSub ['\n', '\n'] t = false) :
    collapseNewlines t = t :=
  (collapseNewlinesGo_id t).1 h

theorem sanitizeSubtitleText_id {t : PyStr} (h1 : sublogueTokenSearch t = false)
    (h2 : containsSub ['\n', '\n'] t = false) (h3 : pstrip t = t) :
    sanitizeSubtitleText t = t := by
  unfold sanitizeSubtitleText
  rw [sublogueTokenSub_id h1, collapseNewlines_id h2, h3]

theorem sanitizeAllBlocks_id {l : List SubtitleBlock}
    (h : ∀ b ∈ l, b.text ≠ [] ∧ sublogueTokenSearch b.text = false ∧
      containsSub ['\n', '\n'] b.text = false ∧ pstrip b.text = b.text) :
    sanitizeAllBlocks l = l := by
  induction l with
  | nil => rfl
  | cons b rest ih =>
    obtain ⟨hne, h1, h2, h3⟩ := h b (List.mem_cons_self b rest)
    unfold sanitizeAllBlocks
    rw [List.filterMap_cons_some (by
      show (if sanitizeSubtitleText b.text ≠ [] then _ else none) = _
      rw [sanitizeSubtitleText_id h1 h2 h3, if_pos hne])]
    rw [← sanitizeAllBlocks]
    rw [ih fun x hx => h x (List.mem_cons_of_mem _ hx)]

theorem sanitizeAll_append (X Y : List SubtitleBlock) :
    sanitizeAllBlocks (X ++ Y) = sanitizeAllBlocks X ++ sanitizeAllBlocks Y := by
  unfold sanitizeAllBlocks
  exact List.filterMap_append X Y _

theorem map_triple_mapIdx : ∀ (l : List SubtitleBlock) (f : Nat → Int),
    ((l.mapIdx fun i b =>
        (⟨f i, b.start_time, b.end_time, b.text⟩ : SubtitleBlock)).map
      SubtitleBlock.triple) = l.map SubtitleBlock.triple := by
  intro l
  induction l with
  | nil => intro f; rfl
  | cons b rest ih =>
    intro f
    rw [List.mapIdx_cons, List.map_cons, List.map_cons]
    rw [ih fun i => f (i + 1)]
    rfl

theorem sanitize_mapIdx_triples : ∀ (l : List SubtitleBlock) (f : Nat → Int),
    (sanitizeAllBlocks (l.mapIdx fun i b =>
        (⟨f i, b.start_time, b.end_time, b.text⟩ : SubtitleBlock))).map
      SubtitleBlock.triple =
    (sanitizeAllBlocks l).map SubtitleBlock.triple := by
  intro l
  induction l with
  | nil => intro f; rfl
  | cons b rest ih =>
    intro f
    rw [List.mapIdx_cons]
    by_cases hct : sanitizeSubtitleText b.text ≠ []
    · unfold sanitizeAllBlocks
      rw [List.filterMap_cons_some (by
        show (if sanitizeSubtitleText b.text ≠ [] then _ else none) = _
        rw [if_pos hct])]
      rw [List.filterMap_cons_some (by
        show (if sanitizeSubtitleText b.text ≠ [] then _ else none) = _
        rw [if_pos hct])]
      rw [List.map_cons, List.map_cons]
      rw [← sanitizeAllBlocks, ← sanitizeAllBlocks]
      rw [ih fun i => f (i + 1)]
      rfl
    · unfold sanitizeAllBlocks
      rw [List.filterMap_cons_none (by
        show (if sanitizeSubtitleText b.text ≠ [] then _ else none) = none
        rw [if_neg hct])]
      rw [List.filterMap_cons_none (by
        show (if sanitizeSubtitleText b.text ≠ [] then _ else none) = none
        rw [if_neg hct])]
      rw [← sanitizeAllBlocks, ← sanitizeAllBlocks]
      exact ih fun i => f (i + 1)

/-- C2 (amended): with content cleaning enabled (the default), the phase-2.5
cleaner may rewrite dialogue whitespace, so triples are not always preserved
(see the counterexample).  The prepend–renumber–sanitize write path itself is
triple-preserving: for dialogue entries whose texts are non-empty, stripped,
free of sentinel-token matches and of consecutive newlines, the final block
list is the sanitized intro followed by the dialogue entries with their
`(start_ms, end_ms, text)` triples byte-identical and none dropped. -/
theorem C2_write_path_preserves_dialogue_triples (intro subs : List SubtitleBlock)
    (h : ∀ b ∈ subs, b.text ≠ [] ∧ sublogueTokenSearch b.text = false ∧
      containsSub ['\n', '\n'] b.text = false ∧ pstrip b.text = b.text) :
    (sanitizeAllBlocks (renumberBlocks (intro ++ subs))).map SubtitleBlock.triple =
      (sanitizeAllBlocks intro).map SubtitleBlock.triple ++
        subs.map SubtitleBlock.triple := by
  unfold renumberBlocks
  rw [List.mapIdx_append, sanitizeAll_append, List.map_append]
  congr 1
  · exact sanitize_mapIdx_triples intro fun i => Int.ofNat i + 1
  · rw [sanitizeAllBlocks_id (by
      intro b' hb'
      obtain ⟨i, hi, rfl⟩ := List.exists_of_mem_mapIdx hb'
      exact h subs[i] (List.getElem_mem hi))]
    exact map_triple_mapIdx subs fun i => Int.ofNat (i + intro.length) + 1

/-- Closed instance of `C2_write_path_preserves_dialogue_triples` on one
intro block and two dialogue entries. -/
theorem C2_write_path_preserves_dialogue_triples_witness :
    (∀ b ∈ [(⟨9, 2000, 3000, "Hi.".toList⟩ : SubtitleBlock),
            ⟨4, 3500, 5000, "Bye.".toList⟩],
      b.text ≠ [] ∧ sublogueTokenSearch b.text = false ∧
      containsSub ['\n', '\n'] b.text = false ∧ pstrip b.text = b.text) ∧
    (sanitizeAllBlocks (renumberBlocks
        ([(⟨1, 0, 1200, "Header".toList⟩ : SubtitleBlock)] ++
         [(⟨9, 2000, 3000, "Hi.".toList⟩ : SubtitleBlock),
          ⟨4, 3500, 5000, "Bye.".toList⟩]))).map SubtitleBlock.triple =
      (sanitizeAllBlocks [(⟨1, 0, 1200, "Header".toList⟩ : SubtitleBlock)]).map
          SubtitleBlock.triple ++
        [(⟨9, 2000, 3000, "Hi.".toList⟩ : SubtitleBlock),
         ⟨4, 3500, 5000, "Bye.".toList⟩].map SubtitleBlock.triple :=
  ⟨by decide, C2_write_path_preserves_dialogue_triples _ _ (by decide)⟩

theorem matchSublogueTokenAt_none_no_brace {l : PyStr} (h : '\x7b' ∉ l) :
    matchSublogueTokenAt l = none := by
  rw [matchSublogueTokenAt.eq_def]
  split
  · exact absurd (List.mem_cons_self _ _) h
  · rfl

theorem sublogueTokenSubGo_id_no_brace : ∀ (fuel : Nat) (t : PyStr),
    '\x7b' ∉ t → sublogueTokenSubGo fuel t = t := by
  intro fuel
  induction fuel with
  | zero => intro t _; rfl
  | succ f ih =>
    intro t h
    cases t with
    | nil => rfl
    | cons c rest =>
      rw [sublogueTokenSubGo]
      rw [matchSublogueTokenAt_none_no_brace h]
      rw [ih rest fun hm => h (List.mem_cons_of_mem _ hm)]

theorem mem_collapseNewlinesGo : ∀ (t : PyStr) (n : Nat) (c : Char),
    c ∈ collapseNewlinesGo n t → c = '\n' ∨ c ∈ t := by
  intro t
  induction t with
  | nil =>
    intro n c hc
    rw [collapseNewlinesGo] at hc
    exact Or.inl (List.eq_of_mem_replicate hc)
  | cons x rest ih =>
    intro n c hc
    by_cases hx : x = '\n'
    · subst hx
      rw [collapseNewlinesGo] at hc
      rcases ih (n + 1) c hc with h | h
      · exact Or.inl h
      · exact Or.inr (List.mem_cons_of_mem _ h)
    · rw [collapseNewlinesGo.eq_def] at hc
      split at hc
      · next heq => exact absurd heq (by simp)
      · next heq =>
        obtain ⟨h1, _⟩ := List.cons.injEq _ _ _ _ ▸ heq
        exact absurd h1 hx
      · next c2 r2 hne heq =>
        obtain ⟨h1, h2⟩ := List.cons.injEq _ _ _ _ ▸ heq
        subst h1
        rw [← h2] at hc
        rcases List.mem_append.mp hc with hm | hm
        · exact Or.inl (List.eq_of_mem_replicate hm)
        · rcases List.mem_cons.mp hm with rfl | hm2
          · exact Or.inr (List.mem_cons_self _ _)
          · rcases ih 0 c hm2 with h3 | h3
            · exact Or.inl h3
            · exact Or.inr (List.mem_cons_of_mem _ h3)

theorem mem_pstrip {t : PyStr} {c : Char} (h : c ∈ pstrip t) : c ∈ t := by
  unfold pstrip at h
  have h2 := ( List.rdropWhile_prefix isPySpace (t.dropWhile isPySpace)).sublist.subset h
  exact (List.dropWhile_sublist _).subset h2

theorem containsSub_mem : ∀ {hay needle : PyStr}, containsSub needle hay = true →
    ∀ c ∈ needle, c ∈ hay := by
  intro hay
  induction hay with
  | nil =>
    intro needle h c hc
    rw [containsSub] at h
    simp only [List.isEmpty_iff] at h
    subst h
    exact absurd hc (List.not_mem_nil c)
  | cons x rest ih =>
    intro needle h c hc
    rw [containsSub] at h
    rcases Bool.or_eq_true_iff.mp h with h1 | h1
    · exact (List.isPrefixOf_iff_prefix.mp h1).sublist.subset hc
    · exact List.mem_cons_of_mem _ (ih h1 c hc)

/-- C3 (amended): idempotency holds through the marker check, not
unconditionally.  Whenever a file's first 40 lines retain a Sublogue marker
(the sentinel or the attribution phrase `_has_plot_fast` looks for) and the
metadata has a non-empty plot, a default-options run (no force, no override)
returns `Skipped` and writes nothing.  A first run that builds a non-empty
intro leaves the attribution in the header, so its output satisfies the
check — the witness instantiates this at the demonstration first-run output —
whereas a first run whose intro is empty writes no marker and the second run
reprocesses instead of skipping (see the counterexample). -/
theorem C3_second_run_skips_on_marked_content (content : PyStr) (movie : Movie)
    (fo : SubtitleFormatOptions) (clean : Bool)
    (hplot : pstrip (movie.plot.getD []) ≠ [])
    (hmarker : hasPlotFast content = true) :
    processContent content movie false false fo clean = ProcResult.skipped := by
  unfold processContent
  dsimp only []
  rw [if_neg hplot, if_pos (by simp [hmarker])]

/-- Closed instance of `C3_second_run_skips_on_marked_content` at the
demonstration first-run output (`demoProcessedOutput` is the file the first
run writes — see the C2 counterexample — and it carries the marker). -/
theorem C3_second_run_skips_on_marked_content_witness :
    (pstrip (demoMovie.plot.getD []) ≠ [] ∧ hasPlotFast demoProcessedOutput = true) ∧
    processContent demoProcessedOutput demoMovie false false
      DEFAULT_FORMAT_OPTIONS true = ProcResult.skipped :=
  ⟨⟨by decide, by decide⟩,
   C3_second_run_skips_on_marked_content demoProcessedOutput demoMovie
     DEFAULT_FORMAT_OPTIONS true (by decide) (by decide)⟩

theorem intercalate_cons_cons_eq {α : Type} (sep a b : List α) (L : List (List α)) :
    List.intercalate sep (a :: b :: L) = a ++ sep ++ List.intercalate sep (b :: L) := by
  unfold List.intercalate
  rw [List.intersperse_cons₂]
  simp

theorem mem_intercalate {α : Type} {sep : List α} : ∀ {L : List (List α)} {c : α},
    c ∈ List.intercalate sep L → c ∈ sep ∨ ∃ l ∈ L, c ∈ l := by
  intro L
  induction L with
  | nil => intro c hc; simp [List.intercalate] at hc
  | cons x L ih =>
    intro c hc
    cases L with
    | nil =>
      simp only [List.intercalate, List.intersperse_single, List.flatten] at hc
      simp only [List.flatten_nil, List.append_nil] at hc
      exact Or.inr ⟨x, by simp, hc⟩
    | cons y L2 =>
      rw [intercalate_cons_cons_eq] at hc
      rcases List.mem_append.mp hc with h1 | h1
      · rcases List.mem_append.mp h1 with h2 | h2
        · exact Or.inr ⟨x, by simp, h2⟩
        · exact Or.inl h2
      · rcases ih h1 with h2 | ⟨l, hl, hcl⟩
        · exact Or.inl h2
        · exact Or.inr ⟨l, List.mem_cons_of_mem _ hl, hcl⟩

theorem splitOnP_mem_subset {p : Char → Bool} : ∀ {l w : PyStr},
    w ∈ l.splitOnP p → ∀ c ∈ w, c ∈ l := by
  intro l
  induction l with
  | nil =>
    intro w hw c hc
    simp [List.splitOnP_nil] at hw
    subst hw
    simp at hc
  | cons x rest ih =>
    intro w hw c hc
    rw [List.splitOnP_cons] at hw
    by_cases hx : p x = true
    · rw [if_pos hx] at hw
      rcases List.mem_cons.mp hw with rfl | hw2
      · simp at hc
      · exact List.mem_cons_of_mem _ (ih hw2 c hc)
    · rw [if_neg hx] at hw
      cases hrest : rest.splitOnP p with
      | nil => exact absurd hrest (List.splitOnP_ne_nil _ _)
      | cons hd tl =>
        rw [hrest] at hw
        simp only [List.modifyHead] at hw
        rcases List.mem_cons.mp hw with rfl | hw2
        · rcases List.mem_cons.mp hc with rfl | hc2
          · exact List.mem_cons_self _ _
          · exact List.mem_cons_of_mem _
              (ih (hrest ▸ List.mem_cons_self hd tl) c hc2)
        · exact List.mem_cons_of_mem _
            (ih (hrest ▸ List.mem_cons_of_mem hd hw2) c hc)

theorem brace_splitWs {l : PyStr} (h : '\x7b' ∉ l) :
    ∀ w ∈ splitWs l, '\x7b' ∉ w := by
  intro w hw hc
  unfold splitWs at hw
  exact h (splitOnP_mem_subset (List.mem_of_mem_filter hw) _ hc)

theorem brace_pstrip {l : PyStr} (h : '\x7b' ∉ l) : '\x7b' ∉ pstrip l :=
  fun hc => h (mem_pstrip hc)

theorem brace_append {a b : PyStr} (ha : '\x7b' ∉ a) (hb : '\x7b' ∉ b) :
    '\x7b' ∉ a ++ b := by
  intro hc
  rcases List.mem_append.mp hc with h | h
  · exact ha h
  · exact hb h

theorem brace_space_join {a b : PyStr} (ha : '\x7b' ∉ a) (hb : '\x7b' ∉ b) :
    '\x7b' ∉ a ++ ' ' :: b := by
  intro hc
  rcases List.mem_append.mp hc with h | h
  · exact ha h
  · rcases List.mem_cons.mp h with h2 | h2
    · exact absurd h2 (by decide)
    · exact hb h2

theorem brace_splitSentencesGo : ∀ (fuel : Nat) (acc l : PyStr),
    '\x7b' ∉ acc → '\x7b' ∉ l →
    ∀ s ∈ splitSentencesGo fuel acc l, '\x7b' ∉ s := by
  intro fuel
  induction fuel with
  | zero =>
    intro acc l ha hl s hs hc
    have h0 : splitSentencesGo 0 acc l = [acc.reverse ++ l] := rfl
    rw [h0] at hs
    rcases List.mem_cons.mp hs with rfl | hs2
    · rcases List.mem_append.mp hc with h | h
      · exact ha (List.mem_reverse.mp h)
      · exact hl h
    · exact absurd hs2 (List.not_mem_nil s)
  | succ f ih =>
    intro acc l ha hl s hs hc
    cases l with
    | nil =>
      have h0 : splitSentencesGo (f + 1) acc [] = [acc.reverse] := rfl
      rw [h0] at hs
      rcases List.mem_cons.mp hs with rfl | hs2
      · exact ha (List.mem_reverse.mp hc)
      · exact absurd hs2 (List.not_mem_nil s)
    | cons c0 rest =>
      rw [splitSentencesGo.eq_def] at hs
      simp only [] at hs
      split at hs
      · rcases List.mem_cons.mp hs with rfl | hs2
        · rcases List.mem_append.mp hc with h | h
          · exact ha (List.mem_reverse.mp h)
          · rcases List.mem_cons.mp h with h2 | h2
            · exact hl (h2 ▸ List.mem_cons_self c0 rest)
            · exact absurd h2 (List.not_mem_nil _)
        · exact ih [] _ (List.not_mem_nil _)
            (fun hm => hl (List.mem_cons_of_mem _ ((List.dropWhile_sublist _).subset hm)))
            s hs2 hc
      · exact ih (c0 :: acc) rest
          (fun hm => hl (by
            rcases List.mem_cons.mp hm with h2 | h2
            · exact h2 ▸ List.mem_cons_self c0 rest
            · exact absurd h2 ha))
          (fun hm => hl (List.mem_cons_of_mem _ hm)) s hs hc

theorem brace_splitSentences {s0 : PyStr} (h : '\x7b' ∉ s0) :
    ∀ s ∈ splitSentences s0, '\x7b' ∉ s :=
  brace_splitSentencesGo _ [] s0 (List.not_mem_nil _) h

theorem brace_snoc {chunks : List PyStr} {current : PyStr}
    (hch : ∀ ch ∈ chunks, '\x7b' ∉ ch) (hcur : '\x7b' ∉ current) :
    ∀ ch ∈ chunks ++ [current], '\x7b' ∉ ch := by
  intro ch hcm
  rcases List.mem_append.mp hcm with h2 | h2
  · exact hch ch h2
  · rcases List.mem_cons.mp h2 with rfl | h3
    · exact hcur
    · exact absurd h3 (List.not_mem_nil _)

theorem brace_splitChunksWordLoop (maxChars : Nat) : ∀ (ws chunks : List PyStr)
    (current : PyStr), (∀ w ∈ ws, '\x7b' ∉ w) → (∀ ch ∈ chunks, '\x7b' ∉ ch) →
    '\x7b' ∉ current →
    (∀ ch ∈ (splitChunksWordLoop maxChars ws chunks current).1, '\x7b' ∉ ch) ∧
    '\x7b' ∉ (splitChunksWordLoop maxChars ws chunks current).2 := by
  intro ws
  induction ws with
  | nil =>
    intro chunks current _ hch hcur
    exact ⟨hch, hcur⟩
  | cons w ws ih =>
    intro chunks current hws hch hcur
    have hw : '\x7b' ∉ w := hws w (List.mem_cons_self w ws)
    have hws2 : ∀ x ∈ ws, '\x7b' ∉ x := fun x hx => hws x (List.mem_cons_of_mem _ hx)
    rw [splitChunksWordLoop]
    by_cases hc0 : current ≠ []
    · simp only [if_pos hc0]
      split
      · exact ih _ _ hws2 hch (brace_space_join hcur hw)
      · exact ih _ _ hws2 (brace_snoc hch hcur) hw
    · simp only [if_neg hc0]
      split
      · exact ih _ _ hws2 hch hw
      · exact ih _ _ hws2 hch hw

theorem brace_splitChunksLoop (maxChars : Nat) : ∀ (sentences chunks : List PyStr)
    (current : PyStr), (∀ s ∈ sentences, '\x7b' ∉ s) →
    (∀ ch ∈ chunks, '\x7b' ∉ ch) → '\x7b' ∉ current →
    (∀ ch ∈ (splitChunksLoop maxChars sentences chunks current).1, '\x7b' ∉ ch) ∧
    '\x7b' ∉ (splitChunksLoop maxChars sentences chunks current).2 := by
  intro sentences
  induction sentences with
  | nil =>
    intro chunks current _ hch hcur
    exact ⟨hch, hcur⟩
  | cons sRaw sentences ih =>
    intro chunks current hs hch hcur
    have hsr : '\x7b' ∉ pstrip sRaw := brace_pstrip (hs sRaw (List.mem_cons_self _ _))
    have hs2 : ∀ x ∈ sentences, '\x7b' ∉ x := fun x hx => hs x (List.mem_cons_of_mem _ hx)
    rw [splitChunksLoop]
    dsimp only []
    split
    · exact ih _ _ hs2 hch hcur
    · by_cases hc0 : current ≠ []
      · simp only [if_pos hc0]
        split
        · exact ih _ _ hs2 hch (brace_space_join hcur hsr)
        · split
          · exact ih _ _ hs2 (brace_snoc hch hcur) hsr
          · rcases hwl : splitChunksWordLoop maxChars (splitWs (pstrip sRaw))
              (chunks ++ [current]) [] with ⟨chunks2, current2⟩
            have hrec := brace_splitChunksWordLoop maxChars (splitWs (pstrip sRaw))
              (chunks ++ [current]) []
              (brace_splitWs hsr) (brace_snoc hch hcur) (List.not_mem_nil _)
            rw [hwl] at hrec
            exact ih _ _ hs2 hrec.1 hrec.2
      · simp only [if_neg hc0]
        split
        · exact ih _ _ hs2 hch hsr
        · have hrec := brace_splitChunksWordLoop maxChars (splitWs (pstrip sRaw))
            chunks [] (brace_splitWs hsr) hch (List.not_mem_nil _)
          exact ih _ _ hs2 hrec.1 hrec.2

theorem brace_splitPlotIntoDisplayChunks {plot : PyStr} (h : '\x7b' ∉ plot) :
    ∀ ch ∈ splitPlotIntoDisplayChunks plot, '\x7b' ∉ ch := by
  intro ch hch
  unfold splitPlotIntoDisplayChunks at hch
  split at hch
  · exact absurd hch (List.not_mem_nil _)
  · have hrec := brace_splitChunksLoop MAX_CHARS_PER_CHUNK
      (splitSentences (pstrip plot)) [] []
      (brace_splitSentences (brace_pstrip h))
      (fun x hx => absurd hx (List.not_mem_nil _)) (List.not_mem_nil _)
    dsimp only [] at hch
    split at hch
    · rcases List.mem_append.mp hch with h2 | h2
      · exact hrec.1 ch h2
      · rcases List.mem_cons.mp h2 with rfl | h3
        · exact hrec.2
        · exact absurd h3 (List.not_mem_nil _)
    · exact hrec.1 ch hch

theorem brace_getD_mem {res : List PyStr} {idx : Nat}
    (h : ∀ ch ∈ res, '\x7b' ∉ ch) : '\x7b' ∉ res.getD idx [] := by
  unfold List.getD
  cases hg : res.get? idx with
  | none => simp [List.not_mem_nil]
  | some v =>
    simp only [Option.getD_some]
    exact h v (List.get?_mem hg)

theorem brace_mergeLoop : ∀ (i : Nat) (res : List PyStr),
    (∀ ch ∈ res, '\x7b' ∉ ch) → ∀ ch ∈ mergeLoop res i, '\x7b' ∉ ch := by
  intro i
  induction i with
  | zero => intro res h; exact h
  | succ i ih =>
    intro res h
    rw [mergeLoop]
    dsimp only []
    refine ih _ ?_
    split
    · split
      · intro ch hch
        have hch2 := (List.eraseIdx_sublist _ _).subset hch
        rcases List.mem_or_eq_of_mem_set hch2 with h2 | h2
        · exact h ch h2
        · subst h2
          exact brace_space_join (brace_getD_mem h) (brace_getD_mem h)
      · exact h
    · exact h

theorem brace_mergeSmallTrailingChunks {chunks : List PyStr}
    (h : ∀ ch ∈ chunks, '\x7b' ∉ ch) :
    ∀ ch ∈ mergeSmallTrailingChunks chunks, '\x7b' ∉ ch := by
  unfold mergeSmallTrailingChunks
  split
  · exact h
  · exact brace_mergeLoop _ _ h

theorem brace_textwrapFill (width : Nat) : ∀ (fuel : Nat) (ws : List PyStr)
    (cur : PyStr), (∀ w ∈ ws, '\x7b' ∉ w) → '\x7b' ∉ cur →
    ∀ ln ∈ textwrapFill width fuel ws cur, '\x7b' ∉ ln := by
  intro fuel
  induction fuel with
  | zero =>
    intro ws cur _ hcur ln hln
    rw [textwrapFill] at hln
    split at hln
    · exact absurd hln (List.not_mem_nil _)
    · rcases List.mem_cons.mp hln with rfl | h2
      · exact hcur
      · exact absurd h2 (List.not_mem_nil _)
  | succ f ih =>
    intro ws cur hws hcur ln hln
    cases ws with
    | nil =>
      rw [textwrapFill] at hln
      split at hln
      · exact absurd hln (List.not_mem_nil _)
      · rcases List.mem_cons.mp hln with rfl | h2
        · exact hcur
        · exact absurd h2 (List.not_mem_nil _)
    | cons w ws =>
      have hw : '\x7b' ∉ w := hws w (List.mem_cons_self w ws)
      have hws2 : ∀ x ∈ ws, '\x7b' ∉ x := fun x hx => hws x (List.mem_cons_of_mem _ hx)
      rw [textwrapFill] at hln
      split at hln
      · split at hln
        · exact ih ws w hws2 hw ln hln
        · rcases List.mem_cons.mp hln with rfl | h2
          · exact fun hm => hw (List.take_subset _ _ hm)
          · refine ih _ [] ?_ (List.not_mem_nil _) ln h2
            intro x hx
            rcases List.mem_cons.mp hx with rfl | h3
            · exact fun hm => hw (List.drop_subset _ _ hm)
            · exact hws2 x h3
      · split at hln
        · exact ih ws _ hws2 (brace_space_join hcur hw) ln hln
        · rcases List.mem_cons.mp hln with rfl | h2
          · exact hcur
          · exact ih (w :: ws) [] hws (List.not_mem_nil _) ln h2

theorem brace_textwrapWrap {width : Nat} {text : PyStr} (h : '\x7b' ∉ text) :
    ∀ ln ∈ textwrapWrap width text, '\x7b' ∉ ln := by
  intro ln hln
  unfold textwrapWrap at hln
  dsimp only [] at hln
  refine brace_textwrapFill width _ _ [] ?_ (List.not_mem_nil _) ln hln
  refine brace_splitWs ?_
  intro hm
  obtain ⟨c, hcmem, hceq⟩ := List.mem_map.mp hm
  by_cases hsp : c = '\t' || c = '\n' || c = '\x0b' || c = '\x0c' || c = '\r'
  · rw [if_pos hsp] at hceq
    exact absurd hceq (by decide)
  · rw [if_neg hsp] at hceq
    exact h (hceq ▸ hcmem)

theorem brace_joinNL {L : List PyStr} (h : ∀ l ∈ L, '\x7b' ∉ l) :
    '\x7b' ∉ joinNL L := by
  intro hc
  rcases mem_joinNL hc with h2 | ⟨l, hl, hcl⟩
  · exact absurd h2 (by decide)
  · exact h l hl hcl

theorem brace_joinSpace {L : List PyStr} (h : ∀ l ∈ L, '\x7b' ∉ l) :
    '\x7b' ∉ joinSpace L := by
  intro hc
  rcases mem_intercalate hc with h2 | ⟨l, hl, hcl⟩
  · rcases List.mem_cons.mp h2 with h3 | h3
    · exact absurd h3 (by decide)
    · exact absurd h3 (List.not_mem_nil _)
  · exact h l hl hcl

theorem brace_prstrip {l : PyStr} (h : '\x7b' ∉ l) : '\x7b' ∉ prstrip l :=
  fun hc => h (( List.rdropWhile_prefix _ _).sublist.subset hc)

theorem brace_wrapForTv {text : PyStr} (h : '\x7b' ∉ text) :
    '\x7b' ∉ wrapForTv text := by
  unfold wrapForTv
  dsimp only []
  have hlines := @brace_textwrapWrap TV_LINE_WIDTH _ h
  split
  · split
    · exact brace_joinNL fun l hl => hlines l (List.take_subset _ _ hl)
    · next last front heq =>
      refine brace_joinNL ?_
      intro l hl
      rw [List.mem_reverse] at hl
      rcases List.mem_cons.mp hl with rfl | h2
      · intro hc
        rcases List.mem_append.mp hc with h3 | h3
        · exact hlines last (List.take_subset _ _
            (List.mem_reverse.mp (heq ▸ List.mem_cons_self _ _)))
            (( List.rdropWhile_prefix _ _).sublist.subset h3)
        · exact absurd h3 (by decide)
      · exact hlines l (List.take_subset _ _
          (List.mem_reverse.mp (heq ▸ List.mem_cons_of_mem _ h2)))
  · exact brace_joinNL hlines

theorem brace_getOrNA {v : Option PyStr} (h : '\x7b' ∉ v.getD []) :
    '\x7b' ∉ getOrNA v := by
  cases v with
  | none => decide
  | some s =>
    show '\x7b' ∉ (if s = [] then "N/A".toList else s)
    split
    · decide
    · exact h

theorem brace_firstDigitRun : ∀ {s digits : PyStr}, '\x7b' ∉ s →
    firstDigitRun s = some digits → '\x7b' ∉ digits := by
  intro s
  induction s with
  | nil =>
    intro digits _ hd
    rw [firstDigitRun] at hd
    exact absurd hd (by simp)
  | cons c rest ih =>
    intro digits h hd
    rw [firstDigitRun] at hd
    split at hd
    · obtain rfl := Option.some_inj.mp hd
      intro hm
      rcases List.mem_cons.mp hm with rfl | hm2
      · exact h (List.mem_cons_self _ _)
      · exact h (List.mem_cons_of_mem _ ((List.takeWhile_sublist _).subset hm2))
    · exact ih (fun hm => h (List.mem_cons_of_mem _ hm)) hd

theorem brace_splitCommaSpace : ∀ (fuel : Nat) (l : PyStr), '\x7b' ∉ l →
    ∀ p ∈ splitCommaSpace fuel l, '\x7b' ∉ p := by
  intro fuel
  induction fuel with
  | zero =>
    intro l h p hp
    rw [splitCommaSpace] at hp
    rcases List.mem_cons.mp hp with rfl | h2
    · exact h
    · exact absurd h2 (List.not_mem_nil _)
  | succ f ih =>
    intro l h p hp
    rw [splitCommaSpace.eq_def] at hp
    split at hp
    · rename_i heq
      exact absurd heq (by omega)
    · simp only [List.mem_singleton] at hp
      subst hp
      exact List.not_mem_nil _
    · rename_i fuel2 rest heq
      obtain rfl : fuel2 = f := by omega
      rcases List.mem_cons.mp hp with rfl | h2
      · exact List.not_mem_nil _
      · exact ih rest (fun hm => h (List.mem_cons_of_mem _ (List.mem_cons_of_mem _ hm)))
          p h2
    · rename_i fuel2 c rest hno heq
      rw [show fuel2 = f from by omega] at hp
      have hc : '\x7b' ∉ (c :: rest) := h
      have hcne : c ≠ '\x7b' := fun he => hc (he ▸ List.mem_cons_self _ _)
      have hrest : '\x7b' ∉ rest := fun hm => hc (List.mem_cons_of_mem _ hm)
      cases hrec : splitCommaSpace f rest with
      | nil =>
        rw [hrec] at hp
        rcases List.mem_cons.mp hp with rfl | h2
        · intro hm
          rcases List.mem_cons.mp hm with rfl | hm2
          · exact hcne rfl
          · exact absurd hm2 (List.not_mem_nil _)
        · exact absurd h2 (List.not_mem_nil _)
      | cons fld flds =>
        rw [hrec] at hp
        have hfld : '\x7b' ∉ fld :=
          ih rest hrest fld (hrec ▸ List.mem_cons_self _ _)
        rcases List.mem_cons.mp hp with rfl | h2
        · intro hm
          rcases List.mem_cons.mp hm with rfl | hm2
          · exact hcne rfl
          · exact hfld hm2
        · exact ih rest hrest p (hrec ▸ List.mem_cons_of_mem _ h2)

theorem brace_joinCommaSpace {parts : List PyStr}
    (h : ∀ p ∈ parts, '\x7b' ∉ p) : '\x7b' ∉ joinCommaSpace parts := by
  intro hc
  rcases mem_intercalate hc with h2 | ⟨l, hl, hcl⟩
  · rcases List.mem_cons.mp h2 with h3 | h3
    · exact absurd h3 (by decide)
    · rcases List.mem_cons.mp h3 with h4 | h4
      · exact absurd h4 (by decide)
      · exact absurd h4 (List.not_mem_nil _)
  · exact h l hl hcl

theorem SENTINEL_cons : SUBLOGUE_SENTINEL =
    '\x7b' :: 'S' :: 'U' :: 'B' :: 'L' :: 'O' :: 'G' :: 'U' :: 'E' :: ['\x7d'] := rfl

theorem matchSublogueTokenAt_sentinel (rest : PyStr) :
    matchSublogueTokenAt (SUBLOGUE_SENTINEL ++ rest) = some 10 := rfl

theorem sublogueTokenSubGo_sentinel (fuel : Nat) (rest : PyStr)
    (h : '\x7b' ∉ rest) :
    sublogueTokenSubGo (fuel + 1) (SUBLOGUE_SENTINEL ++ rest) = rest := by
  show sublogueTokenSubGo fuel rest = rest
  exact sublogueTokenSubGo_id_no_brace fuel rest h

theorem sublogueTokenSub_sentinel {rest : PyStr} (h : '\x7b' ∉ rest) :
    sublogueTokenSub (SUBLOGUE_SENTINEL ++ rest) = rest := by
  show sublogueTokenSubGo ((SUBLOGUE_SENTINEL ++ rest).length + 1)
    (SUBLOGUE_SENTINEL ++ rest) = rest
  rw [show (SUBLOGUE_SENTINEL ++ rest).length + 1 = (SUBLOGUE_SENTINEL.length + rest.length) + 1
    from by rw [List.length_append]]
  exact sublogueTokenSubGo_sentinel _ rest h

theorem no_token_of_no_brace {t : PyStr} (h : '\x7b' ∉ t) :
    containsSub SUBLOGUE_SENTINEL t = false := by
  cases hcs : containsSub SUBLOGUE_SENTINEL t with
  | false => rfl
  | true => exact absurd (containsSub_mem hcs '\x7b' (by decide)) h

theorem brace_sanitizeSubtitleText {t : PyStr} (h : '\x7b' ∉ t) :
    '\x7b' ∉ sanitizeSubtitleText t := by
  intro hmem
  unfold sanitizeSubtitleText at hmem
  rw [show sublogueTokenSub t = t from
    sublogueTokenSubGo_id_no_brace _ _ h] at hmem
  rcases mem_collapseNewlinesGo t 0 _ (mem_pstrip hmem) with h2 | h2
  · exact absurd h2 (by decide)
  · exact h h2

theorem brace_sanitize_sentinel {rest : PyStr} (h : '\x7b' ∉ rest) :
    '\x7b' ∉ sanitizeSubtitleText (SUBLOGUE_SENTINEL ++ rest) := by
  intro hmem
  unfold sanitizeSubtitleText at hmem
  rw [sublogueTokenSub_sentinel h] at hmem
  rcases mem_collapseNewlinesGo rest 0 _ (mem_pstrip hmem) with h2 | h2
  · exact absurd h2 (by decide)
  · exact h h2

theorem joinNL_sentinel_shape {L : List PyStr} (hne : L ≠ [])
    (h : ∀ l ∈ L, '\x7b' ∉ l) :
    joinNL (SUBLOGUE_SENTINEL :: L) = SUBLOGUE_SENTINEL ++ '\n' :: joinNL L ∧
    '\x7b' ∉ joinNL L := by
  cases L with
  | nil => exact absurd rfl hne
  | cons x L2 => exact ⟨joinNL_cons_cons _ _ _, brace_joinNL h⟩

theorem headerParts_shape (tl il attr : PyStr) (E : List PyStr)
    (htl : '\x7b' ∉ tl) (hil : '\x7b' ∉ il) (hattr : '\x7b' ∉ attr)
    (hE : ∀ l ∈ E, '\x7b' ∉ l) :
    ∃ rest, joinNL ([SUBLOGUE_SENTINEL, tl, il] ++ E ++ [[], attr]) =
      SUBLOGUE_SENTINEL ++ '\n' :: rest ∧ '\x7b' ∉ rest := by
  have hshape : [SUBLOGUE_SENTINEL, tl, il] ++ E ++ [[], attr] =
      SUBLOGUE_SENTINEL :: ([tl, il] ++ E ++ [[], attr]) := rfl
  rw [hshape]
  have hmem : ∀ l ∈ [tl, il] ++ E ++ [[], attr], '\x7b' ∉ l := by
    intro l hl
    rcases List.mem_append.mp hl with h1 | h1
    · rcases List.mem_append.mp h1 with h2 | h2
      · rcases List.mem_cons.mp h2 with rfl | h3
        · exact htl
        · rcases List.mem_cons.mp h3 with rfl | h4
          · exact hil
          · exact absurd h4 (List.not_mem_nil _)
      · exact hE l h2
    · rcases List.mem_cons.mp h1 with rfl | h2
      · exact List.not_mem_nil _
      · rcases List.mem_cons.mp h2 with rfl | h3
        · exact hattr
        · exact absurd h3 (List.not_mem_nil _)
  obtain ⟨h1, h2⟩ := joinNL_sentinel_shape (by simp) hmem
  exact ⟨_, h1, h2⟩

theorem formatPlotChunk_shape (fo : SubtitleFormatOptions) (chunk : PyStr)
    (b : Bool) (h : '\x7b' ∉ chunk) :
    ∃ rest, formatPlotChunk fo chunk b = SUBLOGUE_SENTINEL ++ '\n' :: rest ∧
      '\x7b' ∉ rest := by
  have hw := brace_wrapForTv h
  unfold formatPlotChunk
  dsimp only []
  have hstyled : '\x7b' ∉ (if fo.plot_italic then
      "<i>".toList ++ wrapForTv chunk ++ "</i>".toList else wrapForTv chunk) := by
    split
    · exact brace_append (brace_append (by decide) hw) (by decide)
    · exact hw
  split
  · refine ⟨"Plot: ".toList ++ (if fo.plot_italic then
      "<i>".toList ++ wrapForTv chunk ++ "</i>".toList else wrapForTv chunk),
      ?_, brace_append (by decide) hstyled⟩
    simp [List.append_assoc]
  · exact ⟨_, rfl, hstyled⟩

theorem brace_buildHeaderText (movie : Movie) (fo : SubtitleFormatOptions)
    (htitle : '\x7b' ∉ movie.title.getD [])
    (hyear : '\x7b' ∉ movie.year.getD [])
    (himdb : '\x7b' ∉ movie.imdb_rating.getD [])
    (hrt : '\x7b' ∉ movie.rotten_tomatoes.getD [])
    (hruntime : '\x7b' ∉ movie.runtime.getD [])
    (hdirector : '\x7b' ∉ movie.director.getD [])
    (hactors : '\x7b' ∉ movie.actors.getD [])
    (hreleased : '\x7b' ∉ movie.released.getD [])
    (hgenre : '\x7b' ∉ movie.genre.getD []) :
    ∃ rest, buildHeaderText movie fo = SUBLOGUE_SENTINEL ++ '\n' :: rest ∧
      '\x7b' ∉ rest := by
  have htitle2 : '\x7b' ∉ movie.title.getD "Unknown Title".toList := by
    cases hmt : movie.title with
    | none => decide
    | some s =>
      rw [hmt] at htitle
      exact htitle
  have himdb2 := brace_getOrNA himdb
  have hrt2 := brace_getOrNA hrt
  have hruntime2 := brace_getOrNA hruntime
  have hdirector2 := brace_getOrNA hdirector
  have hactors2 := brace_getOrNA hactors
  have hreleased2 := brace_getOrNA hreleased
  have hgenre2 := brace_getOrNA hgenre
  unfold buildHeaderText
  dsimp only []
  refine headerParts_shape _ _ _ _ ?_ ?_ ?_ ?_
  · refine brace_append (brace_append (brace_append ?_ (by decide)) hyear) (by decide)
    split
    · exact brace_append (brace_append (by decide) htitle2) (by decide)
    · exact htitle2
  · refine brace_append (brace_append (brace_append (brace_append (brace_append
      (by decide) himdb2) (by decide)) hrt2) (by decide)) ?_
    split
    · split
      · next digits hdr => exact brace_append (brace_firstDigitRun hruntime2 hdr) (by decide)
      · exact hruntime2
    · decide
  · decide
  · intro l hl
    rcases List.mem_append.mp hl with h1 | h1
    · rcases List.mem_append.mp h1 with h2 | h2
      · rcases List.mem_append.mp h2 with h3 | h3
        · split at h3
          · rw [List.mem_singleton] at h3
            subst h3
            exact brace_append (by decide) hdirector2
          · exact absurd h3 (List.not_mem_nil _)
        · split at h3
          · rw [List.mem_singleton] at h3
            subst h3
            refine brace_append (by decide) ?_
            split
            · refine brace_append (brace_joinCommaSpace ?_) (by decide)
              intro q hq
              exact brace_splitCommaSpace _ _ hactors2 q (List.take_subset _ _ hq)
            · exact hactors2
          · exact absurd h3 (List.not_mem_nil _)
      · split at h2
        · rw [List.mem_singleton] at h2
          subst h2
          exact brace_append (by decide) hreleased2
        · exact absurd h2 (List.not_mem_nil _)
    · split at h1
      · rw [List.mem_singleton] at h1
        subst h1
        exact brace_append (by decide) hgenre2
      · exact absurd h1 (List.not_mem_nil _)

theorem case1Loop_text_shape (firstMs : Int) (fo : SubtitleFormatOptions) :
    ∀ (chunks : List PyStr) (cur : Int) (i : Nat),
    (∀ ch ∈ chunks, '\x7b' ∉ ch) →
    ∀ b ∈ case1Loop firstMs fo chunks cur i,
      ∃ rest, b.text = SUBLOGUE_SENTINEL ++ '\n' :: rest ∧ '\x7b' ∉ rest := by
  intro chunks
  induction chunks with
  | nil =>
    intro cur i _ b hb
    rw [case1Loop] at hb
    exact absurd hb (List.not_mem_nil _)
  | cons ch rest ih =>
    intro cur i h b hb
    rw [case1Loop] at hb
    rcases List.mem_cons.mp hb with rfl | hb2
    · exact formatPlotChunk_shape fo ch _ (h ch (List.mem_cons_self _ _))
    · exact ih _ _ (fun x hx => h x (List.mem_cons_of_mem _ hx)) b hb2

theorem case2Loop_text_shape (firstMs : Int) (fo : SubtitleFormatOptions)
    (plotAvailableMs : Int) (totalWords mergedLen : Nat) :
    ∀ (chunks : List PyStr) (cur : Int) (i : Nat),
    (∀ ch ∈ chunks, '\x7b' ∉ ch) →
    ∀ b ∈ case2Loop firstMs fo plotAvailableMs totalWords mergedLen chunks cur i,
      ∃ rest, b.text = SUBLOGUE_SENTINEL ++ '\n' :: rest ∧ '\x7b' ∉ rest := by
  intro chunks
  induction chunks with
  | nil =>
    intro cur i _ b hb
    rw [case2Loop] at hb
    exact absurd hb (List.not_mem_nil _)
  | cons ch rest ih =>
    intro cur i h b hb
    rw [case2Loop] at hb
    rcases List.mem_cons.mp hb with rfl | hb2
    · exact formatPlotChunk_shape fo ch _ (h ch (List.mem_cons_self _ _))
    · exact ih _ _ (fun x hx => h x (List.mem_cons_of_mem _ hx)) b hb2

theorem case3Loop_text_shape (firstMs gapMs : Int) (fo : SubtitleFormatOptions)
    (mergedLen : Nat) :
    ∀ (chunks : List PyStr) (cur : Int) (i ca : Nat),
    (∀ ch ∈ chunks, '\x7b' ∉ ch) →
    ∀ b ∈ case3Loop firstMs gapMs fo mergedLen chunks cur i ca,
      ∃ rest, b.text = SUBLOGUE_SENTINEL ++ '\n' :: rest ∧ '\x7b' ∉ rest := by
  intro chunks
  induction chunks with
  | nil =>
    intro cur i ca _ b hb
    rw [case3Loop] at hb
    exact absurd hb (List.not_mem_nil _)
  | cons ch rest ih =>
    intro cur i ca h b hb
    rw [case3Loop] at hb
    dsimp only [] at hb
    have hch : '\x7b' ∉ ch := h ch (List.mem_cons_self _ _)
    split at hb
    · exact absurd hb (List.not_mem_nil _)
    · split at hb
      · rw [List.mem_singleton] at hb
        subst hb
        refine formatPlotChunk_shape fo _ _ ?_
        split
        · exact brace_joinSpace h
        · exact hch
      · rcases List.mem_cons.mp hb with rfl | hb2
        · refine formatPlotChunk_shape fo _ _ ?_
          split
          · exact brace_joinSpace h
          · exact hch
        · exact ih _ _ _ (fun x hx => h x (List.mem_cons_of_mem _ hx)) b hb2

theorem buildIntroBlocks_text_shape (movie : Movie) (plot : PyStr)
    (firstMs gapMs : Int) (fo : SubtitleFormatOptions)
    (hplot : '\x7b' ∉ plot)
    (htitle : '\x7b' ∉ movie.title.getD [])
    (hyear : '\x7b' ∉ movie.year.getD [])
    (himdb : '\x7b' ∉ movie.imdb_rating.getD [])
    (hrt : '\x7b' ∉ movie.rotten_tomatoes.getD [])
    (hruntime : '\x7b' ∉ movie.runtime.getD [])
    (hdirector : '\x7b' ∉ movie.director.getD [])
    (hactors : '\x7b' ∉ movie.actors.getD [])
    (hreleased : '\x7b' ∉ movie.released.getD [])
    (hgenre : '\x7b' ∉ movie.genre.getD []) :
    ∀ b ∈ buildIntroBlocks movie plot firstMs gapMs fo,
      ∃ rest, b.text = SUBLOGUE_SENTINEL ++ '\n' :: rest ∧ '\x7b' ∉ rest := by
  intro b hb
  have hheader := brace_buildHeaderText movie fo htitle hyear himdb hrt hruntime
    hdirector hactors hreleased hgenre
  have hchunks : ∀ ch ∈ mergeSmallTrailingChunks (splitPlotIntoDisplayChunks plot),
      '\x7b' ∉ ch :=
    brace_mergeSmallTrailingChunks (brace_splitPlotIntoDisplayChunks hplot)
  have htitle2 : '\x7b' ∉ movie.title.getD "Unknown Title".toList := by
    cases hmt : movie.title with
    | none => decide
    | some s => exact fun hm => htitle (by rw [hmt]; exact hm)
  unfold buildIntroBlocks at hb
  dsimp only [] at hb
  split at hb
  · exact absurd hb (List.not_mem_nil _)
  · split at hb
    · rcases List.mem_cons.mp hb with rfl | hb2
      · exact hheader
      · exact case1Loop_text_shape _ _ _ _ _ hchunks b hb2
    · split at hb
      · rcases List.mem_cons.mp hb with rfl | hb2
        · exact hheader
        · exact case2Loop_text_shape _ _ _ _ _ _ _ _ hchunks b hb2
      · split at hb
        · rcases List.mem_cons.mp hb with rfl | hb2
          · exact hheader
          · exact case3Loop_text_shape _ _ _ _ _ _ _ _ hchunks b hb2
        · split at hb
          · rw [List.mem_singleton] at hb
            subst hb
            refine ⟨((movie.title.getD "Unknown Title".toList ++ " (".toList)
              ++ movie.year.getD []) ++ ")\n— Generated by Sublogue".toList, ?_, ?_⟩
            · show SUBLOGUE_SENTINEL ++ '\n' :: movie.title.getD "Unknown Title".toList
                ++ " (".toList ++ movie.year.getD []
                ++ ")\n— Generated by Sublogue".toList = _
              simp [List.append_assoc]
            · exact brace_append (brace_append (brace_append htitle2 (by decide)) hyear)
                (by decide)
          · exact absurd hb (List.not_mem_nil _)

theorem sanitizeAll_renumber_token_free {L : List SubtitleBlock}
    (h : ∀ b ∈ L, ∃ rest,
      (b.text = SUBLOGUE_SENTINEL ++ '\n' :: rest ∨ b.text = rest) ∧
      '\x7b' ∉ rest) :
    ∀ b' ∈ sanitizeAllBlocks (renumberBlocks L),
      containsSub SUBLOGUE_SENTINEL b'.text = false := by
  intro b' hb'
  unfold sanitizeAllBlocks renumberBlocks at hb'
  obtain ⟨b, hbmem, hbeq⟩ := List.mem_filterMap.mp hb'
  obtain ⟨i, hi, rfl⟩ := List.exists_of_mem_mapIdx hbmem
  dsimp only [] at hbeq
  obtain ⟨rest, hsh, hrest⟩ := h (L.get ⟨i, hi⟩) (List.getElem_mem hi)
  have hbt : '\x7b' ∉ sanitizeSubtitleText (L.get ⟨i, hi⟩).text := by
    rcases hsh with heq | heq
    · rw [show (L.get ⟨i, hi⟩).text = SUBLOGUE_SENTINEL ++ '\n' :: rest from heq]
      refine brace_sanitize_sentinel ?_
      intro hm
      rcases List.mem_cons.mp hm with hcc | hm2
      · exact absurd hcc (by decide)
      · exact hrest hm2
    · rw [show (L.get ⟨i, hi⟩).text = rest from heq]
      exact brace_sanitizeSubtitleText hrest
  split at hbeq
  · obtain rfl := (Option.some_inj.mp hbeq).symm
    exact no_token_of_no_brace hbt
  · exact absurd hbeq (by simp)

/-- C4 (amended): the sanitizer is a single, non-rescanning regex pass, so
adjacent removals can concatenate a fresh token (see the counterexample with
the plot `\x7bSUBLOGUE\x7bSUBLOGUE\x7d\x7d`).  On the write path the
property does hold for brace-free inputs: when the plot, the displayed
metadata fields and the dialogue texts contain no left-brace character,
every intro block the builder creates carries a literal `\x7bSUBLOGUE\x7d`
sentinel line, and after the prepend-renumber-sanitize pipeline no block
written to the file contains the sentinel token — the generated sentinel
lines are all scrubbed. -/
theorem C4_write_path_token_free (movie : Movie) (plot : PyStr)
    (firstMs gapMs : Int) (fo : SubtitleFormatOptions) (subs : List SubtitleBlock)
    (hplot : '\x7b' ∉ plot)
    (htitle : '\x7b' ∉ movie.title.getD [])
    (hyear : '\x7b' ∉ movie.year.getD [])
    (himdb : '\x7b' ∉ movie.imdb_rating.getD [])
    (hrt : '\x7b' ∉ movie.rotten_tomatoes.getD [])
    (hruntime : '\x7b' ∉ movie.runtime.getD [])
    (hdirector : '\x7b' ∉ movie.director.getD [])
    (hactors : '\x7b' ∉ movie.actors.getD [])
    (hreleased : '\x7b' ∉ movie.released.getD [])
    (hgenre : '\x7b' ∉ movie.genre.getD [])
    (hsubs : ∀ b ∈ subs, '\x7b' ∉ b.text) :
    ∀ b' ∈ sanitizeAllBlocks (renumberBlocks
        (buildIntroBlocks movie plot firstMs gapMs fo ++ subs)),
      containsSub SUBLOGUE_SENTINEL b'.text = false := by
  refine sanitizeAll_renumber_token_free ?_
  intro b hb
  rcases List.mem_append.mp hb with hmem | hmem
  · obtain ⟨rest, h1, h2⟩ := buildIntroBlocks_text_shape movie plot firstMs gapMs fo
      hplot htitle hyear himdb hrt hruntime hdirector hactors hreleased hgenre b hmem
    exact ⟨rest, Or.inl h1, h2⟩
  · exact ⟨b.text, Or.inr rfl, hsubs b hmem⟩

/-- Closed instance of `C4_write_path_token_free` on a run whose intro is
non-empty, so sentinel lines are actually inserted and then scrubbed. -/
theorem C4_write_path_token_free_witness :
    (('\x7b' ∉ "A hacker discovers reality is a simulation.".toList) ∧
     ('\x7b' ∉ (some "The Matrix".toList).getD []) ∧
     ('\x7b' ∉ (some "1999".toList).getD []) ∧
     ('\x7b' ∉ (some "8.7".toList).getD []) ∧
     ('\x7b' ∉ (some "83%".toList).getD []) ∧
     ('\x7b' ∉ (some "136 min".toList).getD []) ∧
     (∀ b ∈ [(⟨1, 100000, 102000, "Hello there.".toList⟩ : SubtitleBlock)],
       '\x7b' ∉ b.text) ∧
     buildIntroBlocks
        ⟨some "The Matrix".toList, some "1999".toList, none, some "8.7".toList,
         some "83%".toList, some "136 min".toList, none, none, none, none, none⟩
        "A hacker discovers reality is a simulation.".toList 100000 500
        DEFAULT_FORMAT_OPTIONS ≠ []) ∧
    ∀ b' ∈ sanitizeAllBlocks (renumberBlocks (buildIntroBlocks
        ⟨some "The Matrix".toList, some "1999".toList, none, some "8.7".toList,
         some "83%".toList, some "136 min".toList, none, none, none, none, none⟩
        "A hacker discovers reality is a simulation.".toList 100000 500
        DEFAULT_FORMAT_OPTIONS ++ [⟨1, 100000, 102000, "Hello there.".toList⟩])),
      containsSub SUBLOGUE_SENTINEL b'.text = false :=
  ⟨⟨by decide, by decide, by decide, by decide, by decide, by decide, by decide,
    by decide⟩,
   C4_write_path_token_free _ _ _ _ _ _ (by decide) (by decide) (by decide)
     (by decide) (by decide) (by decide) (by decide) (by decide) (by decide)
     (by decide) (by decide)⟩

end Sublogue
